import Mathlib

/-!
# StringPanel: the incremental printable-string index of REHex

A shallow embedding of `src/StringPanel.cpp` (the scan loop of `thread_main`,
`start_threads`, `get_nth_string` and the edit handlers), together with the
properties proved about it.

Conventions of the embedding
* a byte is a `Nat` below 256; the document is a `List Nat`;
* `off_t` / `size_t` values are `Nat`; where the C++ arithmetic can wrap the
  reduction modulo `2 ^ 64` (or `2 ^ 32` for `unsigned int`) is written out;
* the worker threads are sequentialised: the value of the shared flag
  `threads_pause` at its `t`-th read is given by an oracle `pause : Nat → Bool`;
* mutexes and condition variables are not modelled: a worker that waits at a pause is the
  end of a run of the model (`ThreadOutcome.waiting`), and the wait of `pause_threads` is
  left out of its state change.
-/

namespace REHex

/-! ## Constants (StringPanel.cpp, lines 25-28) -/

def MIN_STRING_LENGTH : Nat := 4
def WINDOW_SIZE : Nat := 2 * 1024 * 1024
def MAX_STRINGS : Nat := 0xFFFFFFFF
def UI_THREAD_THRESH : Nat := 256 * 1024

/-- One element of a `ByteRangeSet`: the bytes `[offset, offset + length)`. -/
structure Range where
  offset : Nat
  length : Nat
deriving DecidableEq, Repr

/-! ## Character classification -/

/-- The `isascii` of `<ctype.h>`: the value fits in seven bits. A byte of 128 or more is
not ASCII, whether `char` is signed or not. -/
def isascii (c : Nat) : Bool := decide (c < 128)

/-- The `isprint` of `<ctype.h>` in the "C" locale: the characters 0x20 to 0x7E. -/
def isprint (c : Nat) : Bool := decide (32 ≤ c) && decide (c ≤ 126)

/-! ## The scan loop of `thread_main` (lines 157-209) -/

/-- The read `data_p[i]`. Inside the vector it is the byte; at `i ≥ data.size()` the C++
reads past the end of the vector, and `oob` stands for whatever value lies there. -/
def data_p (data : List Nat) (oob : Nat) (i : Nat) : Nat := data.getD i oob

/-- The inner loop
`while(!threads_pause && isascii(data_p[i]) && isprint(data_p[i]) && i < data.size())`
with body `++string_length; ++i;`. The conjuncts are evaluated in the order of the source.
`t` counts the reads of `threads_pause`. Returns `(i, string_length, t)` at loop exit.
The first argument bounds the number of iterations (`data.size() + 1 - i` is enough). -/
def extend_string (pause : Nat → Bool) (data : List Nat) (oob : Nat) :
    Nat → Nat → Nat → Nat → Nat × Nat × Nat
  | 0, i, string_length, t => (i, string_length, t)
  | fuel + 1, i, string_length, t =>
    if !pause t && isascii (data_p data oob i) && isprint (data_p data oob i)
        && decide (i < data.length) then
      extend_string pause data oob fuel (i + 1) (string_length + 1) (t + 1)
    else
      (i, string_length, t + 1)

/-- What one pass of the `for` loop over a window leaves behind. -/
structure ScanOutcome where
  /-- The arguments of the calls `strings.set_range(string_base, string_length)`, in order. -/
  found : List Range
  /-- The `string_base` of the iteration that saw `threads_pause`, if one did. -/
  paused : Option Nat
  /-- Number of reads of `threads_pause` so far. -/
  t : Nat
deriving DecidableEq, Repr

/-- The loop `for(size_t i = 0; i < data.size(); ++i)` of `thread_main`, from index `i` on.
The first argument bounds the number of iterations (`data.size()` is enough). -/
def scan_loop (pause : Nat → Bool) (data : List Nat) (oob : Nat) (window_base_adj : Nat) :
    Nat → Nat → Nat → ScanOutcome
  | 0, _, t => ⟨[], none, t⟩
  | fuel + 1, i, t =>
    if i < data.length then
      let string_base := window_base_adj + i
      let r := extend_string pause data oob (data.length + 1 - i) i 0 t
      let i1 := r.1
      let string_length := r.2.1
      let t1 := r.2.2
      if pause t1 then
        ⟨[], some string_base, t1 + 1⟩
      else
        let rest := scan_loop pause data oob window_base_adj fuel (i1 + 1) (t1 + 1)
        if MIN_STRING_LENGTH ≤ string_length then
          ⟨⟨string_base, string_length⟩ :: rest.found, rest.paused, rest.t⟩
        else
          rest
    else
      ⟨[], none, t⟩

/-- The whole `for` loop over the bytes read for a window. -/
def scan_window (pause : Nat → Bool) (data : List Nat) (oob : Nat) (window_base_adj : Nat)
    (t : Nat) : ScanOutcome :=
  scan_loop pause data oob window_base_adj data.length 0 t

/-- The oracle of a run in which no pause is ever requested. -/
def no_pause : Nat → Bool := fun _ => false

/-! ## ByteRangeSet

`ByteRangeSet.cpp` is not part of the sources at hand; the four mutators used by
`StringPanel` are modelled from section 3 and 4.1 of the specification. A set is the list
of its ranges in ascending order of offset. -/

/-- Modelled from the spec: the union step of `ByteRangeSet::set_range` (source missing).
Unions the interval `[lo, hi)` into the sorted list, absorbing every range that overlaps it
or touches it ("merging with any overlapping/adjacent existing ranges"). -/
def merge_range : List Range → Nat → Nat → List Range
  | [], lo, hi => [⟨lo, hi - lo⟩]
  | r :: rs, lo, hi =>
    if r.offset + r.length < lo then r :: merge_range rs lo hi
    else if hi < r.offset then ⟨lo, hi - lo⟩ :: r :: rs
    else merge_range rs (min lo r.offset) (max hi (r.offset + r.length))

/-- Modelled from the spec: `ByteRangeSet::set_range(off_t offset, off_t length)` (source
missing): "unions a new interval in, merging with any overlapping/adjacent existing ranges".
A range has positive length (spec section 3), so a span whose `off_t` length is zero or
negative holds no byte and leaves the set as it is. -/
def set_range (rs : List Range) (offset : Nat) (length : Int) : List Range :=
  if length ≤ 0 then rs else merge_range rs offset (offset + length.toNat)

/-- Modelled from the spec: what is left of one range when `[lo, hi)` is subtracted from it:
the part below `lo` and the part from `hi` on, when not empty. -/
def cut_range (r : Range) (lo hi : Nat) : List Range :=
  (if r.offset < min (r.offset + r.length) lo then
      [⟨r.offset, min (r.offset + r.length) lo - r.offset⟩] else []) ++
  (if max r.offset hi < r.offset + r.length then
      [⟨max r.offset hi, r.offset + r.length - max r.offset hi⟩] else [])

/-- Modelled from the spec: subtraction of `[lo, hi)` from every range of a list. -/
def cut_ranges : List Range → Nat → Nat → List Range
  | [], _, _ => []
  | r :: rs, lo, hi => cut_range r lo hi ++ cut_ranges rs lo hi

/-- Modelled from the spec: `ByteRangeSet::clear_range(offset, length)` (source missing):
"subtracts an interval, splitting any range it partially overlaps". An empty span subtracts
nothing. -/
def clear_range (rs : List Range) (offset length : Nat) : List Range :=
  if length = 0 then rs else cut_ranges rs offset (offset + length)

/-- Modelled from the spec: the image of one range under an insertion of `length` bytes at
`offset`: unchanged when wholly before `offset`, shifted right when at or beyond it, split
in two around the inserted bytes when it contains `offset`. -/
def insert_shift (r : Range) (offset length : Nat) : List Range :=
  if r.offset + r.length ≤ offset then [r]
  else if offset ≤ r.offset then [⟨r.offset + length, r.length⟩]
  else [⟨r.offset, offset - r.offset⟩, ⟨offset + length, r.offset + r.length - offset⟩]

/-- Modelled from the spec: `insert_shift` over a list of ranges. -/
def insert_shifts : List Range → Nat → Nat → List Range
  | [], _, _ => []
  | r :: rs, offset, length => insert_shift r offset length ++ insert_shifts rs offset length

/-- Modelled from the spec: `ByteRangeSet::data_inserted(offset, length)` (source missing):
"shifts all ranges at or beyond `offset` right by `length`; ranges that contain `offset`
are split". An insertion of no bytes changes nothing. -/
def data_inserted (rs : List Range) (offset length : Nat) : List Range :=
  if length = 0 then rs else insert_shifts rs offset length

/-- Modelled from the spec: `ByteRangeSet::data_erased(offset, length)` (source missing):
"removes the erased span from all ranges (shrinking/splitting/removing as needed) and shifts
all ranges beyond the erased span left by `length`". The pieces are put back with
`set_range`, which joins the two that meet at `offset`. -/
def data_erased (rs : List Range) (offset length : Nat) : List Range :=
  (cut_ranges rs offset (offset + length)).foldl
    (fun acc r =>
      set_range acc (if offset + length ≤ r.offset then r.offset - length else r.offset)
        r.length)
    []

/-! ## The document -/

/-- Modelled from the spec: `Document::read_data(offset, length)` (source missing): "must
return at most `length` bytes starting at `offset`"; past the end of the buffer there is
nothing to return. -/
def read_data (doc : List Nat) (offset length : Nat) : List Nat :=
  (doc.drop offset).take length

/-! ## The panel state -/

/-- An iterator into `std::set<Range>`: the element it designates, or `none` for `end()`. -/
abbrev RangeIter := Option Range

/-- The data members of `StringPanel` that the index uses. The two thread counters are
`unsigned int` (their declaration, in `StringPanel.hpp`, is not among the sources). -/
structure StringPanel where
  dirty : List Range
  strings : List Range
  update_needed : Bool
  last_item_idx : Int
  last_item_iter : RangeIter
  threads_exit : Bool
  threads_pause : Bool
  spawned_threads : Nat
  running_threads : Nat
deriving DecidableEq, Repr

/-- The value of `--x` for an `unsigned int`. -/
def dec_uint (x : Nat) : Nat := (x + 2 ^ 32 - 1) % 2 ^ 32

/-- The value of `++x` for an `unsigned int`. -/
def inc_uint (x : Nat) : Nat := (x + 1) % 2 ^ 32

/-! ## `thread_main` (lines 120-218) -/

/-- Lines 200-208, once per reported string: `strings.set_range(string_base, string_length);
update_needed = true; last_item_idx = -1;`. -/
def insert_match (s : StringPanel) (r : Range) : StringPanel :=
  { s with strings := set_range s.strings r.offset r.length,
           update_needed := true,
           last_item_idx := -1 }

/-- The match inserts of one window, in the order of the scan. -/
def insert_matches (s : StringPanel) (found : List Range) : StringPanel :=
  found.foldl insert_match s

/-- Line 180: `std::max(window_base, string_base)`. -/
def new_dirty_base (window_base string_base : Nat) : Nat := max window_base string_base

/-- Line 181: `window_length - (string_base - window_base)`, computed in `size_t`: the `off_t`
difference is converted to `size_t` and the subtraction wraps modulo `2 ^ 64`. -/
def new_dirty_length (window_base window_length string_base : Nat) : Nat :=
  (((window_length : Int) - ((string_base : Int) - (window_base : Int))) % 2 ^ 64).toNat

/-- Conversion of a `size_t` value to the `off_t` parameter of `set_range`. -/
def as_off_t (v : Nat) : Int := if v < 2 ^ 63 then (v : Int) else (v : Int) - 2 ^ 64

/-- Lines 214-217: `--running_threads; --spawned_threads;`. -/
def thread_exit (s : StringPanel) : StringPanel :=
  { s with running_threads := dec_uint s.running_threads,
           spawned_threads := dec_uint s.spawned_threads }

/-- How a run of `thread_main` ends in the sequential model: it returned, or it sits in
`resume_cv.wait` after seeing `threads_pause` (with `t` reads of the flag done). -/
inductive ThreadOutcome where
  | exited (s : StringPanel)
  | waiting (s : StringPanel) (t : Nat)
deriving DecidableEq, Repr

/-- Line 139: `window_length = std::min<off_t>(next_dirty_range->length, WINDOW_SIZE)`. -/
def window_length (next_dirty_range : Range) : Nat := min next_dirty_range.length WINDOW_SIZE

/-- Line 150: `window_pre = std::min<off_t>(window_base, MIN_STRING_LENGTH)`. -/
def window_pre (window_base : Nat) : Nat := min window_base MIN_STRING_LENGTH

/-- Line 152: `window_base_adj = window_base - window_pre`. -/
def window_base_adj (next_dirty_range : Range) : Nat :=
  next_dirty_range.offset - window_pre next_dirty_range.offset

/-- Line 153: `window_length_adj = window_length + window_pre + MIN_STRING_LENGTH`. -/
def window_length_adj (next_dirty_range : Range) : Nat :=
  window_length next_dirty_range + window_pre next_dirty_range.offset + MIN_STRING_LENGTH

/-- Line 141: `dirty.clear_range(window_base, window_length)`. -/
def take_window (s : StringPanel) (next_dirty_range : Range) : StringPanel :=
  { s with
    dirty := clear_range s.dirty next_dirty_range.offset (window_length next_dirty_range) }

/-- Lines 157-209: the bytes of the padded window are read and scanned. -/
def window_scan (pause : Nat → Bool) (doc : List Nat) (oob : Nat) (t : Nat)
    (next_dirty_range : Range) : ScanOutcome :=
  scan_window pause
    (read_data doc (window_base_adj next_dirty_range) (window_length_adj next_dirty_range))
    oob (window_base_adj next_dirty_range) t

/-- Lines 180-189, the pause branch up to the wait: the rest of the window is marked dirty
again and `running_threads` is decremented. -/
def pause_window (s : StringPanel) (next_dirty_range : Range) (string_base : Nat) :
    StringPanel :=
  { s with
    dirty := set_range s.dirty (new_dirty_base next_dirty_range.offset string_base)
      (as_off_t (new_dirty_length next_dirty_range.offset (window_length next_dirty_range)
        string_base)),
    running_threads := dec_uint s.running_threads }

/-- The `while(!threads_exit)` loop of `thread_main` followed by the exit code. Each
iteration that is not paused takes one window off the dirty set; the first argument bounds
the number of iterations. -/
def thread_main_loop (pause : Nat → Bool) (doc : List Nat) (oob : Nat) :
    Nat → Nat → StringPanel → ThreadOutcome
  | 0, _, s => .exited (thread_exit s)
  | fuel + 1, t, s =>
    if s.threads_exit then .exited (thread_exit s)
    else
      match s.dirty with
      | [] => .exited (thread_exit s)
      | next_dirty_range :: _ =>
        let out := window_scan pause doc oob t next_dirty_range
        let s2 := insert_matches (take_window s next_dirty_range) out.found
        match out.paused with
        | some string_base => .waiting (pause_window s2 next_dirty_range string_base) out.t
        | none => thread_main_loop pause doc oob fuel out.t s2

/-- Sum of the lengths of the ranges of a set. -/
def total_length (rs : List Range) : Nat := (rs.map Range.length).sum

/-- The function `thread_main`, entered with `t` reads of the pause flag already done. Every
unpaused iteration removes at least one byte from the dirty set, so `total_length` of the
dirty set bounds the number of iterations. -/
def thread_main (pause : Nat → Bool) (doc : List Nat) (oob : Nat) (t : Nat)
    (s : StringPanel) : ThreadOutcome :=
  thread_main_loop pause doc oob (total_length s.dirty) t s

/-- A worker waiting in `resume_cv.wait` is woken: `++running_threads; break;` and the
`while` loop goes on with a fresh window. -/
def thread_main_resume (pause : Nat → Bool) (doc : List Nat) (oob : Nat) (t : Nat)
    (s : StringPanel) : ThreadOutcome :=
  thread_main pause doc oob t { s with running_threads := inc_uint s.running_threads }

/-- The state a thread outcome carries. -/
def ThreadOutcome.state : ThreadOutcome → StringPanel
  | .exited s => s
  | .waiting s _ => s

/-! ## `start_threads`, `pause_threads`, `resume_threads` (lines 220-306) -/

/-- Lines 298-306. -/
def resume_threads (s : StringPanel) : StringPanel := { s with threads_pause := false }

/-- Lines 289-296; the wait for `running_threads == 0` is not part of the state change. -/
def pause_threads (s : StringPanel) : StringPanel := { s with threads_pause := true }

/-- Lines 226-230: the sum of the dirty lengths, accumulated in a `size_t`. -/
def dirty_total (dirty : List Range) : Nat := total_length dirty % 2 ^ 64

/-- Lines 243-253: the number of workers `start_threads` aims for; `max_threads` is the value
of `std::thread::hardware_concurrency()`. The quotient is stored in an `unsigned int`. -/
def want_threads (dirty_total max_threads : Nat) : Nat :=
  let want_threads := (dirty_total / WINDOW_SIZE) % 2 ^ 32
  if want_threads = 0 then 1
  else if want_threads > max_threads then max_threads
  else want_threads

/-- Lines 257-263: `while(spawned_threads < want_threads)` with the two increments; the
spawned workers themselves run on their own threads. The first argument bounds the number of
iterations. -/
def spawn_loop (want : Nat) : Nat → StringPanel → StringPanel
  | 0, s => s
  | fuel + 1, s =>
    if s.spawned_threads < want then
      spawn_loop want fuel
        { s with spawned_threads := inc_uint s.spawned_threads,
                 running_threads := inc_uint s.running_threads }
    else s

/-- The function `start_threads`. `max_threads` is `std::thread::hardware_concurrency()`;
the inline call of `thread_main` runs with the pause flag just cleared. -/
def start_threads (max_threads : Nat) (doc : List Nat) (oob : Nat) (s : StringPanel) :
    StringPanel :=
  let s := resume_threads s
  if dirty_total s.dirty > 0 then
    let s := { s with threads_exit := false }
    if dirty_total s.dirty > UI_THREAD_THRESH then
      let want := want_threads (dirty_total s.dirty) max_threads
      spawn_loop want want s
    else
      (thread_main no_pause doc oob 0 s).state
  else s

/-! ## `get_nth_string` (lines 308-326) -/

/-- Position of an iterator in the in-order sequence of the set: `size()` for `end()`, and
nothing for an iterator whose element is not in the set. -/
def iter_pos (rs : List Range) : RangeIter → Option Nat
  | none => some rs.length
  | some r => if r ∈ rs then some (rs.indexOf r) else none

/-- The `std::next(it, d)` of a `std::set` iterator: `d` steps forward, or backward when `d`
is negative. Stepping outside `[begin(), end()]` or from a stale iterator is undefined
behaviour (`none`). -/
def std_next (rs : List Range) (it : RangeIter) (d : Int) : Option RangeIter :=
  match iter_pos rs it with
  | none => none
  | some p =>
    if 0 ≤ (p : Int) + d ∧ (p : Int) + d ≤ rs.length then some rs[((p : Int) + d).toNat]?
    else none

/-- Why a call of `get_nth_string` returns nothing. -/
inductive NthFailure where
  | assertion_failed
  | undefined_behaviour
deriving DecidableEq, Repr

/-- The function `get_nth_string(ssize_t n)`. In `assert(n < strings.size())` the signed `n`
is converted to `size_t`. Returns the iterator and the new state. -/
def get_nth_string (s : StringPanel) (n : Int) : Except NthFailure (RangeIter × StringPanel) :=
  if (n % 2 ^ 64).toNat < s.strings.length then
    let s1 := if s.last_item_idx < 0 then
        { s with last_item_iter := s.strings.head?, last_item_idx := 0 }
      else s
    match std_next s1.strings s1.last_item_iter (n - s1.last_item_idx) with
    | none => .error .undefined_behaviour
    | some it => .ok (it, { s1 with last_item_iter := it, last_item_idx := n })
  else .error .assertion_failed

/-! ## The edit handlers (lines 344-396) -/

/-- The state updates of `OnDataErase` before its call of `start_threads`. -/
def OnDataErase_update (s : StringPanel) (offset length : Nat) : StringPanel :=
  let s := { s with strings := data_erased s.strings offset length, last_item_idx := -1 }
  { s with dirty := data_erased s.dirty offset length }

/-- The handler `OnDataErase`; `doc` is the document after the erase. -/
def OnDataErase (max_threads : Nat) (doc : List Nat) (oob : Nat) (s : StringPanel)
    (offset length : Nat) : StringPanel :=
  start_threads max_threads doc oob (OnDataErase_update s offset length)

/-- The state updates of `OnDataInsert` before its call of `start_threads`. -/
def OnDataInsert_update (s : StringPanel) (offset length : Nat) : StringPanel :=
  let s := { s with strings := data_inserted s.strings offset length, last_item_idx := -1 }
  { s with dirty := set_range (data_inserted s.dirty offset length) offset length }

/-- The handler `OnDataInsert`; `doc` is the document after the insert. -/
def OnDataInsert (max_threads : Nat) (doc : List Nat) (oob : Nat) (s : StringPanel)
    (offset length : Nat) : StringPanel :=
  start_threads max_threads doc oob (OnDataInsert_update s offset length)

/-- The state updates of `OnDataOverwrite` before its call of `start_threads`. -/
def OnDataOverwrite_update (s : StringPanel) (offset length : Nat) : StringPanel :=
  { s with dirty := set_range s.dirty offset length }

/-- The handler `OnDataOverwrite`; `doc` is the document after the overwrite. -/
def OnDataOverwrite (max_threads : Nat) (doc : List Nat) (oob : Nat) (s : StringPanel)
    (offset length : Nat) : StringPanel :=
  start_threads max_threads doc oob (OnDataOverwrite_update s offset length)

/-- The constructor (lines 37-78): the whole buffer is dirty, nothing is found yet, and
`start_threads` is called. -/
def StringPanel.create (max_threads : Nat) (doc : List Nat) (oob : Nat) : StringPanel :=
  start_threads max_threads doc oob
    { dirty := set_range [] 0 doc.length,
      strings := [],
      update_needed := false,
      last_item_idx := -1,
      last_item_iter := none,
      threads_exit := true,
      threads_pause := false,
      spawned_threads := 0,
      running_threads := 0 }

/-! ## Specification vocabulary -/

/-- A 7-bit printable ASCII byte, 0x20 to 0x7E. -/
def Printable7 (b : Nat) : Prop := 0x20 ≤ b ∧ b ≤ 0x7E

instance (b : Nat) : Decidable (Printable7 b) := by unfold Printable7; infer_instance

/-- The byte at index `j` of `data` exists and is printable. -/
def PrintableAt (data : List Nat) (j : Nat) : Prop :=
  ∃ b, data[j]? = some b ∧ Printable7 b

/-- The bytes `[s, s + l)` of `data` are a maximal run of printable bytes: all of them are
printable, and the run can be extended neither to the left nor to the right. -/
def IsMaximalRun (data : List Nat) (s l : Nat) : Prop :=
  0 < l ∧ (∀ j, s ≤ j → j < s + l → PrintableAt data j) ∧
  (s = 0 ∨ ¬ PrintableAt data (s - 1)) ∧ ¬ PrintableAt data (s + l)

/-- The byte offset `x` lies in one of the ranges of the set. -/
def Covers (rs : List Range) (x : Nat) : Prop :=
  ∃ r ∈ rs, r.offset ≤ x ∧ x < r.offset + r.length

/-- The invariant of a `ByteRangeSet` (spec section 3): ranges in ascending order, pairwise
neither overlapping nor adjacent, each of positive length. -/
def WellFormed (rs : List Range) : Prop :=
  rs.Pairwise (fun a b => a.offset + a.length < b.offset) ∧ ∀ r ∈ rs, 0 < r.length

/-- The four bytes from offset `a` on exist and are printable: every byte of a printable run
of length at least `MIN_STRING_LENGTH` lies in such a block. -/
def PrintableBlock (doc : List Nat) (a : Nat) : Prop :=
  ∀ j, j < MIN_STRING_LENGTH → PrintableAt doc (a + j)

/-- The byte `x` belongs to a printable run of length at least `MIN_STRING_LENGTH`. -/
def InString (doc : List Nat) (x : Nat) : Prop :=
  ∃ a, a ≤ x ∧ x < a + MIN_STRING_LENGTH ∧ PrintableBlock doc a

/-- Nothing is lost: every printable block of the document is covered by the strings set or
still holds a dirty byte. -/
def NothingLost (doc : List Nat) (dirty strings : List Range) : Prop :=
  ∀ a, PrintableBlock doc a →
    (∀ j, j < MIN_STRING_LENGTH → Covers strings (a + j)) ∨
    (∃ j, j < MIN_STRING_LENGTH ∧ Covers dirty (a + j))

/-- The strings set is an exact index of the document: well formed, and its ranges are the
maximal printable runs of length at least `MIN_STRING_LENGTH`. -/
def ExactIndex (doc : List Nat) (strings : List Range) : Prop :=
  WellFormed strings ∧
  ∀ o l, (⟨o, l⟩ : Range) ∈ strings ↔ IsMaximalRun doc o l ∧ MIN_STRING_LENGTH ≤ l

/-- The oracle of a run in which the pause is requested just before the `p`-th read of the
flag, and not withdrawn. -/
def pause_from (p : Nat) : Nat → Bool := fun t => decide (p ≤ t)

/-- The state after one iteration of the `while` loop of `thread_main` that scans the window
taken from `next_dirty_range` and sees no pause. -/
def scanned_window (doc : List Nat) (oob : Nat) (t : Nat) (s : StringPanel)
    (next_dirty_range : Range) : StringPanel :=
  insert_matches (take_window s next_dirty_range)
    (window_scan no_pause doc oob t next_dirty_range).found

/-- The cached position of `get_nth_string` is usable: `last_item_idx` is negative, or
`last_item_iter` designates element number `last_item_idx` of the strings set. -/
def CacheValid (s : StringPanel) : Prop :=
  s.last_item_idx < 0 ∨
  (0 ≤ s.last_item_idx ∧
    ∃ r, s.last_item_iter = some r ∧ s.strings[s.last_item_idx.toNat]? = some r)

/-- The invariant of the cache: `last_item_idx` is -1, or `last_item_iter` designates element
number `last_item_idx` of the strings set. The strings set itself is well formed. -/
def CacheInvariant (s : StringPanel) : Prop :=
  (s.last_item_idx = -1 ∨
    (0 ≤ s.last_item_idx ∧
      ∃ r, s.last_item_iter = some r ∧ s.strings[s.last_item_idx.toNat]? = some r)) ∧
  WellFormed s.strings

/-- The scan that `start_threads` has started runs to completion: while dirty bytes remain, a
worker's `thread_main` takes them, window by window, without pause. -/
def settle (doc : List Nat) (oob : Nat) (s : StringPanel) : StringPanel :=
  if s.dirty = [] then s else (thread_main no_pause doc oob 0 s).state

/-- The document after `new_bytes` have been written over the bytes from `offset` on. -/
def overwrite_bytes (doc : List Nat) (offset : Nat) (new_bytes : List Nat) : List Nat :=
  doc.take offset ++ new_bytes ++ doc.drop (offset + new_bytes.length)

/-- The document after `new_bytes` have been inserted at `offset`. -/
def insert_bytes (doc : List Nat) (offset : Nat) (new_bytes : List Nat) : List Nat :=
  doc.take offset ++ new_bytes ++ doc.drop offset

/-- The document after the `length` bytes from `offset` on have been erased. -/
def erase_bytes (doc : List Nat) (offset length : Nat) : List Nat :=
  doc.take offset ++ doc.drop (offset + length)

/-- The state in which a scan from scratch starts: the whole buffer dirty, no strings, the
exit and pause flags clear (as `start_threads` leaves them), one worker running. -/
def fresh_index (doc : List Nat) : StringPanel :=
  { dirty := set_range [] 0 doc.length,
    strings := [],
    update_needed := false,
    last_item_idx := -1,
    last_item_iter := none,
    threads_exit := false,
    threads_pause := false,
    spawned_threads := 1,
    running_threads := 1 }

/-- A buffer of two windows and a bit: a printable run of length 10 ("AAAAAAAAAA") whose
sixth byte is the first byte of the second window, between bytes 01. -/
def boundary_example : List Nat :=
  List.replicate 2097147 1 ++ (List.replicate 10 65 ++ List.replicate 100 1)

/-- A buffer of three windows, all bytes 'A'. -/
def three_windows_of_A : List Nat := List.replicate 6291456 65

/-- The worker count as the specification words it: `ceil(dirty_total / WINDOW_SIZE)`
clamped to `[1, hardware_concurrency]`. -/
def spec_want_threads (dirty_total hardware_concurrency : Nat) : Nat :=
  max 1 (min hardware_concurrency ((dirty_total + WINDOW_SIZE - 1) / WINDOW_SIZE))

/-- The state after a call `get_nth_string(n)` that returns (the state itself when the call
does not return). -/
def after_get_nth (s : StringPanel) (n : Int) : StringPanel :=
  match get_nth_string s n with
  | .ok (_, s') => s'
  | .error _ => s

/-- The operations on the strings set and its cache: a call of `get_nth_string`, the match
insert of `thread_main` (lines 200-208) and the three commit handlers, each with the
document and environment it runs in. -/
inductive PanelOp where
  | get_nth (n : Int)
  | match_insert (string_base string_length : Nat)
  | erase (max_threads : Nat) (doc : List Nat) (oob offset length : Nat)
  | insert (max_threads : Nat) (doc : List Nat) (oob offset length : Nat)
  | overwrite (max_threads : Nat) (doc : List Nat) (oob offset length : Nat)
deriving DecidableEq, Repr

/-- The state after one operation. A call of `get_nth_string` that does not return has no
next state, and neither has one with an argument that is not an `ssize_t`. -/
def apply_op (s : StringPanel) : PanelOp → Option StringPanel
  | .get_nth n =>
    if -(2 ^ 63) ≤ n ∧ n < 2 ^ 63 then
      match get_nth_string s n with
      | .ok (_, s') => some s'
      | .error _ => none
    else none
  | .match_insert string_base string_length =>
    some (insert_match s ⟨string_base, string_length⟩)
  | .erase max_threads doc oob offset length =>
    some (OnDataErase max_threads doc oob s offset length)
  | .insert max_threads doc oob offset length =>
    some (OnDataInsert max_threads doc oob s offset length)
  | .overwrite max_threads doc oob offset length =>
    some (OnDataOverwrite max_threads doc oob s offset length)

/-- The state after a sequence of operations, when each of them returns. -/
def run_ops : StringPanel → List PanelOp → Option StringPanel
  | s, [] => some s
  | s, op :: ops =>
    match apply_op s op with
    | some s' => run_ops s' ops
    | none => none

/-- The bytes of "test data!!". -/
def test_data : List Nat := [116, 101, 115, 116, 32, 100, 97, 116, 97, 33, 33]

/-! ## States of the scenarios for `start_threads` and `thread_main` -/

/-- The members as the constructor sets them for a buffer of `buffer_length` bytes, before
its call of `start_threads` (lines 39-46 and 73). -/
def constructed (buffer_length : Nat) : StringPanel :=
  { dirty := set_range [] 0 buffer_length,
    strings := [],
    update_needed := false,
    last_item_idx := -1,
    last_item_iter := none,
    threads_exit := true,
    threads_pause := false,
    spawned_threads := 0,
    running_threads := 0 }

/-- The panel of an empty document after `OnDataModifying`: nothing is dirty and the pause
flag is set. -/
def paused_empty_panel : StringPanel := pause_threads (StringPanel.create 8 [] 0)

/-- The scan of a buffer of 4 MiB by two workers, at the moment the first worker has taken
the window (0, 2 MiB): the second window is what is left dirty. -/
def second_window_panel : StringPanel :=
  { dirty := [⟨2097152, 2097152⟩],
    strings := [],
    update_needed := false,
    last_item_idx := -1,
    last_item_iter := none,
    threads_exit := false,
    threads_pause := false,
    spawned_threads := 2,
    running_threads := 2 }

/-- A buffer of 4 MiB of zero bytes. -/
def four_mib_of_zeros : List Nat := List.replicate 4194304 0

/-- A strings set of two ranges with the cache fresh. -/
def two_strings_panel : StringPanel :=
  { dirty := [],
    strings := [⟨0, 4⟩, ⟨10, 5⟩],
    update_needed := true,
    last_item_idx := -1,
    last_item_iter := none,
    threads_exit := false,
    threads_pause := false,
    spawned_threads := 0,
    running_threads := 0 }

/-! ## The reads of `data_p` in the scan loop -/

/-- The inner loop of line 166 as in `extend_string`, together with the indices `i` at which
its condition reads `data_p[i]`, in order. The operands of `&&` are evaluated from left to
right: with `threads_pause` set nothing is read; otherwise `data_p[i]` is read for `isascii`
(and again for `isprint`) before `i < data.size()` is tested. -/
def extend_string_traced (pause : Nat → Bool) (data : List Nat) (oob : Nat) :
    Nat → Nat → Nat → Nat → (Nat × Nat × Nat) × List Nat
  | 0, i, string_length, t => ((i, string_length, t), [])
  | fuel + 1, i, string_length, t =>
    if pause t then ((i, string_length, t + 1), [])
    else if isascii (data_p data oob i) && isprint (data_p data oob i)
        && decide (i < data.length) then
      let r := extend_string_traced pause data oob fuel (i + 1) (string_length + 1) (t + 1)
      (r.1, i :: r.2)
    else ((i, string_length, t + 1), [i])

/-- The `for` loop as in `scan_loop`, together with the indices of all reads of `data_p`
(the only reads are those of the inner loop's condition). -/
def scan_loop_traced (pause : Nat → Bool) (data : List Nat) (oob : Nat)
    (window_base_adj : Nat) : Nat → Nat → Nat → ScanOutcome × List Nat
  | 0, _, t => (⟨[], none, t⟩, [])
  | fuel + 1, i, t =>
    if i < data.length then
      let string_base := window_base_adj + i
      let r := extend_string_traced pause data oob (data.length + 1 - i) i 0 t
      let i1 := r.1.1
      let string_length := r.1.2.1
      let t1 := r.1.2.2
      if pause t1 then
        (⟨[], some string_base, t1 + 1⟩, r.2)
      else
        let rest := scan_loop_traced pause data oob window_base_adj fuel (i1 + 1) (t1 + 1)
        if MIN_STRING_LENGTH ≤ string_length then
          (⟨⟨string_base, string_length⟩ :: rest.1.found, rest.1.paused, rest.1.t⟩,
            r.2 ++ rest.2)
        else
          (rest.1, r.2 ++ rest.2)
    else
      (⟨[], none, t⟩, [])

/-- The indices at which the scan of the bytes `data` reads `data_p`, in order. -/
def scan_window_reads (pause : Nat → Bool) (data : List Nat) (oob : Nat) (t : Nat) :
    List Nat :=
  (scan_loop_traced pause data oob 0 data.length 0 t).2

/-! # Properties -/

/-! ## The scan loop finds exactly the maximal printable runs -/

theorem printableAt_lt {data : List Nat} {j : Nat} (h : PrintableAt data j) :
    j < data.length := by
  obtain ⟨b, hb, _⟩ := h
  exact (List.getElem?_eq_some.mp hb).1

theorem not_printableAt_length (data : List Nat) : ¬ PrintableAt data data.length := by
  intro h
  exact Nat.lt_irrefl _ (printableAt_lt h)

/-- The test of the inner loop (without the pause flag) holds exactly at the printable bytes
of the vector, whatever lies past its end. -/
theorem loop_test_iff (data : List Nat) (oob i : Nat) :
    (isascii (data_p data oob i) && isprint (data_p data oob i)
      && decide (i < data.length)) = true ↔ PrintableAt data i := by
  constructor
  · intro h
    simp only [Bool.and_eq_true, decide_eq_true_eq, isascii, isprint] at h
    obtain ⟨⟨_, h2, h3⟩, h4⟩ := h
    refine ⟨data[i], List.getElem?_eq_getElem h4, ?_⟩
    have hd : data_p data oob i = data[i] := by
      simp [data_p, List.getD, List.getElem?_eq_getElem h4]
    rw [hd] at h2 h3
    exact ⟨h2, h3⟩
  · rintro ⟨b, hb, h1, h2⟩
    have hlt := (List.getElem?_eq_some.mp hb).1
    have hd : data_p data oob i = b := by
      simp [data_p, List.getD, hb]
    simp only [Bool.and_eq_true, decide_eq_true_eq, isascii, isprint, hd]
    exact ⟨⟨by omega, h1, h2⟩, hlt⟩

/-- Without a pause the inner loop stops at the first index `j ≥ i` that is not a printable
byte of the vector, having counted `j - i` bytes. -/
theorem extend_string_no_pause (data : List Nat) (oob : Nat) :
    ∀ (fuel i len t : Nat), i ≤ data.length → data.length + 1 - i ≤ fuel →
      ∃ j, extend_string no_pause data oob fuel i len t = (j, len + (j - i), t + (j - i) + 1) ∧
        i ≤ j ∧ j ≤ data.length ∧ (∀ k, i ≤ k → k < j → PrintableAt data k) ∧
        ¬ PrintableAt data j := by
  intro fuel
  induction fuel with
  | zero => intro i len t hi hf; omega
  | succ fuel ih =>
    intro i len t hi hf
    by_cases hp : PrintableAt data i
    · have hlt := printableAt_lt hp
      obtain ⟨j, hj, h1, h2, h3, h4⟩ := ih (i + 1) (len + 1) (t + 1) (by omega) (by omega)
      refine ⟨j, ?_, by omega, h2, ?_, h4⟩
      · have hc := (loop_test_iff data oob i).mpr hp
        simp only [Bool.and_eq_true] at hc
        simp only [extend_string, no_pause, Bool.not_false, Bool.true_and, Bool.and_eq_true,
          hc, and_self, if_true, hj]
        refine Prod.ext ?_ (Prod.ext ?_ ?_) <;> simp <;> omega
      · intro k hk1 hk2
        by_cases hki : k = i
        · subst hki; exact hp
        · exact h3 k (by omega) hk2
    · refine ⟨i, ?_, le_refl _, hi, ?_, hp⟩
      · have hc : ¬ ((isascii (data_p data oob i) && isprint (data_p data oob i)
            && decide (i < data.length)) = true) := fun h => hp ((loop_test_iff data oob i).mp h)
        simp only [extend_string, no_pause, Bool.not_false, Bool.true_and]
        rw [if_neg hc]
        simp
      · intro k hk1 hk2; omega

/-- A maximal run that starts at `i`, when `j` is the first non-printable index from `i` on,
ends at `j`. -/
theorem maximalRun_end {data : List Nat} {i j l : Nat} (hrun : IsMaximalRun data i l)
    (hij : i ≤ j) (hall : ∀ k, i ≤ k → k < j → PrintableAt data k)
    (hj : ¬ PrintableAt data j) : i + l = j := by
  obtain ⟨_, h2, _, h4⟩ := hrun
  rcases Nat.lt_trichotomy (i + l) j with h | h | h
  · exact absurd (hall (i + l) (by omega) h) h4
  · exact h
  · exact absurd (h2 j hij h) hj

/-- A maximal run that starts after `i` starts after `j` too, when `[i, j)` is printable and
`j` is not. -/
theorem maximalRun_start_gt {data : List Nat} {i j s l : Nat} (hrun : IsMaximalRun data s l)
    (his : i < s) (hall : ∀ k, i ≤ k → k < j → PrintableAt data k)
    (hj : ¬ PrintableAt data j) : j + 1 ≤ s := by
  obtain ⟨h1, h2, h3, _⟩ := hrun
  by_contra hcon
  rcases h3 with h3 | h3
  · omega
  · by_cases hsj : s = j
    · exact hj (hsj ▸ h2 s (le_refl _) (by omega))
    · exact h3 (hall (s - 1) (by omega) (by omega))

/-- Invariant of the `for` loop without pause: started at an index `i` that is not in the
middle of a run, it reports exactly the maximal runs of length at least `MIN_STRING_LENGTH`
that start at `i` or later, in ascending order and separated by gaps. -/
theorem scan_loop_no_pause (data : List Nat) (oob base : Nat) :
    ∀ (fuel i t : Nat), data.length - i ≤ fuel → (i = 0 ∨ ¬ PrintableAt data (i - 1)) →
      (scan_loop no_pause data oob base fuel i t).paused = none ∧
      (∀ o l, (⟨o, l⟩ : Range) ∈ (scan_loop no_pause data oob base fuel i t).found ↔
        ∃ s, o = base + s ∧ i ≤ s ∧ IsMaximalRun data s l ∧ MIN_STRING_LENGTH ≤ l) ∧
      (∀ r ∈ (scan_loop no_pause data oob base fuel i t).found, base + i ≤ r.offset) ∧
      (scan_loop no_pause data oob base fuel i t).found.Pairwise
        (fun a b => a.offset + a.length < b.offset) := by
  intro fuel
  induction fuel with
  | zero =>
    intro i t hf _
    refine ⟨rfl, ?_, by simp [scan_loop], by simp [scan_loop]⟩
    intro o l
    simp only [scan_loop, List.not_mem_nil, false_iff]
    rintro ⟨s, _, his, hrun, _⟩
    have := printableAt_lt (hrun.2.1 s (le_refl _) (by have := hrun.1; omega))
    omega
  | succ fuel ih =>
    intro i t hf hpre
    by_cases hlt : i < data.length
    · obtain ⟨j, hj, hij, hjl, hall, hnj⟩ :=
        extend_string_no_pause data oob (data.length + 1 - i) i 0 t (by omega) (le_refl _)
      obtain ⟨ih1, ih2, ih3, ih4⟩ := ih (j + 1) (t + (j - i) + 1 + 1) (by omega) (Or.inr hnj)
      have hrun_i : 0 < j - i → IsMaximalRun data i (j - i) := by
        intro hpos
        refine ⟨hpos, ?_, hpre, ?_⟩
        · intro k hk1 hk2; exact hall k hk1 (by omega)
        · have : i + (j - i) = j := by omega
          rw [this]; exact hnj
      have hback : ∀ s l, i ≤ s → IsMaximalRun data s l → MIN_STRING_LENGTH ≤ l →
          (s = i ∧ l = j - i) ∨ (j + 1 ≤ s) := by
        intro s l his hrun _
        rcases Nat.eq_or_lt_of_le his with h | h
        · subst h
          have := maximalRun_end hrun hij hall hnj
          left; exact ⟨rfl, by omega⟩
        · right; exact maximalRun_start_gt hrun h hall hnj
      by_cases hlen : MIN_STRING_LENGTH ≤ j - i
      · have hval : scan_loop no_pause data oob base (fuel + 1) i t =
            ⟨⟨base + i, j - i⟩ :: (scan_loop no_pause data oob base fuel (j + 1)
                (t + (j - i) + 1 + 1)).found,
              (scan_loop no_pause data oob base fuel (j + 1) (t + (j - i) + 1 + 1)).paused,
              (scan_loop no_pause data oob base fuel (j + 1) (t + (j - i) + 1 + 1)).t⟩ := by
          rw [scan_loop]
          simp only [hlt, if_true, hj, Nat.zero_add]
          simp [no_pause, hlen]
        rw [hval]
        refine ⟨ih1, ?_, ?_, ?_⟩
        · intro o l
          simp only [List.mem_cons, Range.mk.injEq]
          constructor
          · rintro (⟨ho, hl⟩ | hmem)
            · subst ho; subst hl
              exact ⟨i, rfl, le_refl _, hrun_i (by unfold MIN_STRING_LENGTH at hlen; omega), hlen⟩
            · obtain ⟨s, hs, hjs, hrun, h4⟩ := (ih2 o l).mp hmem
              exact ⟨s, hs, by omega, hrun, h4⟩
          · rintro ⟨s, hs, his, hrun, h4⟩
            rcases hback s l his hrun h4 with ⟨h1, h2⟩ | h
            · left; subst h1; exact ⟨hs, h2⟩
            · right; exact (ih2 o l).mpr ⟨s, hs, h, hrun, h4⟩
        · intro r hr
          simp only [List.mem_cons] at hr
          rcases hr with hr | hr
          · subst hr; exact le_refl _
          · have := ih3 r hr; omega
        · refine List.Pairwise.cons ?_ ih4
          intro r hr
          have := ih3 r hr
          show base + i + (j - i) < r.offset
          omega
      · have hval : scan_loop no_pause data oob base (fuel + 1) i t =
            scan_loop no_pause data oob base fuel (j + 1) (t + (j - i) + 1 + 1) := by
          rw [scan_loop]
          simp only [hlt, if_true, hj, Nat.zero_add]
          simp [no_pause, hlen]
        rw [hval]
        refine ⟨ih1, ?_, ?_, ih4⟩
        · intro o l
          rw [ih2 o l]
          constructor
          · rintro ⟨s, hs, hjs, hrun, h4⟩
            exact ⟨s, hs, by omega, hrun, h4⟩
          · rintro ⟨s, hs, his, hrun, h4⟩
            rcases hback s l his hrun h4 with ⟨_, h2⟩ | h
            · omega
            · exact ⟨s, hs, h, hrun, h4⟩
        · intro r hr
          have := ih3 r hr; omega
    · have hval : scan_loop no_pause data oob base (fuel + 1) i t = ⟨[], none, t⟩ := by
        rw [scan_loop]; simp [hlt]
      rw [hval]
      refine ⟨rfl, ?_, by simp, by simp⟩
      intro o l
      simp only [List.not_mem_nil, false_iff]
      rintro ⟨s, _, his, hrun, _⟩
      have := printableAt_lt (hrun.2.1 s (le_refl _) (by have := hrun.1; omega))
      omega

/-- Only the `strings` member matters for the strings that `insert_matches` leaves. -/
theorem insert_matches_strings (found : List Range) :
    ∀ s : StringPanel, (insert_matches s found).strings =
      found.foldl (fun acc r => set_range acc r.offset r.length) s.strings := by
  induction found with
  | nil => intro s; rfl
  | cons r rest ih =>
    intro s
    simp only [insert_matches, List.foldl_cons] at ih ⊢
    rw [ih]
    rfl

/-- Merging an interval that lies beyond every range of the list, with a gap, appends it. -/
theorem merge_range_append (lo hi : Nat) :
    ∀ rs : List Range, (∀ r ∈ rs, r.offset + r.length < lo) →
      merge_range rs lo hi = rs ++ [⟨lo, hi - lo⟩] := by
  intro rs
  induction rs with
  | nil => intro _; rfl
  | cons r rs ih =>
    intro h
    have hr := h r (List.mem_cons_self _ _)
    simp only [merge_range, hr, if_true, List.cons_append]
    rw [ih (fun x hx => h x (List.mem_cons_of_mem _ hx))]

/-- Ranges that come in ascending order with gaps between them are stored as they are. -/
theorem foldl_set_range_separated :
    ∀ (found acc : List Range),
      (acc ++ found).Pairwise (fun a b => a.offset + a.length < b.offset) →
      (∀ r ∈ found, 0 < r.length) →
      found.foldl (fun acc r => set_range acc r.offset r.length) acc = acc ++ found := by
  intro found
  induction found with
  | nil => intro acc _ _; simp
  | cons r rest ih =>
    intro acc hpw hpos
    have hr := hpos r (List.mem_cons_self _ _)
    have hstep : set_range acc r.offset (r.length : Int) = acc ++ [r] := by
      have hlen : ¬ ((r.length : Int) ≤ 0) := by omega
      simp only [set_range, hlen, if_false, Int.toNat_ofNat]
      rw [merge_range_append]
      · simp
      · intro x hx
        have := List.pairwise_append.mp hpw
        exact this.2.2 x hx r (List.mem_cons_self _ _)
    simp only [List.foldl_cons, hstep]
    rw [ih (acc ++ [r]) (by simpa using hpw) (fun x hx => hpos x (List.mem_cons_of_mem _ hx))]
    simp

/-- C1: with no pause requested, the scan loop of `thread_main` over the bytes read for a
window finishes unpaused and calls `strings.set_range` exactly for the maximal runs of 7-bit
printable bytes (0x20..0x7E) of length at least `MIN_STRING_LENGTH`, each as
(`window_base_adj` + index of the first byte, run length), in ascending order and apart from
each other, so that an empty strings set holds exactly these ranges afterwards; for the data
01 01 'A' 'B' 'C' 'D' 'E' 01 01 read at base 0 the result is the single match (2, 5). -/
theorem C1_scan_reports_exactly_the_maximal_runs (data : List Nat)
    (oob window_base_adj t : Nat) (s : StringPanel) :
    (scan_window no_pause data oob window_base_adj t).paused = none ∧
    (∀ o l, (⟨o, l⟩ : Range) ∈ (scan_window no_pause data oob window_base_adj t).found ↔
      ∃ i, o = window_base_adj + i ∧ IsMaximalRun data i l ∧ MIN_STRING_LENGTH ≤ l) ∧
    (scan_window no_pause data oob window_base_adj t).found.Pairwise
      (fun a b => a.offset + a.length < b.offset) ∧
    (insert_matches { s with strings := [] }
      (scan_window no_pause data oob window_base_adj t).found).strings =
        (scan_window no_pause data oob window_base_adj t).found ∧
    (scan_window no_pause [1, 1, 65, 66, 67, 68, 69, 1, 1] oob 0 t).found = [⟨2, 5⟩] := by
  obtain ⟨h1, h2, _, h4⟩ :=
    scan_loop_no_pause data oob window_base_adj data.length 0 t (by omega) (Or.inl rfl)
  refine ⟨h1, ?_, h4, ?_, ?_⟩
  · intro o l
    rw [scan_window, h2 o l]
    constructor
    · rintro ⟨i, hi, _, hrun, hl⟩; exact ⟨i, hi, hrun, hl⟩
    · rintro ⟨i, hi, hrun, hl⟩; exact ⟨i, hi, Nat.zero_le _, hrun, hl⟩
  · rw [insert_matches_strings]
    have := foldl_set_range_separated
      (scan_window no_pause data oob window_base_adj t).found [] (by simpa using h4) (by
        intro r hr
        have hr' : (⟨r.offset, r.length⟩ : Range) ∈
            (scan_loop no_pause data oob window_base_adj data.length 0 t).found := hr
        obtain ⟨i, _, _, _, hl⟩ := (h2 r.offset r.length).mp hr'
        unfold MIN_STRING_LENGTH at hl; omega)
    simpa using this
  · simp [scan_window, scan_loop, extend_string, no_pause, data_p, isascii, isprint,
      MIN_STRING_LENGTH]

/-! ## ByteRangeSet: which bytes the mutators cover -/

theorem covers_nil (x : Nat) : ¬ Covers [] x := by
  rintro ⟨r, hr, _⟩; simp at hr

theorem covers_cons (r : Range) (rs : List Range) (x : Nat) :
    Covers (r :: rs) x ↔ (r.offset ≤ x ∧ x < r.offset + r.length) ∨ Covers rs x := by
  simp [Covers]

theorem covers_append (as bs : List Range) (x : Nat) :
    Covers (as ++ bs) x ↔ Covers as x ∨ Covers bs x := by
  simp only [Covers, List.mem_append]
  constructor
  · rintro ⟨r, hr | hr, h⟩
    · exact Or.inl ⟨r, hr, h⟩
    · exact Or.inr ⟨r, hr, h⟩
  · rintro (⟨r, hr, h⟩ | ⟨r, hr, h⟩)
    · exact ⟨r, Or.inl hr, h⟩
    · exact ⟨r, Or.inr hr, h⟩

theorem covers_merge_range :
    ∀ (rs : List Range) (lo hi x : Nat), lo ≤ hi →
      (Covers (merge_range rs lo hi) x ↔ Covers rs x ∨ (lo ≤ x ∧ x < hi)) := by
  intro rs
  induction rs with
  | nil =>
    intro lo hi x h
    simp only [merge_range, covers_cons]
    have := covers_nil x
    constructor
    · rintro (h1 | h1)
      · right; omega
      · exact absurd h1 this
    · rintro (h1 | h1)
      · exact absurd h1 this
      · left; omega
  | cons r rs ih =>
    intro lo hi x h
    unfold merge_range
    split_ifs with h1 h2
    · rw [covers_cons, ih lo hi x h, covers_cons]; tauto
    · simp only [covers_cons]
      constructor
      · rintro (h3 | h3 | h3)
        · right; omega
        · left; left; exact h3
        · left; right; exact h3
      · rintro ((h3 | h3) | h3)
        · right; left; exact h3
        · right; right; exact h3
        · left; omega
    · rw [ih _ _ x (by omega), covers_cons]
      constructor
      · rintro (h3 | h3)
        · left; right; exact h3
        · by_cases h4 : lo ≤ x ∧ x < hi
          · right; exact h4
          · left; left; omega
      · rintro ((h3 | h3) | h3)
        · right; omega
        · left; exact h3
        · right; omega

theorem covers_set_range (rs : List Range) (offset : Nat) (length : Int) (x : Nat) :
    Covers (set_range rs offset length) x ↔
      Covers rs x ∨ (offset ≤ x ∧ (x : Int) < (offset : Int) + length) := by
  unfold set_range
  split_ifs with h
  · constructor
    · exact Or.inl
    · rintro (h1 | h1)
      · exact h1
      · omega
  · rw [covers_merge_range _ _ _ _ (by omega)]
    constructor
    · rintro (h1 | h1)
      · exact Or.inl h1
      · right; omega
    · rintro (h1 | h1)
      · exact Or.inl h1
      · right; omega

theorem covers_cut_range (r : Range) (lo hi x : Nat) :
    Covers (cut_range r lo hi) x ↔
      (r.offset ≤ x ∧ x < r.offset + r.length) ∧ (x < lo ∨ hi ≤ x) := by
  unfold cut_range
  rw [covers_append]
  split_ifs with h1 h2 h2 <;> (try simp only [covers_cons]) <;>
    have hn := covers_nil x <;> constructor
  · rintro ((h | h) | (h | h)) <;> first | exact absurd h hn | omega
  · intro h; by_cases hx : x < lo
    · left; left; omega
    · right; left; omega
  · rintro ((h | h) | h) <;> first | exact absurd h hn | omega
  · intro h; left; left; omega
  · rintro (h | (h | h)) <;> first | exact absurd h hn | omega
  · intro h; right; left; omega
  · rintro (h | h) <;> exact absurd h hn
  · intro h; omega

theorem covers_cut_ranges (lo hi x : Nat) :
    ∀ rs : List Range,
      (Covers (cut_ranges rs lo hi) x ↔ Covers rs x ∧ (x < lo ∨ hi ≤ x)) := by
  intro rs
  induction rs with
  | nil => simp [cut_ranges, covers_nil]
  | cons r rs ih =>
    rw [cut_ranges, covers_append, covers_cut_range, ih, covers_cons]
    tauto

theorem covers_clear_range (rs : List Range) (offset length x : Nat) :
    Covers (clear_range rs offset length) x ↔
      Covers rs x ∧ (x < offset ∨ offset + length ≤ x) := by
  unfold clear_range
  split_ifs with h
  · subst h
    constructor
    · intro h1; exact ⟨h1, by omega⟩
    · exact fun h1 => h1.1
  · exact covers_cut_ranges _ _ _ _

theorem covers_insert_shift (r : Range) (offset length x : Nat) :
    Covers (insert_shift r offset length) x ↔
      (x < offset ∧ r.offset ≤ x ∧ x < r.offset + r.length) ∨
      (offset + length ≤ x ∧ r.offset ≤ x - length ∧ x - length < r.offset + r.length) := by
  unfold insert_shift
  have hn := covers_nil x
  split_ifs with h1 h2 <;> simp only [covers_cons] <;> constructor
  · rintro (h | h)
    · omega
    · exact absurd h hn
  · intro h; left; omega
  · rintro (h | h)
    · omega
    · exact absurd h hn
  · intro h; left; omega
  · rintro (h | h | h)
    · omega
    · omega
    · exact absurd h hn
  · intro h
    by_cases hx : x < offset
    · left; omega
    · right; left; omega

theorem covers_insert_shifts (offset length x : Nat) :
    ∀ rs : List Range,
      (Covers (insert_shifts rs offset length) x ↔
        (x < offset ∧ Covers rs x) ∨ (offset + length ≤ x ∧ Covers rs (x - length))) := by
  intro rs
  induction rs with
  | nil => simp [insert_shifts, covers_nil]
  | cons r rs ih =>
    rw [insert_shifts, covers_append, covers_insert_shift, ih, covers_cons, covers_cons]
    tauto

theorem covers_data_inserted (rs : List Range) (offset length x : Nat) :
    Covers (data_inserted rs offset length) x ↔
      (x < offset ∧ Covers rs x) ∨ (offset + length ≤ x ∧ Covers rs (x - length)) := by
  unfold data_inserted
  split_ifs with h
  · subst h
    simp only [Nat.add_zero, Nat.sub_zero]
    constructor
    · intro h1
      by_cases hx : x < offset
      · exact Or.inl ⟨hx, h1⟩
      · exact Or.inr ⟨by omega, h1⟩
    · rintro (⟨_, h1⟩ | ⟨_, h1⟩) <;> exact h1
  · exact covers_insert_shifts _ _ _ _

theorem mem_cut_ranges (lo hi : Nat) (p : Range) :
    ∀ rs : List Range, (p ∈ cut_ranges rs lo hi ↔ ∃ r ∈ rs, p ∈ cut_range r lo hi) := by
  intro rs
  induction rs with
  | nil => simp [cut_ranges]
  | cons r rs ih => simp [cut_ranges, List.mem_append, ih]

/-- A piece left by `cut_range` lies inside the range it comes from, is not empty, and lies on
one side of the cut. -/
theorem mem_cut_range {r p : Range} {lo hi : Nat} (h : p ∈ cut_range r lo hi) :
    r.offset ≤ p.offset ∧ p.offset + p.length ≤ r.offset + r.length ∧ 0 < p.length ∧
      (p.offset + p.length ≤ lo ∨ hi ≤ p.offset) := by
  unfold cut_range at h
  rw [List.mem_append] at h
  rcases h with h | h
  · split_ifs at h with h1
    · simp only [List.mem_singleton] at h
      subst h
      dsimp only
      omega
    · simp at h
  · split_ifs at h with h1
    · simp only [List.mem_singleton] at h
      subst h
      dsimp only
      omega
    · simp at h

theorem covers_foldl_set_range (f : Range → Nat) (x : Nat) :
    ∀ (pieces acc : List Range),
      (Covers (pieces.foldl (fun acc r => set_range acc (f r) r.length) acc) x ↔
        Covers acc x ∨ ∃ r ∈ pieces, f r ≤ x ∧ x < f r + r.length) := by
  intro pieces
  induction pieces with
  | nil => intro acc; simp
  | cons p ps ih =>
    intro acc
    rw [List.foldl_cons, ih, covers_set_range]
    constructor
    · rintro ((h | h) | ⟨r, hr, h⟩)
      · exact Or.inl h
      · exact Or.inr ⟨p, List.mem_cons_self _ _, by omega⟩
      · exact Or.inr ⟨r, List.mem_cons_of_mem _ hr, h⟩
    · rintro (h | ⟨r, hr, h⟩)
      · exact Or.inl (Or.inl h)
      · rcases List.mem_cons.mp hr with hr | hr
        · subst hr; exact Or.inl (Or.inr (by omega))
        · exact Or.inr ⟨r, hr, h⟩

theorem covers_data_erased (rs : List Range) (offset length x : Nat) :
    Covers (data_erased rs offset length) x ↔
      (x < offset ∧ Covers rs x) ∨ (offset ≤ x ∧ Covers rs (x + length)) := by
  unfold data_erased
  rw [covers_foldl_set_range
    (fun r => if offset + length ≤ r.offset then r.offset - length else r.offset)]
  constructor
  · rintro (h | ⟨p, hp, h⟩)
    · exact absurd h (covers_nil x)
    · obtain ⟨r, hr, hpr⟩ := (mem_cut_ranges _ _ _ _).mp hp
      obtain ⟨h1, h2, h3, h4⟩ := mem_cut_range hpr
      split_ifs at h with h5
      · right; exact ⟨by omega, r, hr, by omega, by omega⟩
      · left; exact ⟨by omega, r, hr, by omega, by omega⟩
  · rintro (⟨h1, h2⟩ | ⟨h1, h2⟩)
    · right
      have hc := (covers_cut_ranges offset (offset + length) x rs).mpr ⟨h2, Or.inl h1⟩
      obtain ⟨p, hp, hx⟩ := hc
      refine ⟨p, hp, ?_⟩
      obtain ⟨r, _, hpr⟩ := (mem_cut_ranges _ _ _ _).mp hp
      obtain ⟨_, _, _, h4⟩ := mem_cut_range hpr
      split_ifs with h5 <;> omega
    · right
      have hc := (covers_cut_ranges offset (offset + length) (x + length) rs).mpr
        ⟨h2, Or.inr (by omega)⟩
      obtain ⟨p, hp, hx⟩ := hc
      refine ⟨p, hp, ?_⟩
      obtain ⟨r, _, hpr⟩ := (mem_cut_ranges _ _ _ _).mp hp
      obtain ⟨_, _, _, h4⟩ := mem_cut_range hpr
      split_ifs with h5 <;> omega

/-! ## ByteRangeSet: the mutators keep the invariant -/

theorem wellFormed_nil : WellFormed [] := ⟨List.Pairwise.nil, by simp⟩

theorem WellFormed.tail {r : Range} {rs : List Range} (h : WellFormed (r :: rs)) :
    WellFormed rs :=
  ⟨(List.pairwise_cons.mp h.1).2, fun x hx => h.2 x (List.mem_cons_of_mem _ hx)⟩

theorem WellFormed.head_lt {r : Range} {rs : List Range} (h : WellFormed (r :: rs)) :
    ∀ x ∈ rs, r.offset + r.length < x.offset :=
  (List.pairwise_cons.mp h.1).1

/-- Two different ranges of a well-formed set are apart, in one order or the other. -/
theorem WellFormed.apart {rs : List Range} (h : WellFormed rs) {a b : Range}
    (ha : a ∈ rs) (hb : b ∈ rs) (hab : a ≠ b) :
    a.offset + a.length < b.offset ∨ b.offset + b.length < a.offset := by
  have hsym : rs.Pairwise (fun a b =>
      a.offset + a.length < b.offset ∨ b.offset + b.length < a.offset) :=
    h.1.imp (fun h => Or.inl h)
  exact hsym.forall (fun x y hxy => hxy.symm) ha hb hab

theorem WellFormed.nodup {rs : List Range} (h : WellFormed rs) : rs.Nodup := by
  refine h.1.imp ?_
  intro a b hab heq
  subst heq
  omega

theorem merge_range_lower (m : Nat) :
    ∀ (rs : List Range) (lo hi : Nat), (∀ r ∈ rs, m ≤ r.offset) → m ≤ lo →
      ∀ p ∈ merge_range rs lo hi, m ≤ p.offset := by
  intro rs
  induction rs with
  | nil =>
    intro lo hi _ hlo p hp
    simp only [merge_range, List.mem_singleton] at hp
    subst hp; exact hlo
  | cons r rs ih =>
    intro lo hi hrs hlo p hp
    unfold merge_range at hp
    have hr := hrs r (List.mem_cons_self _ _)
    have hrs' : ∀ x ∈ rs, m ≤ x.offset := fun x hx => hrs x (List.mem_cons_of_mem _ hx)
    split_ifs at hp with h1 h2
    · rcases List.mem_cons.mp hp with hp | hp
      · subst hp; exact hr
      · exact ih lo hi hrs' hlo p hp
    · rcases List.mem_cons.mp hp with hp | hp
      · subst hp; exact hlo
      · exact hrs p hp
    · exact ih _ _ hrs' (by omega) p hp

theorem wellFormed_merge_range :
    ∀ (rs : List Range) (lo hi : Nat), WellFormed rs → lo < hi →
      WellFormed (merge_range rs lo hi) := by
  intro rs
  induction rs with
  | nil =>
    intro lo hi _ h
    refine ⟨by simp [merge_range], ?_⟩
    intro r hr
    simp only [merge_range, List.mem_singleton] at hr
    subst hr; dsimp only; omega
  | cons r rs ih =>
    intro lo hi hwf h
    unfold merge_range
    have hpos := hwf.2 r (List.mem_cons_self _ _)
    split_ifs with h1 h2
    · have ih' := ih lo hi hwf.tail h
      refine ⟨List.pairwise_cons.mpr ⟨?_, ih'.1⟩, ?_⟩
      · intro p hp
        have := merge_range_lower (r.offset + r.length + 1) rs lo hi
          (fun x hx => by have := hwf.head_lt x hx; omega) (by omega) p hp
        omega
      · intro p hp
        rcases List.mem_cons.mp hp with hp | hp
        · subst hp; exact hpos
        · exact ih'.2 p hp
    · refine ⟨List.pairwise_cons.mpr ⟨?_, hwf.1⟩, ?_⟩
      · intro p hp
        rcases List.mem_cons.mp hp with hp | hp
        · subst hp; dsimp only; omega
        · have := hwf.head_lt p hp; dsimp only; omega
      · intro p hp
        rcases List.mem_cons.mp hp with hp | hp
        · subst hp; dsimp only; omega
        · exact hwf.2 p hp
    · exact ih _ _ hwf.tail (by omega)

theorem wellFormed_set_range (rs : List Range) (offset : Nat) (length : Int)
    (h : WellFormed rs) : WellFormed (set_range rs offset length) := by
  unfold set_range
  split_ifs with h1
  · exact h
  · exact wellFormed_merge_range _ _ _ h (by omega)

theorem wellFormed_foldl_set_range (f : Range → Nat) :
    ∀ (pieces acc : List Range), WellFormed acc →
      WellFormed (pieces.foldl (fun acc r => set_range acc (f r) r.length) acc) := by
  intro pieces
  induction pieces with
  | nil => intro acc h; exact h
  | cons p ps ih =>
    intro acc h
    rw [List.foldl_cons]
    exact ih _ (wellFormed_set_range _ _ _ h)

theorem wellFormed_data_erased (rs : List Range) (offset length : Nat) :
    WellFormed (data_erased rs offset length) :=
  wellFormed_foldl_set_range _ _ _ wellFormed_nil

theorem wellFormed_cut_ranges (lo hi : Nat) (hlh : lo < hi) :
    ∀ rs : List Range, WellFormed rs → WellFormed (cut_ranges rs lo hi) := by
  intro rs
  induction rs with
  | nil => intro _; exact wellFormed_nil
  | cons r rs ih =>
    intro hwf
    have ih' := ih hwf.tail
    refine ⟨?_, ?_⟩
    · rw [cut_ranges]
      refine List.pairwise_append.mpr ⟨?_, ih'.1, ?_⟩
      · unfold cut_range
        split_ifs with h1 h2 h2 <;> simp
        omega
      · intro p hp q hq
        obtain ⟨r', hr', hq'⟩ := (mem_cut_ranges _ _ _ _).mp hq
        have h1 := mem_cut_range hp
        have h2 := mem_cut_range hq'
        have h3 := hwf.head_lt r' hr'
        omega
    · intro p hp
      obtain ⟨r', _, hp'⟩ := (mem_cut_ranges _ _ _ _).mp hp
      exact (mem_cut_range hp').2.2.1

theorem wellFormed_clear_range (rs : List Range) (offset length : Nat)
    (h : WellFormed rs) : WellFormed (clear_range rs offset length) := by
  unfold clear_range
  split_ifs with h1
  · exact h
  · exact wellFormed_cut_ranges _ _ (by omega) _ h

theorem mem_insert_shifts (offset length : Nat) (p : Range) :
    ∀ rs : List Range,
      (p ∈ insert_shifts rs offset length ↔ ∃ r ∈ rs, p ∈ insert_shift r offset length) := by
  intro rs
  induction rs with
  | nil => simp [insert_shifts]
  | cons r rs ih => simp [insert_shifts, List.mem_append, ih]

theorem mem_insert_shift {r p : Range} {offset length : Nat}
    (h : p ∈ insert_shift r offset length) (hpos : 0 < r.length) :
    0 < p.length ∧ r.offset ≤ p.offset ∧
      p.offset + p.length ≤ r.offset + r.length + length ∧
      (r.offset + r.length ≤ offset → p = r) ∧
      (offset ≤ r.offset → p.offset = r.offset + length) := by
  unfold insert_shift at h
  split_ifs at h with h1 h2
  · simp only [List.mem_singleton] at h
    subst h
    refine ⟨hpos, le_refl _, by omega, fun _ => rfl, fun _ => by omega⟩
  · simp only [List.mem_singleton] at h
    subst h
    refine ⟨hpos, by dsimp only; omega, by dsimp only; omega, fun _ => by omega, fun _ => rfl⟩
  · simp only [List.mem_cons, List.mem_singleton, List.not_mem_nil, or_false] at h
    rcases h with h | h <;> subst h <;>
      refine ⟨by dsimp only; omega, by dsimp only; omega, by dsimp only; omega,
        fun _ => by omega, fun _ => by omega⟩

theorem wellFormed_insert_shifts (offset length : Nat) (hlen : 0 < length) :
    ∀ rs : List Range, WellFormed rs → WellFormed (insert_shifts rs offset length) := by
  intro rs
  induction rs with
  | nil => intro _; exact wellFormed_nil
  | cons r rs ih =>
    intro hwf
    have ih' := ih hwf.tail
    have hpos := hwf.2 r (List.mem_cons_self _ _)
    refine ⟨?_, ?_⟩
    · rw [insert_shifts]
      refine List.pairwise_append.mpr ⟨?_, ih'.1, ?_⟩
      · unfold insert_shift
        split_ifs with h1 h2 <;> simp
        omega
      · intro p hp q hq
        obtain ⟨r', hr', hq'⟩ := (mem_insert_shifts _ _ _ _).mp hq
        obtain ⟨_, _, a3, a4, _⟩ := mem_insert_shift hp hpos
        obtain ⟨_, b2, _, _, b5⟩ :=
          mem_insert_shift hq' (hwf.2 r' (List.mem_cons_of_mem _ hr'))
        have h3 := hwf.head_lt r' hr'
        by_cases hc : offset ≤ r'.offset
        · have := b5 hc; omega
        · have := a4 (by omega)
          subst this; omega
    · intro p hp
      rw [insert_shifts, List.mem_append] at hp
      rcases hp with hp | hp
      · exact (mem_insert_shift hp hpos).1
      · exact ih'.2 p hp

theorem wellFormed_data_inserted (rs : List Range) (offset length : Nat)
    (h : WellFormed rs) : WellFormed (data_inserted rs offset length) := by
  unfold data_inserted
  split_ifs with h1
  · exact h
  · exact wellFormed_insert_shifts _ _ (by omega) _ h

/-- In a well-formed set a stretch of covered bytes lies within a single range. -/
theorem covered_stretch_in_one_range {rs : List Range} (hwf : WellFormed rs) {s e : Nat}
    (hse : s < e) (hcov : ∀ x, s ≤ x → x < e → Covers rs x) :
    ∃ r ∈ rs, r.offset ≤ s ∧ e ≤ r.offset + r.length := by
  obtain ⟨r, hr, h1, h2⟩ := hcov s (le_refl _) hse
  refine ⟨r, hr, h1, ?_⟩
  by_contra hcon
  obtain ⟨r', hr', h3, h4⟩ := hcov (r.offset + r.length) (by omega) (by omega)
  have hne : r ≠ r' := by
    intro heq; subst heq; omega
  rcases hwf.apart hr hr' hne with h5 | h5 <;> omega

/-- The ranges of a well-formed set are the maximal stretches of covered bytes. -/
theorem mem_wellFormed_iff {rs : List Range} (hwf : WellFormed rs) (s l : Nat) :
    (⟨s, l⟩ : Range) ∈ rs ↔
      0 < l ∧ (∀ x, s ≤ x → x < s + l → Covers rs x) ∧ ¬ Covers rs (s + l) ∧
        (s = 0 ∨ ¬ Covers rs (s - 1)) := by
  constructor
  · intro hmem
    refine ⟨hwf.2 _ hmem, fun x h1 h2 => ⟨_, hmem, h1, h2⟩, ?_, ?_⟩
    · rintro ⟨r', hr', h3, h4⟩
      have hne : (⟨s, l⟩ : Range) ≠ r' := by
        intro heq; subst heq; dsimp only at h3 h4; omega
      rcases hwf.apart hmem hr' hne with h5 | h5 <;> dsimp only at h5 <;> omega
    · by_cases hs : s = 0
      · exact Or.inl hs
      · right
        rintro ⟨r', hr', h3, h4⟩
        have hne : (⟨s, l⟩ : Range) ≠ r' := by
          intro heq; subst heq; dsimp only at h3 h4; omega
        have hl := hwf.2 _ hmem
        rcases hwf.apart hmem hr' hne with h5 | h5 <;> dsimp only at h5 hl <;> omega
  · rintro ⟨hl, hcov, hend, hstart⟩
    obtain ⟨r, hr, h1, h2⟩ := covered_stretch_in_one_range hwf (by omega : s < s + l) hcov
    have h3 : r.offset = s := by
      by_contra hne
      rcases hstart with h0 | hprev
      · omega
      · exact hprev ⟨r, hr, by omega, by omega⟩
    have h4 : r.offset + r.length = s + l := by
      by_contra hne
      exact hend ⟨r, hr, by omega, by omega⟩
    have : r = ⟨s, l⟩ := by
      cases r with
      | mk o len => dsimp only at h3 h4; subst h3; congr; omega
    rw [← this]; exact hr

/-! ## Runs, blocks and the bytes read for a window -/

theorem printableAt_read_data (doc : List Nat) (offset length i : Nat) :
    PrintableAt (read_data doc offset length) i ↔ i < length ∧ PrintableAt doc (offset + i) := by
  unfold PrintableAt read_data
  rw [List.getElem?_take, List.getElem?_drop]
  split_ifs with h
  · simp [h]
  · simp [h]

/-- A printable byte can be extended to the left to the start of its run. -/
theorem exists_run_start (data : List Nat) :
    ∀ i, PrintableAt data i →
      ∃ s, s ≤ i ∧ (∀ k, s ≤ k → k ≤ i → PrintableAt data k) ∧
        (s = 0 ∨ ¬ PrintableAt data (s - 1)) := by
  intro i
  induction i with
  | zero =>
    intro h
    exact ⟨0, le_refl _, fun k _ hk => by
      have : k = 0 := by omega
      subst this; exact h, Or.inl rfl⟩
  | succ i ih =>
    intro h
    by_cases hp : PrintableAt data i
    · obtain ⟨s, h1, h2, h3⟩ := ih hp
      refine ⟨s, by omega, ?_, h3⟩
      intro k hk1 hk2
      by_cases hk : k = i + 1
      · subst hk; exact h
      · exact h2 k hk1 (by omega)
    · refine ⟨i + 1, le_refl _, ?_, Or.inr hp⟩
      intro k hk1 hk2
      have : k = i + 1 := by omega
      subst this; exact h

/-- Every printable byte lies in a maximal run. -/
theorem exists_maximalRun (data : List Nat) (i : Nat) (h : PrintableAt data i) :
    ∃ s l, IsMaximalRun data s l ∧ s ≤ i ∧ i < s + l := by
  obtain ⟨s, h1, h2, h3⟩ := exists_run_start data i h
  have hlt := printableAt_lt h
  obtain ⟨j, _, hij, _, hall, hnj⟩ :=
    extend_string_no_pause data 0 (data.length + 1 - i) i 0 0 (by omega) (le_refl _)
  have hij' : i < j := by
    rcases Nat.eq_or_lt_of_le hij with heq | hlt'
    · subst heq; exact absurd h hnj
    · exact hlt'
  refine ⟨s, j - s, ⟨by omega, ?_, h3, ?_⟩, h1, by omega⟩
  · intro k hk1 hk2
    by_cases hk : k ≤ i
    · exact h2 k hk1 hk
    · exact hall k (by omega) (by omega)
  · have : s + (j - s) = j := by omega
    rw [this]; exact hnj

/-- A maximal run that meets a printable block contains it, and so has length at least
`MIN_STRING_LENGTH`. -/
theorem maximalRun_contains_block {data : List Nat} {s l a : Nat}
    (hrun : IsMaximalRun data s l) (hblk : PrintableBlock data a)
    (hmeet : ∃ j, j < MIN_STRING_LENGTH ∧ s ≤ a + j ∧ a + j < s + l) :
    s ≤ a ∧ a + MIN_STRING_LENGTH ≤ s + l := by
  obtain ⟨j, hj, h1, h2⟩ := hmeet
  obtain ⟨hl, hall, hstart, hend⟩ := hrun
  unfold MIN_STRING_LENGTH at *
  constructor
  · by_contra hcon
    rcases hstart with h0 | hprev
    · omega
    · apply hprev
      have := hblk (s - 1 - a) (by unfold MIN_STRING_LENGTH; omega)
      have heq : a + (s - 1 - a) = s - 1 := by omega
      rw [heq] at this; exact this
  · by_contra hcon
    apply hend
    have := hblk (s + l - a) (by unfold MIN_STRING_LENGTH; omega)
    have heq : a + (s + l - a) = s + l := by omega
    rw [heq] at this; exact this

/-- Every byte of a printable run of length at least `MIN_STRING_LENGTH` lies in a printable
block. -/
theorem inString_of_printable_stretch {doc : List Nat} {o l x : Nat}
    (hl : MIN_STRING_LENGTH ≤ l) (hall : ∀ k, o ≤ k → k < o + l → PrintableAt doc k)
    (h1 : o ≤ x) (h2 : x < o + l) : InString doc x := by
  unfold MIN_STRING_LENGTH at hl
  refine ⟨min x (o + l - 4), by omega, by unfold MIN_STRING_LENGTH; omega, ?_⟩
  intro j hj
  unfold MIN_STRING_LENGTH at hj
  exact hall _ (by omega) (by omega)

/-! ## The scan loop under a pause request -/

theorem pause_from_mono (p : Nat) : ∀ t, pause_from p t = true → pause_from p (t + 1) = true := by
  intro t h
  simp only [pause_from, decide_eq_true_eq] at h ⊢
  omega

theorem no_pause_mono : ∀ t, no_pause t = true → no_pause (t + 1) = true := by
  intro t h; simp [no_pause] at h

/-- When a pause request is never withdrawn, the inner loop either leaves with the pause flag
set, or has run to the end of the printable bytes as it does without pause. -/
theorem extend_string_mono (pause : Nat → Bool)
    (hmono : ∀ t, pause t = true → pause (t + 1) = true) (data : List Nat) (oob : Nat) :
    ∀ (fuel i len t : Nat), i ≤ data.length → data.length + 1 - i ≤ fuel →
      pause (extend_string pause data oob fuel i len t).2.2 = true ∨
      ∃ j, extend_string pause data oob fuel i len t = (j, len + (j - i), t + (j - i) + 1) ∧
        i ≤ j ∧ j ≤ data.length ∧ (∀ k, i ≤ k → k < j → PrintableAt data k) ∧
        ¬ PrintableAt data j := by
  intro fuel
  induction fuel with
  | zero => intro i len t hi hf; omega
  | succ fuel ih =>
    intro i len t hi hf
    by_cases hpause : pause t = true
    · left
      have : extend_string pause data oob (fuel + 1) i len t = (i, len, t + 1) := by
        simp [extend_string, hpause]
      rw [this]
      exact hmono t hpause
    · have hpf : pause t = false := by simpa using hpause
      by_cases hp : PrintableAt data i
      · have hlt := printableAt_lt hp
        have hc := (loop_test_iff data oob i).mpr hp
        simp only [Bool.and_eq_true] at hc
        have hstep : extend_string pause data oob (fuel + 1) i len t =
            extend_string pause data oob fuel (i + 1) (len + 1) (t + 1) := by
          simp only [extend_string, hpf, Bool.not_false, Bool.true_and, Bool.and_eq_true,
            hc, and_self, if_true]
        rw [hstep]
        rcases ih (i + 1) (len + 1) (t + 1) (by omega) (by omega) with h | ⟨j, hj, h1, h2, h3, h4⟩
        · exact Or.inl h
        · right
          refine ⟨j, ?_, by omega, h2, ?_, h4⟩
          · rw [hj]
            refine Prod.ext ?_ (Prod.ext ?_ ?_) <;> simp <;> omega
          · intro k hk1 hk2
            by_cases hki : k = i
            · subst hki; exact hp
            · exact h3 k (by omega) hk2
      · right
        refine ⟨i, ?_, le_refl _, hi, ?_, hp⟩
        · have hc : ¬ ((isascii (data_p data oob i) && isprint (data_p data oob i)
              && decide (i < data.length)) = true) :=
            fun h => hp ((loop_test_iff data oob i).mp h)
          simp only [extend_string, hpf, Bool.not_false, Bool.true_and]
          rw [if_neg hc]
          simp
        · intro k hk1 hk2; omega

/-- The `for` loop under a pause request that is never withdrawn: what it reports are maximal
runs of length at least `MIN_STRING_LENGTH`; when it is not interrupted it reports all of them
from index `i` on, and when it is interrupted at `string_base` it has reported all of them
that start before `string_base`. -/
theorem scan_loop_mono (pause : Nat → Bool)
    (hmono : ∀ t, pause t = true → pause (t + 1) = true) (data : List Nat) (oob base : Nat) :
    ∀ (fuel i t : Nat), data.length - i ≤ fuel → (i = 0 ∨ ¬ PrintableAt data (i - 1)) →
      (∀ o l, (⟨o, l⟩ : Range) ∈ (scan_loop pause data oob base fuel i t).found →
        ∃ s, o = base + s ∧ i ≤ s ∧ IsMaximalRun data s l ∧ MIN_STRING_LENGTH ≤ l) ∧
      ((scan_loop pause data oob base fuel i t).paused = none →
        ∀ s l, i ≤ s → IsMaximalRun data s l → MIN_STRING_LENGTH ≤ l →
          (⟨base + s, l⟩ : Range) ∈ (scan_loop pause data oob base fuel i t).found) ∧
      (∀ k, (scan_loop pause data oob base fuel i t).paused = some k →
        ∃ q, k = base + q ∧ i ≤ q ∧ q < data.length ∧
          ∀ s l, i ≤ s → s < q → IsMaximalRun data s l → MIN_STRING_LENGTH ≤ l →
            (⟨base + s, l⟩ : Range) ∈ (scan_loop pause data oob base fuel i t).found) := by
  intro fuel
  induction fuel with
  | zero =>
    intro i t hf _
    refine ⟨by simp [scan_loop], ?_, by simp [scan_loop]⟩
    intro _ s l his hrun _
    have := printableAt_lt (hrun.2.1 s (le_refl _) (by have := hrun.1; omega))
    omega
  | succ fuel ih =>
    intro i t hf hpre
    by_cases hlt : i < data.length
    · have hext := extend_string_mono pause hmono data oob (data.length + 1 - i) i 0 t
        (by omega) (le_refl _)
      by_cases hp : pause (extend_string pause data oob (data.length + 1 - i) i 0 t).2.2 = true
      · have hval : scan_loop pause data oob base (fuel + 1) i t =
            ⟨[], some (base + i),
              (extend_string pause data oob (data.length + 1 - i) i 0 t).2.2 + 1⟩ := by
          rw [scan_loop]
          simp only [hlt, if_true, hp]
        rw [hval]
        refine ⟨by simp, by simp, ?_⟩
        intro k hk
        simp only [Option.some.injEq] at hk
        exact ⟨i, hk.symm, le_refl _, hlt, fun s l h1 h2 => by omega⟩
      · rcases hext with hext | ⟨j, hj, hij, hjl, hall, hnj⟩
        · exact absurd hext hp
        · rw [hj] at hp
          simp only [Bool.not_eq_true] at hp
          obtain ⟨ih1, ih2, ih3⟩ := ih (j + 1) (t + (j - i) + 1 + 1) (by omega) (Or.inr hnj)
          have hrun_i : 0 < j - i → IsMaximalRun data i (j - i) := by
            intro hpos
            refine ⟨hpos, ?_, hpre, ?_⟩
            · intro k hk1 hk2; exact hall k hk1 (by omega)
            · have : i + (j - i) = j := by omega
              rw [this]; exact hnj
          have hback : ∀ s l, i ≤ s → IsMaximalRun data s l → MIN_STRING_LENGTH ≤ l →
              (s = i ∧ l = j - i) ∨ (j + 1 ≤ s) := by
            intro s l his hrun _
            rcases Nat.eq_or_lt_of_le his with h | h
            · subst h
              have := maximalRun_end hrun hij hall hnj
              left; exact ⟨rfl, by omega⟩
            · right; exact maximalRun_start_gt hrun h hall hnj
          by_cases hlen : MIN_STRING_LENGTH ≤ j - i
          · have hval : scan_loop pause data oob base (fuel + 1) i t =
                ⟨⟨base + i, j - i⟩ :: (scan_loop pause data oob base fuel (j + 1)
                    (t + (j - i) + 1 + 1)).found,
                  (scan_loop pause data oob base fuel (j + 1) (t + (j - i) + 1 + 1)).paused,
                  (scan_loop pause data oob base fuel (j + 1) (t + (j - i) + 1 + 1)).t⟩ := by
              rw [scan_loop]
              simp only [hlt, if_true, hj, Nat.zero_add]
              simp [hp, hlen]
            rw [hval]
            refine ⟨?_, ?_, ?_⟩
            · intro o l hmem
              simp only [List.mem_cons, Range.mk.injEq] at hmem
              rcases hmem with ⟨ho, hl⟩ | hmem
              · subst ho; subst hl
                exact ⟨i, rfl, le_refl _,
                  hrun_i (by unfold MIN_STRING_LENGTH at hlen; omega), hlen⟩
              · obtain ⟨s, hs, hjs, hrun, h4⟩ := ih1 o l hmem
                exact ⟨s, hs, by omega, hrun, h4⟩
            · intro hnone s l his hrun h4
              rcases hback s l his hrun h4 with ⟨h1, h2⟩ | h
              · subst h1; subst h2; exact List.mem_cons_self _ _
              · exact List.mem_cons_of_mem _ (ih2 hnone s l h hrun h4)
            · intro k hk
              obtain ⟨q, hq1, hq2, hq3, hq4⟩ := ih3 k hk
              refine ⟨q, hq1, by omega, hq3, ?_⟩
              intro s l his hsq hrun h4
              rcases hback s l his hrun h4 with ⟨h1, h2⟩ | h
              · subst h1; subst h2; exact List.mem_cons_self _ _
              · exact List.mem_cons_of_mem _ (hq4 s l h hsq hrun h4)
          · have hval : scan_loop pause data oob base (fuel + 1) i t =
                scan_loop pause data oob base fuel (j + 1) (t + (j - i) + 1 + 1) := by
              rw [scan_loop]
              simp only [hlt, if_true, hj, Nat.zero_add]
              simp [hp, hlen]
            rw [hval]
            refine ⟨?_, ?_, ?_⟩
            · intro o l hmem
              obtain ⟨s, hs, hjs, hrun, h4⟩ := ih1 o l hmem
              exact ⟨s, hs, by omega, hrun, h4⟩
            · intro hnone s l his hrun h4
              rcases hback s l his hrun h4 with ⟨_, h2⟩ | h
              · omega
              · exact ih2 hnone s l h hrun h4
            · intro k hk
              obtain ⟨q, hq1, hq2, hq3, hq4⟩ := ih3 k hk
              refine ⟨q, hq1, by omega, hq3, ?_⟩
              intro s l his hsq hrun h4
              rcases hback s l his hrun h4 with ⟨_, h2⟩ | h
              · omega
              · exact hq4 s l h hsq hrun h4
    · have hval : scan_loop pause data oob base (fuel + 1) i t = ⟨[], none, t⟩ := by
        rw [scan_loop]; simp [hlt]
      rw [hval]
      refine ⟨by simp, ?_, by simp⟩
      intro _ s l his hrun _
      have := printableAt_lt (hrun.2.1 s (le_refl _) (by have := hrun.1; omega))
      omega

/-! ## One window -/

theorem covers_insert_matches (s : StringPanel) (found : List Range) (x : Nat) :
    Covers (insert_matches s found).strings x ↔
      Covers s.strings x ∨ ∃ r ∈ found, r.offset ≤ x ∧ x < r.offset + r.length := by
  rw [insert_matches_strings]
  exact covers_foldl_set_range (fun r => r.offset) x found s.strings

theorem wellFormed_insert_matches (s : StringPanel) (found : List Range)
    (h : WellFormed s.strings) : WellFormed (insert_matches s found).strings := by
  rw [insert_matches_strings]
  exact wellFormed_foldl_set_range (fun r => r.offset) found s.strings h

/-- The match inserts touch `strings`, `update_needed` and `last_item_idx` only. -/
theorem insert_matches_frame (found : List Range) :
    ∀ s : StringPanel,
      (insert_matches s found).dirty = s.dirty ∧
      (insert_matches s found).threads_exit = s.threads_exit ∧
      (insert_matches s found).threads_pause = s.threads_pause ∧
      (insert_matches s found).spawned_threads = s.spawned_threads ∧
      (insert_matches s found).running_threads = s.running_threads ∧
      (insert_matches s found).last_item_iter = s.last_item_iter := by
  induction found with
  | nil => intro s; exact ⟨rfl, rfl, rfl, rfl, rfl, rfl⟩
  | cons r rest ih =>
    intro s
    simp only [insert_matches, List.foldl_cons] at ih ⊢
    exact ih (insert_match s r)

/-- After the match inserts the cached index is -1, unless there was no match at all and
nothing changed. -/
theorem insert_matches_idx (found : List Range) :
    ∀ s : StringPanel,
      (insert_matches s found).last_item_idx = -1 ∨ insert_matches s found = s := by
  induction found with
  | nil => intro s; exact Or.inr rfl
  | cons r rest ih =>
    intro s
    simp only [insert_matches, List.foldl_cons] at ih ⊢
    rcases ih (insert_match s r) with h | h
    · exact Or.inl h
    · left; rw [h]; rfl

/-- The bytes read for a window, scanned under a pause request that is never withdrawn: a
printable block of the document that lies in the bytes read is covered by the reported runs,
provided the scan was not interrupted or was interrupted after the start of the block. -/
theorem scan_covers_block (pause : Nat → Bool)
    (hmono : ∀ t, pause t = true → pause (t + 1) = true) (doc : List Nat)
    (oob base len t a : Nat) (hblk : PrintableBlock doc a) (h1 : base ≤ a)
    (h2 : a + MIN_STRING_LENGTH ≤ base + len)
    (hp : ∀ k, (scan_window pause (read_data doc base len) oob base t).paused = some k →
      a < k) :
    ∀ j, j < MIN_STRING_LENGTH →
      ∃ r ∈ (scan_window pause (read_data doc base len) oob base t).found,
        r.offset ≤ a + j ∧ a + j < r.offset + r.length := by
  have hblk' : PrintableBlock (read_data doc base len) (a - base) := by
    intro j hj
    rw [printableAt_read_data]
    have := hblk j hj
    have heq : base + (a - base + j) = a + j := by omega
    rw [heq]
    exact ⟨by omega, this⟩
  obtain ⟨s, l, hrun, hs1, hs2⟩ := exists_maximalRun (read_data doc base len) (a - base)
    (by have := hblk' 0 (by unfold MIN_STRING_LENGTH; omega); simpa using this)
  obtain ⟨hc1, hc2⟩ := maximalRun_contains_block hrun hblk'
    ⟨0, by unfold MIN_STRING_LENGTH; omega, by omega, by omega⟩
  obtain ⟨_, hnone, hsome⟩ := scan_loop_mono pause hmono (read_data doc base len) oob base
    (read_data doc base len).length 0 t (by omega) (Or.inl rfl)
  have hmem : (⟨base + s, l⟩ : Range) ∈
      (scan_window pause (read_data doc base len) oob base t).found := by
    unfold scan_window at hp ⊢
    cases hpaused : (scan_loop pause (read_data doc base len) oob base
        (read_data doc base len).length 0 t).paused with
    | none => exact hnone hpaused s l (Nat.zero_le _) hrun (by omega)
    | some k =>
      obtain ⟨q, hq1, _, _, hq4⟩ := hsome k hpaused
      have := hp k hpaused
      exact hq4 s l (Nat.zero_le _) (by omega) hrun (by omega)
  intro j hj
  exact ⟨_, hmem, by dsimp only; omega, by dsimp only; omega⟩

/-- What a scan reports lies in printable runs of length at least `MIN_STRING_LENGTH` of the
document. -/
theorem scan_found_inString (pause : Nat → Bool)
    (hmono : ∀ t, pause t = true → pause (t + 1) = true) (doc : List Nat)
    (oob base len t : Nat) :
    ∀ r ∈ (scan_window pause (read_data doc base len) oob base t).found,
      ∀ x, r.offset ≤ x → x < r.offset + r.length → InString doc x := by
  intro r hr x hx1 hx2
  obtain ⟨hsound, _, _⟩ := scan_loop_mono pause hmono (read_data doc base len) oob base
    (read_data doc base len).length 0 t (by omega) (Or.inl rfl)
  obtain ⟨s, hs, _, hrun, hl⟩ := hsound r.offset r.length hr
  refine inString_of_printable_stretch hl ?_ hx1 hx2
  intro k hk1 hk2
  have := hrun.2.1 (k - base) (by omega) (by omega)
  rw [printableAt_read_data] at this
  have heq : base + (k - base) = k := by omega
  rw [heq] at this
  exact this.2

theorem scan_window_no_pause_paused (data : List Nat) (oob base t : Nat) :
    (scan_window no_pause data oob base t).paused = none :=
  (scan_loop_no_pause data oob base data.length 0 t (by omega) (Or.inl rfl)).1

theorem scanned_window_dirty (doc : List Nat) (oob t : Nat) (s : StringPanel) (next : Range) :
    (scanned_window doc oob t s next).dirty =
      clear_range s.dirty next.offset (window_length next) := by
  unfold scanned_window
  rw [(insert_matches_frame _ _).1]
  rfl

theorem scanned_window_threads_exit (doc : List Nat) (oob t : Nat) (s : StringPanel)
    (next : Range) : (scanned_window doc oob t s next).threads_exit = s.threads_exit := by
  unfold scanned_window
  rw [(insert_matches_frame _ _).2.1]
  rfl

/-- An unpaused window keeps `NothingLost`: the blocks that relied on a dirty byte of the
window are covered by what the scan of the padded window reports. -/
theorem nothingLost_scanned_window (doc : List Nat) (oob t : Nat) (s : StringPanel)
    (next : Range) (h : NothingLost doc s.dirty s.strings) :
    NothingLost doc (scanned_window doc oob t s next).dirty
      (scanned_window doc oob t s next).strings := by
  intro a hblk
  rw [scanned_window_dirty]
  unfold scanned_window
  rcases h a hblk with hcov | ⟨j, hj, hd⟩
  · left
    intro j hj
    rw [covers_insert_matches]
    exact Or.inl (hcov j hj)
  · by_cases hw : next.offset ≤ a + j ∧ a + j < next.offset + window_length next
    · left
      intro j' hj'
      rw [covers_insert_matches]
      right
      unfold MIN_STRING_LENGTH at hj hj'
      exact scan_covers_block no_pause no_pause_mono doc oob _ _ t a hblk
        (by unfold window_base_adj window_pre MIN_STRING_LENGTH; omega)
        (by unfold window_base_adj window_length_adj window_pre MIN_STRING_LENGTH; omega)
        (by intro k hk; rw [scan_window_no_pause_paused] at hk; simp at hk) j'
        (by unfold MIN_STRING_LENGTH; omega)
    · right
      refine ⟨j, hj, ?_⟩
      rw [covers_clear_range]
      exact ⟨hd, by omega⟩

/-- The length re-marked dirty at a pause, when `string_base` lies before the end of a window
of at most `WINDOW_SIZE` bytes: no wrap-around happens. -/
theorem as_off_t_new_dirty_length (window_base window_length string_base : Nat)
    (h1 : string_base < window_base + window_length) (h2 : window_length ≤ WINDOW_SIZE)
    (h3 : window_base ≤ string_base + MIN_STRING_LENGTH) :
    as_off_t (new_dirty_length window_base window_length string_base) =
      (window_length : Int) + (window_base : Int) - (string_base : Int) := by
  unfold as_off_t new_dirty_length
  unfold WINDOW_SIZE at h2
  unfold MIN_STRING_LENGTH at h3
  have hb : (0 : Int) ≤ (window_length : Int) - ((string_base : Int) - (window_base : Int)) := by
    omega
  have hlt : (window_length : Int) - ((string_base : Int) - (window_base : Int)) < 2 ^ 64 := by
    norm_num; omega
  rw [Int.emod_eq_of_lt hb hlt]
  have hn : (((window_length : Int) - ((string_base : Int) - (window_base : Int))).toNat : Int) =
      (window_length : Int) - ((string_base : Int) - (window_base : Int)) := Int.toNat_of_nonneg hb
  split_ifs with h4
  · rw [hn]; ring
  · exfalso
    apply h4
    have : ((window_length : Int) - ((string_base : Int) - (window_base : Int))).toNat <
        2 ^ 63 := by
      norm_num; omega
    exact this

theorem window_length_le (next : Range) : window_length next ≤ WINDOW_SIZE :=
  Nat.min_le_right _ _

/-- A window interrupted by a pause keeps `NothingLost`: the blocks that start before
`string_base` are covered by what was reported, the others still hold a dirty byte, which
the pause branch re-marks. -/
theorem nothingLost_paused_window (pause : Nat → Bool)
    (hmono : ∀ t, pause t = true → pause (t + 1) = true) (doc : List Nat) (oob t : Nat)
    (s : StringPanel) (next : Range) (k : Nat)
    (hk : (window_scan pause doc oob t next).paused = some k)
    (h : NothingLost doc s.dirty s.strings) :
    NothingLost doc
      (pause_window (insert_matches (take_window s next)
        (window_scan pause doc oob t next).found) next k).dirty
      (pause_window (insert_matches (take_window s next)
        (window_scan pause doc oob t next).found) next k).strings := by
  have hdirty : (pause_window (insert_matches (take_window s next)
        (window_scan pause doc oob t next).found) next k).dirty =
      set_range (clear_range s.dirty next.offset (window_length next))
        (new_dirty_base next.offset k)
        (as_off_t (new_dirty_length next.offset (window_length next) k)) := by
    unfold pause_window
    dsimp only
    rw [(insert_matches_frame _ _).1]
    rfl
  have hstrings : (pause_window (insert_matches (take_window s next)
        (window_scan pause doc oob t next).found) next k).strings =
      (insert_matches (take_window s next) (window_scan pause doc oob t next).found).strings :=
    rfl
  rw [hdirty, hstrings]
  have hwl := window_length_le next
  intro a hblk
  rcases h a hblk with hcov | ⟨j, hj, hd⟩
  · left
    intro j hj
    rw [covers_insert_matches]
    exact Or.inl (hcov j hj)
  · by_cases hw : next.offset ≤ a + j ∧ a + j < next.offset + window_length next
    · by_cases hak : a < k
      · left
        intro j' hj'
        rw [covers_insert_matches]
        right
        unfold MIN_STRING_LENGTH at hj hj'
        exact scan_covers_block pause hmono doc oob _ _ t a hblk
          (by unfold window_base_adj window_pre MIN_STRING_LENGTH; omega)
          (by unfold window_base_adj window_length_adj window_pre MIN_STRING_LENGTH; omega)
          (by
            intro k' hk'
            have hk2 : (window_scan pause doc oob t next).paused = some k' := hk'
            rw [hk] at hk2
            simp only [Option.some.injEq] at hk2
            omega) j'
          (by unfold MIN_STRING_LENGTH; omega)
      · right
        refine ⟨j, hj, ?_⟩
        rw [covers_set_range]
        right
        obtain ⟨_, _, hsome⟩ := scan_loop_mono pause hmono
          (read_data doc (window_base_adj next) (window_length_adj next))
          oob (window_base_adj next) _ 0 t (le_of_eq (Nat.sub_zero _))
          (Or.inl rfl)
        obtain ⟨q, hq1, _, _, _⟩ := hsome k hk
        rw [as_off_t_new_dirty_length _ _ _ (by omega) hwl
          (by unfold window_base_adj window_pre MIN_STRING_LENGTH at *; omega)]
        unfold new_dirty_base
        omega
    · right
      refine ⟨j, hj, ?_⟩
      rw [covers_set_range, covers_clear_range]
      exact Or.inl ⟨hd, by omega⟩

/-! ## `thread_main` runs to completion -/

theorem total_length_cons (r : Range) (rs : List Range) :
    total_length (r :: rs) = r.length + total_length rs := by
  simp [total_length]

theorem total_length_append (as bs : List Range) :
    total_length (as ++ bs) = total_length as + total_length bs := by
  simp [total_length]

theorem total_length_cut_range_le (r : Range) (lo hi : Nat) (h : lo ≤ hi) :
    total_length (cut_range r lo hi) ≤ r.length := by
  unfold cut_range
  split_ifs with h1 h2 h2 <;> simp [total_length] <;> omega

theorem total_length_cut_ranges_le (lo hi : Nat) (h : lo ≤ hi) :
    ∀ rs : List Range, total_length (cut_ranges rs lo hi) ≤ total_length rs := by
  intro rs
  induction rs with
  | nil => simp [cut_ranges]
  | cons r rs ih =>
    rw [cut_ranges, total_length_append, total_length_cons]
    have := total_length_cut_range_le r lo hi h
    omega

/-- Taking a window off the first dirty range strictly shrinks the dirty set. -/
theorem total_length_clear_window (next : Range) (rest : List Range) (w : Nat)
    (h1 : 0 < w) (h2 : w ≤ next.length) :
    total_length (clear_range (next :: rest) next.offset w) < total_length (next :: rest) := by
  unfold clear_range
  rw [if_neg (by omega), cut_ranges, total_length_append, total_length_cons]
  have hrest := total_length_cut_ranges_le next.offset (next.offset + w) (by omega) rest
  have hhead : total_length (cut_range next next.offset (next.offset + w)) < next.length := by
    unfold cut_range
    split_ifs with h3 h4 h4 <;> simp [total_length] <;> omega
  omega

theorem thread_main_loop_exit_flag (pause : Nat → Bool) (doc : List Nat) (oob fuel t : Nat)
    (s : StringPanel) (h : s.threads_exit = true) :
    thread_main_loop pause doc oob fuel t s = .exited (thread_exit s) := by
  cases fuel with
  | zero => rfl
  | succ fuel => rw [thread_main_loop]; simp [h]

theorem thread_main_loop_empty (pause : Nat → Bool) (doc : List Nat) (oob fuel t : Nat)
    (s : StringPanel) (h : s.dirty = []) :
    thread_main_loop pause doc oob fuel t s = .exited (thread_exit s) := by
  cases fuel with
  | zero => rfl
  | succ fuel =>
    rw [thread_main_loop]
    split_ifs
    · rfl
    · split
      · rfl
      · rename_i heq; rw [h] at heq; simp at heq

/-- One iteration of the `while` loop that takes a window. -/
theorem thread_main_loop_succ (pause : Nat → Bool) (doc : List Nat) (oob fuel t : Nat)
    (s : StringPanel) (next : Range) (rest : List Range) (he : s.threads_exit = false)
    (hd : s.dirty = next :: rest) :
    thread_main_loop pause doc oob (fuel + 1) t s =
      match (window_scan pause doc oob t next).paused with
      | some string_base =>
        .waiting (pause_window (insert_matches (take_window s next)
          (window_scan pause doc oob t next).found) next string_base)
          (window_scan pause doc oob t next).t
      | none =>
        thread_main_loop pause doc oob fuel (window_scan pause doc oob t next).t
          (insert_matches (take_window s next) (window_scan pause doc oob t next).found) := by
  rw [thread_main_loop]
  rw [if_neg (by rw [he]; simp)]
  split
  · rename_i heq; rw [hd] at heq; simp at heq
  · rename_i next' rest' heq
    rw [hd] at heq
    simp only [List.cons.injEq] at heq
    obtain ⟨h1, _⟩ := heq
    subst h1
    rfl

/-- One unpaused iteration of the `while` loop. -/
theorem thread_main_loop_no_pause_step (doc : List Nat) (oob fuel t : Nat) (s : StringPanel)
    (next : Range) (rest : List Range) (he : s.threads_exit = false)
    (hd : s.dirty = next :: rest) :
    ∃ t', thread_main_loop no_pause doc oob (fuel + 1) t s =
      thread_main_loop no_pause doc oob fuel t' (scanned_window doc oob t s next) := by
  rw [thread_main_loop_succ no_pause doc oob fuel t s next rest he hd]
  have hp : (window_scan no_pause doc oob t next).paused = none :=
    scan_window_no_pause_paused _ _ _ _
  rw [hp]
  exact ⟨_, rfl⟩

/-- Without pause and with the exit flag clear, `thread_main` returns with an empty dirty
set; an invariant of the single windows holds at the end. -/
theorem thread_main_loop_no_pause_inv (doc : List Nat) (oob : Nat) (I : StringPanel → Prop)
    (hI : ∀ s next rest t, I s → WellFormed s.dirty → s.dirty = next :: rest →
      I (scanned_window doc oob t s next)) :
    ∀ (fuel t : Nat) (s : StringPanel), I s → WellFormed s.dirty → s.threads_exit = false →
      total_length s.dirty ≤ fuel →
      ∃ s', thread_main_loop no_pause doc oob fuel t s = .exited (thread_exit s') ∧
        s'.dirty = [] ∧ I s' := by
  intro fuel
  induction fuel with
  | zero =>
    intro t s hs hwf _ hf
    refine ⟨s, rfl, ?_, hs⟩
    cases hd : s.dirty with
    | nil => rfl
    | cons next rest =>
      rw [hd] at hf hwf
      have := hwf.2 next (List.mem_cons_self _ _)
      rw [total_length_cons] at hf
      omega
  | succ fuel ih =>
    intro t s hs hwf he hf
    cases hd : s.dirty with
    | nil => exact ⟨s, thread_main_loop_empty _ _ _ _ _ _ hd, hd, hs⟩
    | cons next rest =>
      obtain ⟨t', hstep⟩ := thread_main_loop_no_pause_step doc oob fuel t s next rest he hd
      rw [hstep]
      have hpos := (hd ▸ hwf).2 next (List.mem_cons_self _ _)
      apply ih t' _ (hI s next rest t hs hwf hd)
      · rw [scanned_window_dirty]
        exact wellFormed_clear_range _ _ _ hwf
      · rw [scanned_window_threads_exit]; exact he
      · rw [scanned_window_dirty, hd]
        have := total_length_clear_window next rest (window_length next)
          (by unfold window_length WINDOW_SIZE; omega) (Nat.min_le_left _ _)
        rw [hd] at hf
        omega

/-! ## The cache and the strings set across `thread_main` and `start_threads` -/

theorem insert_matches_cache (found : List Range) (s : StringPanel) :
    (WellFormed s.strings → WellFormed (insert_matches s found).strings) ∧
    (insert_matches s found).last_item_iter = s.last_item_iter ∧
    ((insert_matches s found).last_item_idx = -1 ∨
      ((insert_matches s found).last_item_idx = s.last_item_idx ∧
        (insert_matches s found).strings = s.strings)) := by
  refine ⟨wellFormed_insert_matches s found, (insert_matches_frame found s).2.2.2.2.2, ?_⟩
  rcases insert_matches_idx found s with h | h
  · exact Or.inl h
  · right; rw [h]; exact ⟨rfl, rfl⟩

theorem thread_exit_cache (s : StringPanel) :
    (thread_exit s).strings = s.strings ∧ (thread_exit s).last_item_idx = s.last_item_idx ∧
      (thread_exit s).last_item_iter = s.last_item_iter ∧ (thread_exit s).dirty = s.dirty := by
  unfold thread_exit
  exact ⟨rfl, rfl, rfl, rfl⟩

/-- A run of `thread_main`, paused or not, leaves `last_item_iter` alone, keeps the strings
set well formed, and either leaves `last_item_idx` at -1 or has not touched the strings set
and the index. -/
theorem thread_main_loop_cache (pause : Nat → Bool) (doc : List Nat) (oob : Nat) :
    ∀ (fuel t : Nat) (s : StringPanel),
      (WellFormed s.strings →
        WellFormed (thread_main_loop pause doc oob fuel t s).state.strings) ∧
      (thread_main_loop pause doc oob fuel t s).state.last_item_iter = s.last_item_iter ∧
      ((thread_main_loop pause doc oob fuel t s).state.last_item_idx = -1 ∨
        ((thread_main_loop pause doc oob fuel t s).state.last_item_idx = s.last_item_idx ∧
          (thread_main_loop pause doc oob fuel t s).state.strings = s.strings)) := by
  have hexit : ∀ s : StringPanel,
      (WellFormed s.strings →
        WellFormed (ThreadOutcome.exited (thread_exit s)).state.strings) ∧
      (ThreadOutcome.exited (thread_exit s)).state.last_item_iter = s.last_item_iter ∧
      ((ThreadOutcome.exited (thread_exit s)).state.last_item_idx = -1 ∨
        ((ThreadOutcome.exited (thread_exit s)).state.last_item_idx = s.last_item_idx ∧
          (ThreadOutcome.exited (thread_exit s)).state.strings = s.strings)) := by
    intro s
    obtain ⟨h1, h2, h3, _⟩ := thread_exit_cache s
    simp only [ThreadOutcome.state, h1, h2, h3]
    exact ⟨fun h => h, trivial, Or.inr ⟨trivial, trivial⟩⟩
  intro fuel
  induction fuel with
  | zero =>
    intro t s
    rw [thread_main_loop]
    exact hexit s
  | succ fuel ih =>
    intro t s
    by_cases he : s.threads_exit = true
    · rw [thread_main_loop_exit_flag _ _ _ _ _ _ he]
      exact hexit s
    · cases hd : s.dirty with
      | nil =>
        rw [thread_main_loop_empty _ _ _ _ _ _ hd]
        exact hexit s
      | cons next rest =>
        rw [thread_main_loop_succ pause doc oob fuel t s next rest (by simpa using he) hd]
        obtain ⟨j1, j2, j3⟩ := insert_matches_cache (window_scan pause doc oob t next).found
          (take_window s next)
        have k1 : (take_window s next).strings = s.strings := rfl
        have k2 : (take_window s next).last_item_idx = s.last_item_idx := rfl
        have k3 : (take_window s next).last_item_iter = s.last_item_iter := rfl
        rw [k1] at j1 j3
        rw [k2] at j3
        rw [k3] at j2
        cases hp : (window_scan pause doc oob t next).paused with
        | some k =>
          dsimp only
          have e1 : (ThreadOutcome.waiting (pause_window (insert_matches (take_window s next)
              (window_scan pause doc oob t next).found) next k)
              (window_scan pause doc oob t next).t).state =
              pause_window (insert_matches (take_window s next)
              (window_scan pause doc oob t next).found) next k := rfl
          have e2 : ∀ x : StringPanel, (pause_window x next k).strings = x.strings ∧
              (pause_window x next k).last_item_idx = x.last_item_idx ∧
              (pause_window x next k).last_item_iter = x.last_item_iter := by
            intro x; unfold pause_window; exact ⟨rfl, rfl, rfl⟩
          rw [e1, (e2 _).1, (e2 _).2.1, (e2 _).2.2]
          exact ⟨j1, j2, j3⟩
        | none =>
          dsimp only
          obtain ⟨i1, i2, i3⟩ := ih (window_scan pause doc oob t next).t
            (insert_matches (take_window s next) (window_scan pause doc oob t next).found)
          refine ⟨fun h => i1 (j1 h), i2.trans j2, ?_⟩
          rcases i3 with h | ⟨h1, h2⟩
          · exact Or.inl h
          · rcases j3 with h3 | ⟨h3, h4⟩
            · left; rw [h1]; exact h3
            · right; exact ⟨h1.trans h3, h2.trans h4⟩

theorem thread_exit_threads_exit (s : StringPanel) :
    (thread_exit s).threads_exit = s.threads_exit := by
  unfold thread_exit; rfl

/-- A run of `thread_main` leaves the exit flag alone. -/
theorem thread_main_loop_threads_exit (pause : Nat → Bool) (doc : List Nat) (oob : Nat) :
    ∀ (fuel t : Nat) (s : StringPanel),
      (thread_main_loop pause doc oob fuel t s).state.threads_exit = s.threads_exit := by
  intro fuel
  induction fuel with
  | zero => intro t s; rw [thread_main_loop]; exact thread_exit_threads_exit s
  | succ fuel ih =>
    intro t s
    by_cases he : s.threads_exit = true
    · rw [thread_main_loop_exit_flag _ _ _ _ _ _ he]; exact thread_exit_threads_exit s
    · cases hd : s.dirty with
      | nil => rw [thread_main_loop_empty _ _ _ _ _ _ hd]; exact thread_exit_threads_exit s
      | cons next rest =>
        rw [thread_main_loop_succ pause doc oob fuel t s next rest (by simpa using he) hd]
        cases hp : (window_scan pause doc oob t next).paused with
        | some k =>
          dsimp only
          show (pause_window _ next k).threads_exit = s.threads_exit
          unfold pause_window
          dsimp only
          rw [(insert_matches_frame _ _).2.1]
          rfl
        | none =>
          dsimp only
          rw [ih, (insert_matches_frame _ _).2.1]
          rfl

/-- The spawn loop changes the two counters only, and brings `spawned_threads` up to
`want_threads` when it is below. -/
theorem spawn_loop_spec (want : Nat) (hw : want < 2 ^ 32) :
    ∀ (fuel : Nat) (s : StringPanel), want - s.spawned_threads ≤ fuel →
      (spawn_loop want fuel s).spawned_threads = max s.spawned_threads want ∧
      (spawn_loop want fuel s).strings = s.strings ∧
      (spawn_loop want fuel s).dirty = s.dirty ∧
      (spawn_loop want fuel s).last_item_idx = s.last_item_idx ∧
      (spawn_loop want fuel s).last_item_iter = s.last_item_iter ∧
      (spawn_loop want fuel s).threads_exit = s.threads_exit := by
  intro fuel
  induction fuel with
  | zero =>
    intro s hf
    refine ⟨?_, rfl, rfl, rfl, rfl, rfl⟩
    show s.spawned_threads = max s.spawned_threads want
    omega
  | succ fuel ih =>
    intro s hf
    rw [spawn_loop]
    split_ifs with h
    · have hinc : inc_uint s.spawned_threads = s.spawned_threads + 1 := by
        unfold inc_uint
        exact Nat.mod_eq_of_lt (by omega)
      obtain ⟨h1, h2, h3, h4, h5, h6⟩ := ih
        { s with spawned_threads := inc_uint s.spawned_threads,
                 running_threads := inc_uint s.running_threads }
        (by dsimp only; rw [hinc]; omega)
      refine ⟨?_, h2, h3, h4, h5, h6⟩
      rw [h1]; dsimp only; rw [hinc]; omega
    · exact ⟨by omega, rfl, rfl, rfl, rfl, rfl⟩

theorem want_threads_lt (dirty_total max_threads : Nat) :
    want_threads dirty_total max_threads < 2 ^ 32 := by
  unfold want_threads
  have := Nat.mod_lt (dirty_total / WINDOW_SIZE) (by norm_num : 2 ^ 32 > 0)
  dsimp only
  split_ifs <;> omega

/-- What `start_threads` does on the background path. -/
theorem start_threads_background (max_threads : Nat) (doc : List Nat) (oob : Nat)
    (s : StringPanel) (h : UI_THREAD_THRESH < dirty_total s.dirty) :
    start_threads max_threads doc oob s =
      spawn_loop (want_threads (dirty_total s.dirty) max_threads)
        (want_threads (dirty_total s.dirty) max_threads)
        { resume_threads s with threads_exit := false } := by
  unfold start_threads
  have h0 : dirty_total (resume_threads s).dirty > 0 := by
    show dirty_total s.dirty > 0
    omega
  simp only [h0, if_true]
  rw [if_pos (by exact h)]
  rfl

/-- Across `start_threads` the strings set stays well formed, `last_item_iter` is left alone,
and either `last_item_idx` is -1 afterwards or the strings set and the index are untouched. -/
theorem start_threads_cache (max_threads : Nat) (doc : List Nat) (oob : Nat)
    (s : StringPanel) :
    (WellFormed s.strings → WellFormed (start_threads max_threads doc oob s).strings) ∧
    (start_threads max_threads doc oob s).last_item_iter = s.last_item_iter ∧
    ((start_threads max_threads doc oob s).last_item_idx = -1 ∨
      ((start_threads max_threads doc oob s).last_item_idx = s.last_item_idx ∧
        (start_threads max_threads doc oob s).strings = s.strings)) := by
  by_cases h0 : dirty_total s.dirty > 0
  · by_cases h1 : UI_THREAD_THRESH < dirty_total s.dirty
    · rw [start_threads_background _ _ _ _ h1]
      obtain ⟨_, h2, _, h4, h5, _⟩ := spawn_loop_spec
        (want_threads (dirty_total s.dirty) max_threads) (want_threads_lt _ _)
        (want_threads (dirty_total s.dirty) max_threads)
        { resume_threads s with threads_exit := false } (by omega)
      rw [h2, h4, h5]
      exact ⟨fun h => h, rfl, Or.inr ⟨rfl, rfl⟩⟩
    · have hval : start_threads max_threads doc oob s =
          (thread_main no_pause doc oob 0
            { resume_threads s with threads_exit := false }).state := by
        unfold start_threads
        have h0' : dirty_total (resume_threads s).dirty > 0 := h0
        simp only [h0', if_true]
        rw [if_neg (by exact h1)]
      rw [hval]
      exact thread_main_loop_cache no_pause doc oob _ 0
        { resume_threads s with threads_exit := false }
  · have hval : start_threads max_threads doc oob s = resume_threads s := by
      unfold start_threads
      have h0' : ¬ dirty_total (resume_threads s).dirty > 0 := h0
      simp only [h0', if_false]
    rw [hval]
    exact ⟨fun h => h, rfl, Or.inr ⟨rfl, rfl⟩⟩

/-! ## C2: the end-to-end scenario -/

/-- C2, as the code behaves: the panel created on an empty buffer has an empty dirty set and
no strings; after `OnDataInsert` for the 11 bytes "test data!!" at offset 0 (the scan runs
inline) the dirty set is empty again and the strings set holds exactly one range, (0, 11):
the space is a printable character, so "test data!!" is a single run. -/
theorem C2_insert_test_data_yields_one_range (max_threads oob : Nat) :
    (StringPanel.create max_threads [] oob).dirty = [] ∧
    (StringPanel.create max_threads [] oob).strings = [] ∧
    (OnDataInsert max_threads test_data oob (StringPanel.create max_threads [] oob) 0
      11).dirty = [] ∧
    (OnDataInsert max_threads test_data oob (StringPanel.create max_threads [] oob) 0
      11).strings = [⟨0, 11⟩] := by
  simp [OnDataInsert, StringPanel.create, start_threads, resume_threads, dirty_total,
    total_length, set_range, OnDataInsert_update, data_inserted, merge_range, UI_THREAD_THRESH,
    thread_main, thread_main_loop, clear_range, cut_ranges, cut_range, read_data, scan_window,
    scan_loop, extend_string, no_pause, data_p, isascii, isprint, MIN_STRING_LENGTH,
    WINDOW_SIZE, insert_matches, insert_match, thread_exit, ThreadOutcome.state, test_data,
    window_scan, take_window, window_length, window_pre, window_base_adj, window_length_adj]

/-- C2, refuted as stated: after the insert of "test data!!" the strings set is not the two
ranges (0, 4) and (5, 4). -/
theorem C2_two_ranges_refuted :
    (OnDataInsert 8 test_data 0 (StringPanel.create 8 [] 0) 0 11).strings
      ≠ [⟨0, 4⟩, ⟨5, 4⟩] := by
  decide

/-! ## C9: the commit handlers and the cached position -/

/-- C9, as the code behaves: `OnDataErase` and `OnDataInsert` leave `last_item_idx` at -1,
both when their own state updates are done and when they return; the state updates of
`OnDataOverwrite` change neither the strings set nor `last_item_idx`. -/
theorem C9_erase_and_insert_invalidate_the_cache (max_threads : Nat) (doc : List Nat)
    (oob : Nat) (s : StringPanel) (offset length : Nat) :
    (OnDataErase_update s offset length).last_item_idx = -1 ∧
    (OnDataErase max_threads doc oob s offset length).last_item_idx = -1 ∧
    (OnDataInsert_update s offset length).last_item_idx = -1 ∧
    (OnDataInsert max_threads doc oob s offset length).last_item_idx = -1 ∧
    (OnDataOverwrite_update s offset length).last_item_idx = s.last_item_idx ∧
    (OnDataOverwrite_update s offset length).strings = s.strings := by
  refine ⟨rfl, ?_, rfl, ?_, rfl, rfl⟩
  · rcases (start_threads_cache max_threads doc oob (OnDataErase_update s offset length)).2.2
      with h | ⟨h, _⟩
    · exact h
    · exact h
  · rcases (start_threads_cache max_threads doc oob (OnDataInsert_update s offset length)).2.2
      with h | ⟨h, _⟩
    · exact h
    · exact h

/-- C9, refuted as stated: on the document "ABCDE", after `get_nth_string(0)` has cached
position 0, `OnDataOverwrite` for the third byte (overwritten with 01) leaves
`last_item_idx` at 0, not -1, both after its own state updates and when it returns. -/
theorem C9_overwrite_keeps_the_cache :
    (OnDataOverwrite_update
      (after_get_nth (StringPanel.create 8 [65, 66, 67, 68, 69] 0) 0) 2 1).last_item_idx = 0 ∧
    (OnDataOverwrite 8 [65, 66, 1, 68, 69] 0
      (after_get_nth (StringPanel.create 8 [65, 66, 67, 68, 69] 0) 0) 2 1).last_item_idx = 0 ∧
    ¬ ((OnDataOverwrite_update
      (after_get_nth (StringPanel.create 8 [65, 66, 67, 68, 69] 0) 0) 2 1).last_item_idx
        = -1) := by
  decide

/-! ## C10: the number of workers -/

/-- C10, as the code behaves: on the background path, with at least one hardware thread and
a quotient that fits an `unsigned int`, `want_threads` is the quotient
`dirty_total / WINDOW_SIZE` rounded down, clamped to `[1, hardware_concurrency]`, and after
the call `spawned_threads` is the maximum of its previous value and that count. -/
theorem C10_want_threads_is_the_floor_clamped (max_threads : Nat) (doc : List Nat)
    (oob : Nat) (s : StringPanel) (h1 : UI_THREAD_THRESH < dirty_total s.dirty)
    (h2 : 1 ≤ max_threads) (h3 : dirty_total s.dirty / WINDOW_SIZE < 2 ^ 32) :
    want_threads (dirty_total s.dirty) max_threads =
      max 1 (min max_threads (dirty_total s.dirty / WINDOW_SIZE)) ∧
    (start_threads max_threads doc oob s).spawned_threads =
      max s.spawned_threads (want_threads (dirty_total s.dirty) max_threads) := by
  constructor
  · unfold want_threads
    rw [Nat.mod_eq_of_lt h3]
    dsimp only
    generalize dirty_total s.dirty / WINDOW_SIZE = q
    rw [max_def, min_def]
    split_ifs <;> omega
  · rw [start_threads_background _ _ _ _ h1]
    exact (spawn_loop_spec _ (want_threads_lt _ _) _ _ (by dsimp only [resume_threads]; omega)).1

/-- C10, witness: three MiB of dirty bytes and eight hardware threads. -/
theorem C10_want_threads_witness :
    want_threads (dirty_total [⟨0, 3145728⟩]) 8 =
      max 1 (min 8 (dirty_total [⟨0, 3145728⟩] / WINDOW_SIZE)) ∧
    (start_threads 8 [] 0
      { dirty := [⟨0, 3145728⟩], strings := [], update_needed := false, last_item_idx := -1,
        last_item_iter := none, threads_exit := true, threads_pause := false,
        spawned_threads := 0, running_threads := 0 }).spawned_threads =
      max 0 (want_threads (dirty_total [⟨0, 3145728⟩]) 8) :=
  C10_want_threads_is_the_floor_clamped 8 [] 0
    { dirty := [⟨0, 3145728⟩], strings := [], update_needed := false, last_item_idx := -1,
      last_item_iter := none, threads_exit := true, threads_pause := false,
      spawned_threads := 0, running_threads := 0 }
    (by decide) (by decide) (by decide)

/-- C10, refuted as stated: for three MiB of dirty bytes (above the inline threshold) and
eight hardware threads the code aims for 1 worker and leaves `spawned_threads` at 1, while
`ceil(dirty_total / WINDOW_SIZE)` clamped to `[1, 8]` is 2. -/
theorem C10_ceiling_refuted :
    UI_THREAD_THRESH < dirty_total [⟨0, 3145728⟩] ∧
    want_threads (dirty_total [⟨0, 3145728⟩]) 8 = 1 ∧
    spec_want_threads (dirty_total [⟨0, 3145728⟩]) 8 = 2 ∧
    (start_threads 8 [] 0
      { dirty := [⟨0, 3145728⟩], strings := [], update_needed := false, last_item_idx := -1,
        last_item_iter := none, threads_exit := true, threads_pause := false,
        spawned_threads := 0, running_threads := 0 }).spawned_threads = 1 := by
  decide

/-! ## C7, C8: `get_nth_string` and its cache -/

theorem iter_pos_of_getElem? {rs : List Range} (hnd : rs.Nodup) {i : Nat} {r : Range}
    (h : rs[i]? = some r) : iter_pos rs (some r) = some i := by
  obtain ⟨hi, hr⟩ := List.getElem?_eq_some.mp h
  have hmem : r ∈ rs := hr ▸ List.getElem_mem hi
  simp only [iter_pos, hmem, if_true, Option.some.injEq]
  rw [← hr]
  exact List.indexOf_getElem hnd i hi

theorem std_next_of_pos (rs : List Range) (it : RangeIter) (p : Nat)
    (hp : iter_pos rs it = some p) (d n : Int) (hn : (p : Int) + d = n) :
    std_next rs it d =
      if 0 ≤ n ∧ n ≤ rs.length then some rs[n.toNat]? else none := by
  simp only [std_next, hp, hn]

/-- With a usable cache, `get_nth_string(n)` passes its assertion exactly when `n`, read as
`size_t`, is below the size of the set; it then steps to position `n`, which must lie in
`[0, size]`, and caches it. -/
theorem get_nth_string_eq (s : StringPanel) (n : Int) (hnd : s.strings.Nodup)
    (hc : CacheValid s) :
    get_nth_string s n =
      if (n % 2 ^ 64).toNat < s.strings.length then
        if 0 ≤ n ∧ n ≤ s.strings.length then
          .ok (s.strings[n.toNat]?,
            { s with last_item_iter := s.strings[n.toNat]?, last_item_idx := n })
        else .error .undefined_behaviour
      else .error .assertion_failed := by
  by_cases h1 : (n % 2 ^ 64).toNat < s.strings.length
  · rw [if_pos h1]
    by_cases hidx : s.last_item_idx < 0
    · have hstd : std_next s.strings s.strings.head? (n - 0) =
          if 0 ≤ n ∧ n ≤ s.strings.length then some s.strings[n.toNat]? else none := by
        cases hs : s.strings with
        | nil => rw [hs] at h1; simp at h1
        | cons r0 rest =>
          exact std_next_of_pos _ _ 0 (by simp [iter_pos]) _ _ (by omega)
      unfold get_nth_string
      rw [if_pos h1]
      simp only [hidx, if_true]
      rw [hstd]
      by_cases h2 : 0 ≤ n ∧ n ≤ s.strings.length
      · rw [if_pos h2, if_pos h2]
      · rw [if_neg h2, if_neg h2]
    · rcases hc with hc | ⟨h0, r, hit, hr⟩
      · exact absurd hc hidx
      · have hstd : std_next s.strings s.last_item_iter (n - s.last_item_idx) =
            if 0 ≤ n ∧ n ≤ s.strings.length then some s.strings[n.toNat]? else none := by
          rw [hit]
          exact std_next_of_pos _ _ _ (iter_pos_of_getElem? hnd hr) _ _ (by omega)
        unfold get_nth_string
        rw [if_pos h1]
        simp only [hidx, if_false]
        rw [hstd]
        by_cases h2 : 0 ≤ n ∧ n ≤ s.strings.length
        · rw [if_pos h2, if_pos h2]
        · rw [if_neg h2, if_neg h2]
  · unfold get_nth_string
    rw [if_neg h1, if_neg h1]

/-- For `0 ≤ n < size` and a usable cache, `get_nth_string(n)` returns the iterator at
element `n` and caches `(n, that iterator)`. -/
theorem get_nth_string_in_range (s : StringPanel) (n : Int) (hnd : s.strings.Nodup)
    (hc : CacheValid s) (h0 : 0 ≤ n) (hn : n < s.strings.length) :
    ∃ r, s.strings[n.toNat]? = some r ∧
      get_nth_string s n =
        .ok (some r, { s with last_item_iter := some r, last_item_idx := n }) := by
  have hlt : n.toNat < s.strings.length := by omega
  refine ⟨s.strings[n.toNat], List.getElem?_eq_getElem hlt, ?_⟩
  rw [get_nth_string_eq s n hnd hc]
  have h1 : (n % 2 ^ 64).toNat < s.strings.length := by
    omega
  rw [if_pos h1, if_pos ⟨h0, by omega⟩, List.getElem?_eq_getElem hlt]

theorem after_get_nth_in_range (s : StringPanel) (n : Int) (hnd : s.strings.Nodup)
    (hc : CacheValid s) (h0 : 0 ≤ n) (hn : n < s.strings.length) :
    ∃ r, s.strings[n.toNat]? = some r ∧
      after_get_nth s n = { s with last_item_iter := some r, last_item_idx := n } := by
  obtain ⟨r, hr, hget⟩ := get_nth_string_in_range s n hnd hc h0 hn
  exact ⟨r, hr, by simp only [after_get_nth, hget]⟩

/-- Calls of `get_nth_string` with arguments in range leave the strings set alone and the
cache usable. -/
theorem foldl_after_get_nth_valid :
    ∀ (earlier : List Int) (s : StringPanel), s.strings.Nodup → CacheValid s →
      (∀ m ∈ earlier, 0 ≤ m ∧ m < s.strings.length) →
      (earlier.foldl after_get_nth s).strings = s.strings ∧
        CacheValid (earlier.foldl after_get_nth s) := by
  intro earlier
  induction earlier with
  | nil => intro s _ hc _; exact ⟨rfl, hc⟩
  | cons m rest ih =>
    intro s hnd hc hall
    obtain ⟨hm0, hm1⟩ := hall m (List.mem_cons_self _ _)
    obtain ⟨r, hr, hs'⟩ := after_get_nth_in_range s m hnd hc hm0 hm1
    rw [List.foldl_cons, hs']
    have hvalid : CacheValid { s with last_item_iter := some r, last_item_idx := m } :=
      Or.inr ⟨hm0, r, rfl, hr⟩
    obtain ⟨i1, i2⟩ := ih { s with last_item_iter := some r, last_item_idx := m } hnd hvalid
      (fun x hx => hall x (List.mem_cons_of_mem _ hx))
    exact ⟨i1, i2⟩

/-- C7: for a strings set with `c` ranges, `0 ≤ n < c` and a usable cache (`last_item_idx`
negative, or `last_item_iter` at element number `last_item_idx`), `get_nth_string(n)` returns
the iterator at the `n`-th range in ascending order of offset and leaves the cache as
(`n`, that iterator); so after any sequence of earlier calls with arguments in range the call
still returns the `n`-th range. -/
theorem C7_get_nth_string_returns_the_nth_range (s : StringPanel) (n : Int)
    (hwf : WellFormed s.strings) (hc : CacheValid s) (h0 : 0 ≤ n)
    (hn : n < s.strings.length) :
    ∃ r, s.strings[n.toNat]? = some r ∧
      get_nth_string s n =
        .ok (some r, { s with last_item_iter := some r, last_item_idx := n }) ∧
      ∀ earlier : List Int, (∀ m ∈ earlier, 0 ≤ m ∧ m < s.strings.length) →
        get_nth_string (earlier.foldl after_get_nth s) n =
          .ok (some r, { earlier.foldl after_get_nth s with
            last_item_iter := some r, last_item_idx := n }) := by
  obtain ⟨r, hr, hget⟩ := get_nth_string_in_range s n hwf.nodup hc h0 hn
  refine ⟨r, hr, hget, ?_⟩
  intro earlier hall
  obtain ⟨hstr, hvalid⟩ := foldl_after_get_nth_valid earlier s hwf.nodup hc hall
  obtain ⟨r', hr', hget'⟩ := get_nth_string_in_range (earlier.foldl after_get_nth s) n
    (hstr ▸ hwf.nodup) hvalid h0 (hstr ▸ hn)
  rw [hstr, hr] at hr'
  simp only [Option.some.injEq] at hr'
  subst hr'
  exact hget'

/-- C7, witness: the second of three ranges, asked for with position 2 cached, and again
after the calls for 0, 2 and 1. -/
theorem C7_get_nth_string_witness :
    ∃ r, ([⟨0, 4⟩, ⟨10, 5⟩, ⟨20, 6⟩] : List Range)[(1 : Int).toNat]? = some r ∧
      get_nth_string
        { dirty := [], strings := [⟨0, 4⟩, ⟨10, 5⟩, ⟨20, 6⟩], update_needed := false,
          last_item_idx := 2, last_item_iter := some ⟨20, 6⟩, threads_exit := false,
          threads_pause := false, spawned_threads := 0, running_threads := 0 } 1 =
        .ok (some r,
          { dirty := [], strings := [⟨0, 4⟩, ⟨10, 5⟩, ⟨20, 6⟩], update_needed := false,
            last_item_idx := 1, last_item_iter := some r, threads_exit := false,
            threads_pause := false, spawned_threads := 0, running_threads := 0 }) ∧
      ∀ earlier : List Int, (∀ m ∈ earlier, 0 ≤ m ∧
          m < ([⟨0, 4⟩, ⟨10, 5⟩, ⟨20, 6⟩] : List Range).length) →
        get_nth_string (earlier.foldl after_get_nth
          { dirty := [], strings := [⟨0, 4⟩, ⟨10, 5⟩, ⟨20, 6⟩], update_needed := false,
            last_item_idx := 2, last_item_iter := some ⟨20, 6⟩, threads_exit := false,
            threads_pause := false, spawned_threads := 0, running_threads := 0 }) 1 =
          .ok (some r, { earlier.foldl after_get_nth
            { dirty := [], strings := [⟨0, 4⟩, ⟨10, 5⟩, ⟨20, 6⟩], update_needed := false,
              last_item_idx := 2, last_item_iter := some ⟨20, 6⟩, threads_exit := false,
              threads_pause := false, spawned_threads := 0, running_threads := 0 } with
            last_item_iter := some r, last_item_idx := 1 }) :=
  C7_get_nth_string_returns_the_nth_range
    { dirty := [], strings := [⟨0, 4⟩, ⟨10, 5⟩, ⟨20, 6⟩], update_needed := false,
      last_item_idx := 2, last_item_iter := some ⟨20, 6⟩, threads_exit := false,
      threads_pause := false, spawned_threads := 0, running_threads := 0 } 1
    ⟨by decide, by decide⟩ (Or.inr ⟨by decide, ⟨20, 6⟩, rfl, by decide⟩) (by decide) (by decide)

theorem CacheInvariant.cacheValid {s : StringPanel} (h : CacheInvariant s) : CacheValid s := by
  rcases h.1 with h1 | h1
  · left; omega
  · exact Or.inr h1

/-- Every operation keeps the cache invariant, and one that changes the strings set leaves
`last_item_idx` at -1. -/
theorem apply_op_invariant (s s' : StringPanel) (op : PanelOp) (hinv : CacheInvariant s)
    (h : apply_op s op = some s') :
    CacheInvariant s' ∧ (s'.strings ≠ s.strings → s'.last_item_idx = -1) := by
  cases op with
  | get_nth n =>
    simp only [apply_op] at h
    split_ifs at h with hfit
    rw [get_nth_string_eq s n hinv.2.nodup hinv.cacheValid] at h
    split_ifs at h with h1 h2
    · simp only [Option.some.injEq] at h
      subst h
      have hlt : n.toNat < s.strings.length := by omega
      refine ⟨⟨Or.inr ⟨h2.1, s.strings[n.toNat], ?_, ?_⟩, hinv.2⟩, fun hne => absurd rfl hne⟩
      · exact List.getElem?_eq_getElem hlt
      · exact List.getElem?_eq_getElem hlt
  | match_insert string_base string_length =>
    simp only [apply_op, Option.some.injEq] at h
    subst h
    exact ⟨⟨Or.inl rfl, wellFormed_set_range _ _ _ hinv.2⟩, fun _ => rfl⟩
  | erase max_threads doc oob offset length =>
    simp only [apply_op, Option.some.injEq] at h
    subst h
    obtain ⟨c1, _, c3⟩ := start_threads_cache max_threads doc oob
      (OnDataErase_update s offset length)
    have hidx : (OnDataErase max_threads doc oob s offset length).last_item_idx = -1 := by
      rcases c3 with c | ⟨c, _⟩ <;> exact c
    exact ⟨⟨Or.inl hidx, c1 (wellFormed_data_erased _ _ _)⟩, fun _ => hidx⟩
  | insert max_threads doc oob offset length =>
    simp only [apply_op, Option.some.injEq] at h
    subst h
    obtain ⟨c1, _, c3⟩ := start_threads_cache max_threads doc oob
      (OnDataInsert_update s offset length)
    have hidx : (OnDataInsert max_threads doc oob s offset length).last_item_idx = -1 := by
      rcases c3 with c | ⟨c, _⟩ <;> exact c
    exact ⟨⟨Or.inl hidx, c1 (wellFormed_data_inserted _ _ _ hinv.2)⟩, fun _ => hidx⟩
  | overwrite max_threads doc oob offset length =>
    simp only [apply_op, Option.some.injEq] at h
    subst h
    obtain ⟨c1, c2, c3⟩ := start_threads_cache max_threads doc oob
      (OnDataOverwrite_update s offset length)
    rcases c3 with c | ⟨c, c'⟩
    · exact ⟨⟨Or.inl c, c1 hinv.2⟩, fun _ => c⟩
    · refine ⟨⟨?_, c1 hinv.2⟩, fun hne => absurd c' hne⟩
      have e1 : (OnDataOverwrite max_threads doc oob s offset length).last_item_idx =
          s.last_item_idx := c
      have e2 : (OnDataOverwrite max_threads doc oob s offset length).strings =
          s.strings := c'
      have e3 : (OnDataOverwrite max_threads doc oob s offset length).last_item_iter =
          s.last_item_iter := c2
      rw [e1, e2, e3]
      exact hinv.1

/-- The constructor leaves the cache invariant in force. -/
theorem create_invariant (max_threads : Nat) (doc : List Nat) (oob : Nat) :
    CacheInvariant (StringPanel.create max_threads doc oob) := by
  unfold StringPanel.create
  obtain ⟨c1, _, c3⟩ := start_threads_cache max_threads doc oob
    { dirty := set_range [] 0 doc.length, strings := [], update_needed := false,
      last_item_idx := -1, last_item_iter := none, threads_exit := true,
      threads_pause := false, spawned_threads := 0, running_threads := 0 }
  refine ⟨Or.inl ?_, c1 wellFormed_nil⟩
  rcases c3 with c | ⟨c, _⟩ <;> exact c

theorem run_ops_invariant :
    ∀ (ops : List PanelOp) (s s' : StringPanel), CacheInvariant s → run_ops s ops = some s' →
      CacheInvariant s' := by
  intro ops
  induction ops with
  | nil =>
    intro s s' hinv h
    simp only [run_ops, Option.some.injEq] at h
    subst h; exact hinv
  | cons op rest ih =>
    intro s s' hinv h
    rw [run_ops] at h
    cases hop : apply_op s op with
    | none => rw [hop] at h; simp at h
    | some s1 =>
      rw [hop] at h
      exact ih s1 s' (apply_op_invariant s s1 op hinv hop).1 h

/-- C8: in every state reached from the constructor through calls of `get_nth_string` that
return, match inserts of `thread_main`, and the handlers `OnDataErase`, `OnDataInsert` and
`OnDataOverwrite`, either `last_item_idx` is -1 or `last_item_iter` designates element number
`last_item_idx` of the current strings set; and every further operation that changes the
strings set leaves `last_item_idx` at -1. -/
theorem C8_cache_validity_is_preserved (max_threads : Nat) (doc : List Nat) (oob : Nat)
    (ops : List PanelOp) (s : StringPanel)
    (h : run_ops (StringPanel.create max_threads doc oob) ops = some s) :
    (s.last_item_idx = -1 ∨
      (0 ≤ s.last_item_idx ∧
        ∃ r, s.last_item_iter = some r ∧ s.strings[s.last_item_idx.toNat]? = some r)) ∧
    ∀ op s', apply_op s op = some s' → s'.strings ≠ s.strings → s'.last_item_idx = -1 := by
  have hinv := run_ops_invariant ops _ s (create_invariant max_threads doc oob) h
  exact ⟨hinv.1, fun op s' hop => (apply_op_invariant s s' op hinv hop).2⟩

/-- C8, witness: on "ABCDE" 01 "FGHI", the call for element 1, the erase of the byte 01
(which joins the two ranges) and the call for element 0. -/
theorem C8_cache_validity_witness :
    run_ops (StringPanel.create 8 [65, 66, 67, 68, 69, 1, 70, 71, 72, 73] 0)
      [.get_nth 1, .erase 8 [65, 66, 67, 68, 69, 70, 71, 72, 73] 0 5 1, .get_nth 0] =
      some { dirty := [], strings := [⟨0, 9⟩], update_needed := true, last_item_idx := 0,
             last_item_iter := some ⟨0, 9⟩, threads_exit := false, threads_pause := false,
             spawned_threads := 4294967295, running_threads := 4294967295 } ∧
    (((0 : Int) = -1 ∨
      (0 ≤ (0 : Int) ∧
        ∃ r, some (⟨0, 9⟩ : Range) = some r ∧
          ([⟨0, 9⟩] : List Range)[(0 : Int).toNat]? = some r)) ∧
    ∀ op s', apply_op
        { dirty := [], strings := [⟨0, 9⟩], update_needed := true, last_item_idx := 0,
          last_item_iter := some ⟨0, 9⟩, threads_exit := false, threads_pause := false,
          spawned_threads := 4294967295, running_threads := 4294967295 } op = some s' →
      s'.strings ≠ [⟨0, 9⟩] → s'.last_item_idx = -1) :=
  ⟨by decide,
    C8_cache_validity_is_preserved 8 [65, 66, 67, 68, 69, 1, 70, 71, 72, 73] 0
      [.get_nth 1, .erase 8 [65, 66, 67, 68, 69, 70, 71, 72, 73] 0 5 1, .get_nth 0]
      { dirty := [], strings := [⟨0, 9⟩], update_needed := true, last_item_idx := 0,
        last_item_iter := some ⟨0, 9⟩, threads_exit := false, threads_pause := false,
        spawned_threads := 4294967295, running_threads := 4294967295 } (by decide)⟩

/-! ## Exact indexes and edited documents -/

/-- What the scan of a whole document reports is an exact index of it. -/
theorem exactIndex_scan (doc : List Nat) (oob t : Nat) :
    ExactIndex doc (scan_window no_pause doc oob 0 t).found := by
  obtain ⟨_, h2, _, h4⟩ := scan_loop_no_pause doc oob 0 doc.length 0 t (by omega) (Or.inl rfl)
  refine ⟨⟨h4, ?_⟩, ?_⟩
  · intro r hr
    have hr' : (⟨r.offset, r.length⟩ : Range) ∈
        (scan_loop no_pause doc oob 0 doc.length 0 t).found := hr
    obtain ⟨_, _, _, _, hl⟩ := (h2 r.offset r.length).mp hr'
    unfold MIN_STRING_LENGTH at hl; omega
  · intro o l
    rw [scan_window, h2 o l]
    constructor
    · rintro ⟨i, hi, _, hrun, hl⟩
      have : o = i := by omega
      subst this; exact ⟨hrun, hl⟩
    · rintro ⟨hrun, hl⟩
      exact ⟨o, by omega, Nat.zero_le _, hrun, hl⟩

/-- An exact index covers every printable block. -/
theorem exactIndex_covers_block {doc : List Nat} {strings : List Range}
    (hex : ExactIndex doc strings) {a : Nat} (hblk : PrintableBlock doc a) :
    ∀ j, j < MIN_STRING_LENGTH → Covers strings (a + j) := by
  obtain ⟨s, l, hrun, hs1, hs2⟩ := exists_maximalRun doc a
    (by have := hblk 0 (by unfold MIN_STRING_LENGTH; omega); simpa using this)
  obtain ⟨hc1, hc2⟩ := maximalRun_contains_block hrun hblk
    ⟨0, by unfold MIN_STRING_LENGTH; omega, by omega, by omega⟩
  have hmem : (⟨s, l⟩ : Range) ∈ strings := (hex.2 s l).mpr ⟨hrun, by omega⟩
  intro j hj
  exact ⟨_, hmem, by dsimp only; omega, by dsimp only; omega⟩

/-- When nothing is dirty and nothing is lost, every maximal run of length at least
`MIN_STRING_LENGTH` lies within one range of a well-formed strings set. -/
theorem run_in_one_range {doc : List Nat} {strings : List Range} (hwf : WellFormed strings)
    (hnl : NothingLost doc [] strings) {o l : Nat} (hrun : IsMaximalRun doc o l)
    (hl : MIN_STRING_LENGTH ≤ l) :
    ∃ r ∈ strings, r.offset ≤ o ∧ o + l ≤ r.offset + r.length := by
  apply covered_stretch_in_one_range hwf (by have := hrun.1; omega)
  intro x hx1 hx2
  obtain ⟨a, ha1, ha2, hblk⟩ := inString_of_printable_stretch hl hrun.2.1 hx1 hx2
  rcases hnl a hblk with hcov | ⟨j, _, hd⟩
  · have := hcov (x - a) (by omega)
    have heq : a + (x - a) = x := by omega
    rw [heq] at this; exact this
  · exact absurd hd (covers_nil _)

theorem printableAt_append (as bs : List Nat) (x : Nat) :
    PrintableAt (as ++ bs) x ↔
      (x < as.length ∧ PrintableAt as x) ∨ (as.length ≤ x ∧ PrintableAt bs (x - as.length)) := by
  unfold PrintableAt
  rw [List.getElem?_append]
  split_ifs with h
  · constructor
    · intro h1; exact Or.inl ⟨h, h1⟩
    · rintro (⟨_, h1⟩ | ⟨h2, _⟩)
      · exact h1
      · omega
  · constructor
    · intro h1; exact Or.inr ⟨by omega, h1⟩
    · rintro (⟨h2, _⟩ | ⟨_, h1⟩)
      · omega
      · exact h1

theorem printableAt_take (doc : List Nat) (n x : Nat) :
    PrintableAt (doc.take n) x ↔ x < n ∧ PrintableAt doc x := by
  unfold PrintableAt
  rw [List.getElem?_take]
  split_ifs with h
  · simp [h]
  · simp [h]

theorem printableAt_drop (doc : List Nat) (n x : Nat) :
    PrintableAt (doc.drop n) x ↔ PrintableAt doc (n + x) := by
  unfold PrintableAt
  rw [List.getElem?_drop]

/-! ## C5: erase -/

theorem start_threads_nothing_dirty (max_threads : Nat) (doc : List Nat) (oob : Nat)
    (s : StringPanel) (h : s.dirty = []) :
    start_threads max_threads doc oob s = resume_threads s := by
  unfold start_threads
  have h0 : ¬ dirty_total (resume_threads s).dirty > 0 := by
    show ¬ dirty_total s.dirty > 0
    rw [h]; decide
  simp only [h0, if_false]

theorem printableAt_erased (doc : List Nat) (offset length x : Nat)
    (h : offset ≤ doc.length) :
    PrintableAt (erase_bytes doc offset length) x ↔
      (x < offset ∧ PrintableAt doc x) ∨ (offset ≤ x ∧ PrintableAt doc (x + length)) := by
  unfold erase_bytes
  rw [printableAt_append, printableAt_take, printableAt_drop, List.length_take,
    Nat.min_eq_left h]
  constructor
  · rintro (⟨h1, _, h2⟩ | ⟨h1, h2⟩)
    · exact Or.inl ⟨h1, h2⟩
    · right
      refine ⟨h1, ?_⟩
      have heq : offset + length + (x - offset) = x + length := by omega
      rw [heq] at h2; exact h2
  · rintro (⟨h1, h2⟩ | ⟨h1, h2⟩)
    · exact Or.inl ⟨h1, h1, h2⟩
    · right
      refine ⟨h1, ?_⟩
      have heq : offset + length + (x - offset) = x + length := by omega
      rw [heq]; exact h2

/-- C5, as far as the code keeps it: from an exact index with an empty dirty set, after the
span (`offset`, `length`) is erased and `OnDataErase` has run, the strings set is well
formed, every byte that was covered and is not erased is still covered, at its new offset,
and every maximal printable run of length at least 4 of the new buffer that lies wholly
before or wholly after the erase point is contained in one range of the strings set. Runs
across the erase point are left out. -/
theorem C5_erase_keeps_the_runs_beside_the_erase_point (max_threads : Nat) (doc : List Nat)
    (oob : Nat) (s : StringPanel) (offset length : Nat) (hd : s.dirty = [])
    (hex : ExactIndex doc s.strings) (hfit : offset + length ≤ doc.length) :
    WellFormed (OnDataErase max_threads (erase_bytes doc offset length) oob s
      offset length).strings ∧
    (∀ x, (x < offset ∧ Covers s.strings x) ∨ (offset ≤ x ∧ Covers s.strings (x + length)) →
      Covers (OnDataErase max_threads (erase_bytes doc offset length) oob s
        offset length).strings x) ∧
    ∀ o l, IsMaximalRun (erase_bytes doc offset length) o l →
      MIN_STRING_LENGTH ≤ l → (o + l ≤ offset ∨ offset ≤ o) →
      ∃ r ∈ (OnDataErase max_threads (erase_bytes doc offset length) oob s
          offset length).strings,
        r.offset ≤ o ∧ o + l ≤ r.offset + r.length := by
  have hdirty : (OnDataErase_update s offset length).dirty = [] := by
    show data_erased s.dirty offset length = []
    rw [hd]; rfl
  have hval : OnDataErase max_threads (erase_bytes doc offset length) oob s
      offset length = resume_threads (OnDataErase_update s offset length) :=
    start_threads_nothing_dirty _ _ _ _ hdirty
  rw [hval]
  have hstr : (resume_threads (OnDataErase_update s offset length)).strings =
      data_erased s.strings offset length := rfl
  refine ⟨hstr ▸ wellFormed_data_erased _ _ _, ?_, ?_⟩
  · intro x hx
    rw [hstr, covers_data_erased]
    exact hx
  intro o l hrun hl hside
  rw [hstr]
  apply covered_stretch_in_one_range (wellFormed_data_erased _ _ _) (by have := hrun.1; omega)
  intro x hx1 hx2
  rw [covers_data_erased]
  have hall := hrun.2.1
  rcases hside with hside | hside
  · left
    refine ⟨by omega, ?_⟩
    have hstretch : ∀ k, o ≤ k → k < o + l → PrintableAt doc k := by
      intro k hk1 hk2
      rcases (printableAt_erased doc offset length k (by omega)).mp (hall k hk1 hk2) with h | h
      · exact h.2
      · omega
    obtain ⟨a, ha1, ha2, hblk⟩ := inString_of_printable_stretch hl hstretch hx1 hx2
    have := exactIndex_covers_block hex hblk (x - a) (by omega)
    have heq : a + (x - a) = x := by omega
    rw [heq] at this; exact this
  · right
    refine ⟨by omega, ?_⟩
    have hstretch : ∀ k, o + length ≤ k → k < o + length + l → PrintableAt doc k := by
      intro k hk1 hk2
      rcases (printableAt_erased doc offset length (k - length) (by omega)).mp
        (hall (k - length) (by omega) (by omega)) with h | h
      · omega
      · have heq : k - length + length = k := by omega
        rw [heq] at h; exact h.2
    obtain ⟨a, ha1, ha2, hblk⟩ := inString_of_printable_stretch hl hstretch
      (by omega : o + length ≤ x + length) (by omega)
    have := exactIndex_covers_block hex hblk (x + length - a) (by omega)
    have heq : a + (x + length - a) = x + length := by omega
    rw [heq] at this; exact this

/-- C5, witness: the byte 01 before "ABCDE" is erased from 01 "ABCDE" 01 "FGHI". -/
theorem C5_erase_witness :
    (OnDataErase 8 (erase_bytes [1, 65, 66, 67, 68, 69, 1, 70, 71, 72, 73] 0 1) 0
      (StringPanel.create 8 [1, 65, 66, 67, 68, 69, 1, 70, 71, 72, 73] 0) 0 1).strings =
      [⟨0, 5⟩, ⟨6, 4⟩] ∧
    (WellFormed (OnDataErase 8
      (erase_bytes [1, 65, 66, 67, 68, 69, 1, 70, 71, 72, 73] 0 1) 0
      (StringPanel.create 8 [1, 65, 66, 67, 68, 69, 1, 70, 71, 72, 73] 0) 0 1).strings ∧
    (∀ x, (x < 0 ∧
          Covers (StringPanel.create 8 [1, 65, 66, 67, 68, 69, 1, 70, 71, 72, 73] 0).strings
            x) ∨
        (0 ≤ x ∧
          Covers (StringPanel.create 8 [1, 65, 66, 67, 68, 69, 1, 70, 71, 72, 73] 0).strings
            (x + 1)) →
      Covers (OnDataErase 8 (erase_bytes [1, 65, 66, 67, 68, 69, 1, 70, 71, 72, 73] 0 1) 0
        (StringPanel.create 8 [1, 65, 66, 67, 68, 69, 1, 70, 71, 72, 73] 0) 0 1).strings x) ∧
    ∀ o l, IsMaximalRun (erase_bytes [1, 65, 66, 67, 68, 69, 1, 70, 71, 72, 73] 0 1) o l →
      MIN_STRING_LENGTH ≤ l → (o + l ≤ 0 ∨ 0 ≤ o) →
      ∃ r ∈ (OnDataErase 8 (erase_bytes [1, 65, 66, 67, 68, 69, 1, 70, 71, 72, 73] 0 1) 0
          (StringPanel.create 8 [1, 65, 66, 67, 68, 69, 1, 70, 71, 72, 73] 0) 0 1).strings,
        r.offset ≤ o ∧ o + l ≤ r.offset + r.length) :=
  ⟨by decide,
    C5_erase_keeps_the_runs_beside_the_erase_point 8
      [1, 65, 66, 67, 68, 69, 1, 70, 71, 72, 73] 0
      (StringPanel.create 8 [1, 65, 66, 67, 68, 69, 1, 70, 71, 72, 73] 0) 0 1 (by decide)
      (by
        have h : (StringPanel.create 8 [1, 65, 66, 67, 68, 69, 1, 70, 71, 72, 73] 0).strings =
            (scan_window no_pause [1, 65, 66, 67, 68, 69, 1, 70, 71, 72, 73] 0 0 0).found := by
          decide
        rw [h]
        exact exactIndex_scan _ _ _)
      (by decide)⟩

/-- C5, refuted as stated. On "AB" 01 "CD" (no string, index exact, nothing dirty) the erase
of the byte 01 leaves the strings set empty and starts no scan, though the new buffer "ABCD"
is a printable run of length 4. On "ABCDEFGH" (index exact: the range (0, 8)) the erase of
the five bytes from offset 2 leaves the range (0, 3) in the strings set, though the new
buffer "ABH" has no run of length 4. -/
theorem C5_exactness_after_erase_refuted :
    ((StringPanel.create 8 [65, 66, 1, 67, 68] 0).dirty = [] ∧
      ExactIndex [65, 66, 1, 67, 68] (StringPanel.create 8 [65, 66, 1, 67, 68] 0).strings ∧
      (OnDataErase 8 [65, 66, 67, 68] 0 (StringPanel.create 8 [65, 66, 1, 67, 68] 0) 2
        1).dirty = [] ∧
      (OnDataErase 8 [65, 66, 67, 68] 0 (StringPanel.create 8 [65, 66, 1, 67, 68] 0) 2
        1).strings = [] ∧
      ¬ ExactIndex [65, 66, 67, 68]
        (OnDataErase 8 [65, 66, 67, 68] 0 (StringPanel.create 8 [65, 66, 1, 67, 68] 0) 2
          1).strings) ∧
    ((StringPanel.create 8 [65, 66, 67, 68, 69, 70, 71, 72] 0).dirty = [] ∧
      ExactIndex [65, 66, 67, 68, 69, 70, 71, 72]
        (StringPanel.create 8 [65, 66, 67, 68, 69, 70, 71, 72] 0).strings ∧
      (OnDataErase 8 [65, 66, 72] 0
        (StringPanel.create 8 [65, 66, 67, 68, 69, 70, 71, 72] 0) 2 5).strings = [⟨0, 3⟩] ∧
      ¬ ExactIndex [65, 66, 72]
        (OnDataErase 8 [65, 66, 72] 0
          (StringPanel.create 8 [65, 66, 67, 68, 69, 70, 71, 72] 0) 2 5).strings) := by
  have e1 : (StringPanel.create 8 [65, 66, 1, 67, 68] 0).strings =
      (scan_window no_pause [65, 66, 1, 67, 68] 0 0 0).found := by decide
  have e2 : (OnDataErase 8 [65, 66, 67, 68] 0 (StringPanel.create 8 [65, 66, 1, 67, 68] 0) 2
      1).strings = [] := by decide
  have e3 : (StringPanel.create 8 [65, 66, 67, 68, 69, 70, 71, 72] 0).strings =
      (scan_window no_pause [65, 66, 67, 68, 69, 70, 71, 72] 0 0 0).found := by decide
  have e4 : (OnDataErase 8 [65, 66, 72] 0
      (StringPanel.create 8 [65, 66, 67, 68, 69, 70, 71, 72] 0) 2 5).strings = [⟨0, 3⟩] := by
    decide
  refine ⟨⟨by decide, e1 ▸ exactIndex_scan _ _ _, by decide, e2, ?_⟩,
    ⟨by decide, e3 ▸ exactIndex_scan _ _ _, e4, ?_⟩⟩
  · rw [e2]
    intro hex
    have hscan := exactIndex_scan [65, 66, 67, 68] 0 0
    have hmem : (⟨0, 4⟩ : Range) ∈ (scan_window no_pause [65, 66, 67, 68] 0 0 0).found := by
      decide
    have := (hex.2 0 4).mpr ((hscan.2 0 4).mp hmem)
    simp at this
  · rw [e4]
    intro hex
    have := ((hex.2 0 3).mp (List.mem_singleton.mpr rfl)).2
    unfold MIN_STRING_LENGTH at this
    omega

/-! ## Scanning until nothing is dirty -/

/-- What a run of unpaused windows keeps, relative to the strings set `strings0` it started
from: the strings set stays well formed, nothing is lost, what was covered stays covered,
and what is covered in addition lies in printable runs of length at least
`MIN_STRING_LENGTH` of the document. -/
theorem scanned_window_keeps (doc : List Nat) (oob t : Nat) (strings0 : List Range)
    (s : StringPanel) (next : Range)
    (h : WellFormed s.strings ∧ NothingLost doc s.dirty s.strings ∧
      (∀ x, Covers strings0 x → Covers s.strings x) ∧
      (∀ x, Covers s.strings x → Covers strings0 x ∨ InString doc x)) :
    WellFormed (scanned_window doc oob t s next).strings ∧
      NothingLost doc (scanned_window doc oob t s next).dirty
        (scanned_window doc oob t s next).strings ∧
      (∀ x, Covers strings0 x → Covers (scanned_window doc oob t s next).strings x) ∧
      (∀ x, Covers (scanned_window doc oob t s next).strings x →
        Covers strings0 x ∨ InString doc x) := by
  obtain ⟨h1, h2, h3, h4⟩ := h
  refine ⟨?_, nothingLost_scanned_window doc oob t s next h2, ?_, ?_⟩
  · unfold scanned_window
    exact wellFormed_insert_matches _ _ h1
  · intro x hx
    unfold scanned_window
    rw [covers_insert_matches]
    exact Or.inl (h3 x hx)
  · intro x hx
    unfold scanned_window at hx
    rw [covers_insert_matches] at hx
    rcases hx with hx | ⟨r, hr, hx1, hx2⟩
    · exact h4 x hx
    · exact Or.inr (scan_found_inString no_pause no_pause_mono doc oob _ _ t r hr x hx1 hx2)

/-- Without pause and with the exit flag clear, `thread_main` returns; the dirty set is empty
then, no printable block is lost, and the strings set has grown by bytes of printable runs
only. -/
theorem thread_main_no_pause_settles (doc : List Nat) (oob t : Nat) (s : StringPanel)
    (hwd : WellFormed s.dirty) (hws : WellFormed s.strings)
    (hnl : NothingLost doc s.dirty s.strings) (he : s.threads_exit = false) :
    ∃ s', thread_main no_pause doc oob t s = .exited (thread_exit s') ∧ s'.dirty = [] ∧
      WellFormed s'.strings ∧ NothingLost doc [] s'.strings ∧
      (∀ x, Covers s.strings x → Covers s'.strings x) ∧
      (∀ x, Covers s'.strings x → Covers s.strings x ∨ InString doc x) := by
  obtain ⟨s', h1, h2, h3, h4, h5, h6⟩ := thread_main_loop_no_pause_inv doc oob
    (fun u => WellFormed u.strings ∧ NothingLost doc u.dirty u.strings ∧
      (∀ x, Covers s.strings x → Covers u.strings x) ∧
      (∀ x, Covers u.strings x → Covers s.strings x ∨ InString doc x))
    (fun u next _ t' hu _ _ => scanned_window_keeps doc oob t' s.strings u next hu)
    (total_length s.dirty) t s ⟨hws, hnl, fun _ h => h, fun _ h => Or.inl h⟩ hwd he (le_refl _)
  exact ⟨s', h1, h2, h3, h2 ▸ h4, h5, h6⟩

/-- After `start_threads`, once the scan it has started has run to completion, the dirty set
is empty, no printable block is lost, and the strings set has grown by bytes of printable
runs only. -/
theorem start_threads_settles (max_threads : Nat) (doc : List Nat) (oob : Nat)
    (s : StringPanel) (hwd : WellFormed s.dirty) (hws : WellFormed s.strings)
    (hnl : NothingLost doc s.dirty s.strings) (hlt : total_length s.dirty < 2 ^ 64) :
    (settle doc oob (start_threads max_threads doc oob s)).dirty = [] ∧
    WellFormed (settle doc oob (start_threads max_threads doc oob s)).strings ∧
    NothingLost doc [] (settle doc oob (start_threads max_threads doc oob s)).strings ∧
    (∀ x, Covers s.strings x →
      Covers (settle doc oob (start_threads max_threads doc oob s)).strings x) ∧
    (∀ x, Covers (settle doc oob (start_threads max_threads doc oob s)).strings x →
      Covers s.strings x ∨ InString doc x) := by
  have hdt : dirty_total s.dirty = total_length s.dirty := Nat.mod_eq_of_lt hlt
  by_cases h0 : dirty_total s.dirty > 0
  · by_cases h1 : UI_THREAD_THRESH < dirty_total s.dirty
    · -- background workers
      rw [start_threads_background _ _ _ _ h1]
      obtain ⟨_, k2, k3, _, _, k6⟩ := spawn_loop_spec
        (want_threads (dirty_total s.dirty) max_threads) (want_threads_lt _ _)
        (want_threads (dirty_total s.dirty) max_threads)
        { resume_threads s with threads_exit := false } (by omega)
      have hne : (spawn_loop (want_threads (dirty_total s.dirty) max_threads)
          (want_threads (dirty_total s.dirty) max_threads)
          { resume_threads s with threads_exit := false }).dirty ≠ [] := by
        rw [k3]
        intro hnil
        have : s.dirty = [] := hnil
        rw [this] at h0
        exact absurd h0 (by decide)
      obtain ⟨s', e1, e2, e3, e4, e5, e6⟩ := thread_main_no_pause_settles doc oob 0
        (spawn_loop (want_threads (dirty_total s.dirty) max_threads)
          (want_threads (dirty_total s.dirty) max_threads)
          { resume_threads s with threads_exit := false })
        (by rw [k3]; exact hwd) (by rw [k2]; exact hws) (by rw [k2, k3]; exact hnl)
        (by rw [k6])
      rw [k2] at e5 e6
      have hval : settle doc oob (spawn_loop (want_threads (dirty_total s.dirty) max_threads)
          (want_threads (dirty_total s.dirty) max_threads)
          { resume_threads s with threads_exit := false }) = thread_exit s' := by
        unfold settle
        rw [if_neg hne, e1]
        rfl
      rw [hval]
      obtain ⟨x1, _, _, x4⟩ := thread_exit_cache s'
      rw [x1, x4]
      exact ⟨e2, e3, e4, e5, e6⟩
    · -- inline
      have hval : start_threads max_threads doc oob s =
          (thread_main no_pause doc oob 0
            { resume_threads s with threads_exit := false }).state := by
        unfold start_threads
        have h0' : dirty_total (resume_threads s).dirty > 0 := h0
        simp only [h0', if_true]
        rw [if_neg (by exact h1)]
      obtain ⟨s', e1, e2, e3, e4, e5, e6⟩ := thread_main_no_pause_settles doc oob 0
        { resume_threads s with threads_exit := false } hwd hws hnl rfl
      rw [hval, e1]
      obtain ⟨x1, _, _, x4⟩ := thread_exit_cache s'
      have hval2 : settle doc oob (ThreadOutcome.exited (thread_exit s')).state =
          thread_exit s' := by
        unfold settle
        rw [if_pos (by show (thread_exit s').dirty = []; rw [x4]; exact e2)]
        rfl
      rw [hval2, x1, x4]
      exact ⟨e2, e3, e4, e5, e6⟩
  · have hnil : s.dirty = [] := by
      cases hd : s.dirty with
      | nil => rfl
      | cons next rest =>
        rw [hd] at hwd hdt h0
        have := hwd.2 next (List.mem_cons_self _ _)
        rw [total_length_cons] at hdt
        omega
    rw [start_threads_nothing_dirty _ _ _ _ hnil]
    have hval : settle doc oob (resume_threads s) = resume_threads s := by
      unfold settle
      rw [if_pos (by show s.dirty = []; exact hnil)]
    rw [hval]
    exact ⟨hnil, hws, hnil ▸ hnl, fun _ h => h, fun _ h => Or.inl h⟩

/-! ## C4: overwrite -/

theorem printableAt_overwritten (doc : List Nat) (offset : Nat) (new_bytes : List Nat)
    (x : Nat) (hfit : offset + new_bytes.length ≤ doc.length)
    (hx : x < offset ∨ offset + new_bytes.length ≤ x) :
    PrintableAt (overwrite_bytes doc offset new_bytes) x ↔ PrintableAt doc x := by
  unfold overwrite_bytes
  rw [printableAt_append, printableAt_append, printableAt_take, printableAt_drop]
  simp only [List.length_append, List.length_take, Nat.min_eq_left (by omega : offset ≤ doc.length)]
  constructor
  · rintro (⟨h1, (⟨_, _, h2⟩ | ⟨h3, h4⟩)⟩ | ⟨h1, h2⟩)
    · exact h2
    · have := printableAt_lt h4; omega
    · have heq : offset + new_bytes.length + (x - (offset + new_bytes.length)) = x := by omega
      rw [heq] at h2; exact h2
  · intro h
    rcases hx with hx | hx
    · exact Or.inl ⟨by omega, Or.inl ⟨hx, hx, h⟩⟩
    · right
      refine ⟨hx, ?_⟩
      have heq : offset + new_bytes.length + (x - (offset + new_bytes.length)) = x := by omega
      rw [heq]; exact h

theorem total_length_set_range_nil (offset length : Nat) :
    total_length (set_range [] offset (length : Int)) = length := by
  unfold set_range
  split_ifs with h
  · simp [total_length]; omega
  · simp [merge_range, total_length]

/-- C4, as the code behaves: from an exact index with an empty dirty set, after `new_bytes`
are written over the bytes at `offset`, `OnDataOverwrite` has run and the scan it starts has
run to completion, the dirty set is empty, the strings set is well formed, and every maximal
printable run of length at least 4 of the new buffer is contained in one range of the
strings set. No range is ever removed or shrunk: every byte that was covered still is, and
the bytes covered in addition lie in printable runs of length at least 4 of the new
buffer. -/
theorem C4_overwrite_rescan_covers_every_run (max_threads : Nat) (doc : List Nat) (oob : Nat)
    (s : StringPanel) (offset : Nat) (new_bytes : List Nat) (hd : s.dirty = [])
    (hex : ExactIndex doc s.strings) (hfit : offset + new_bytes.length ≤ doc.length)
    (hlen : doc.length < 2 ^ 63) :
    (settle (overwrite_bytes doc offset new_bytes) oob
      (OnDataOverwrite max_threads (overwrite_bytes doc offset new_bytes) oob s offset
        new_bytes.length)).dirty = [] ∧
    WellFormed (settle (overwrite_bytes doc offset new_bytes) oob
      (OnDataOverwrite max_threads (overwrite_bytes doc offset new_bytes) oob s offset
        new_bytes.length)).strings ∧
    (∀ o l, IsMaximalRun (overwrite_bytes doc offset new_bytes) o l → MIN_STRING_LENGTH ≤ l →
      ∃ r ∈ (settle (overwrite_bytes doc offset new_bytes) oob
          (OnDataOverwrite max_threads (overwrite_bytes doc offset new_bytes) oob s offset
            new_bytes.length)).strings,
        r.offset ≤ o ∧ o + l ≤ r.offset + r.length) ∧
    (∀ x, Covers s.strings x →
      Covers (settle (overwrite_bytes doc offset new_bytes) oob
        (OnDataOverwrite max_threads (overwrite_bytes doc offset new_bytes) oob s offset
          new_bytes.length)).strings x) ∧
    (∀ x, Covers (settle (overwrite_bytes doc offset new_bytes) oob
        (OnDataOverwrite max_threads (overwrite_bytes doc offset new_bytes) oob s offset
          new_bytes.length)).strings x →
      Covers s.strings x ∨ InString (overwrite_bytes doc offset new_bytes) x) := by
  have hdirty : (OnDataOverwrite_update s offset new_bytes.length).dirty =
      set_range [] offset (new_bytes.length : Int) := by
    show set_range s.dirty offset (new_bytes.length : Int) = _
    rw [hd]
  have hnl : NothingLost (overwrite_bytes doc offset new_bytes)
      (OnDataOverwrite_update s offset new_bytes.length).dirty
      (OnDataOverwrite_update s offset new_bytes.length).strings := by
    intro a hblk
    rw [hdirty]
    by_cases hin : ∃ j, j < MIN_STRING_LENGTH ∧ offset ≤ a + j ∧
        a + j < offset + new_bytes.length
    · obtain ⟨j, hj, h1, h2⟩ := hin
      right
      refine ⟨j, hj, ?_⟩
      rw [covers_set_range]
      right; omega
    · left
      have hblk' : PrintableBlock doc a := by
        intro j hj
        have hout : a + j < offset ∨ offset + new_bytes.length ≤ a + j := by
          by_contra hcon
          exact hin ⟨j, hj, by omega, by omega⟩
        exact (printableAt_overwritten doc offset new_bytes (a + j) hfit hout).mp (hblk j hj)
      exact exactIndex_covers_block hex hblk'
  obtain ⟨h1, h2, h3, h4, h5⟩ := start_threads_settles max_threads
    (overwrite_bytes doc offset new_bytes) oob (OnDataOverwrite_update s offset new_bytes.length)
    (by rw [hdirty]; exact wellFormed_set_range _ _ _ wellFormed_nil) hex.1 hnl
    (by rw [hdirty, total_length_set_range_nil]; omega)
  exact ⟨h1, h2, fun o l hrun hl => run_in_one_range h2 h3 hrun hl, h4, h5⟩

/-- C4, witness: the byte 01 in "AB" 01 "DE" is overwritten with 'C'. -/
theorem C4_overwrite_witness :
    (settle (overwrite_bytes [65, 66, 1, 68, 69] 2 [67]) 0
      (OnDataOverwrite 8 (overwrite_bytes [65, 66, 1, 68, 69] 2 [67]) 0
        (StringPanel.create 8 [65, 66, 1, 68, 69] 0) 2 1)).strings = [⟨0, 5⟩] ∧
    ((settle (overwrite_bytes [65, 66, 1, 68, 69] 2 [67]) 0
      (OnDataOverwrite 8 (overwrite_bytes [65, 66, 1, 68, 69] 2 [67]) 0
        (StringPanel.create 8 [65, 66, 1, 68, 69] 0) 2 ([67] : List Nat).length)).dirty = [] ∧
    WellFormed (settle (overwrite_bytes [65, 66, 1, 68, 69] 2 [67]) 0
      (OnDataOverwrite 8 (overwrite_bytes [65, 66, 1, 68, 69] 2 [67]) 0
        (StringPanel.create 8 [65, 66, 1, 68, 69] 0) 2 ([67] : List Nat).length)).strings ∧
    (∀ o l, IsMaximalRun (overwrite_bytes [65, 66, 1, 68, 69] 2 [67]) o l →
      MIN_STRING_LENGTH ≤ l →
      ∃ r ∈ (settle (overwrite_bytes [65, 66, 1, 68, 69] 2 [67]) 0
          (OnDataOverwrite 8 (overwrite_bytes [65, 66, 1, 68, 69] 2 [67]) 0
            (StringPanel.create 8 [65, 66, 1, 68, 69] 0) 2
            ([67] : List Nat).length)).strings,
        r.offset ≤ o ∧ o + l ≤ r.offset + r.length) ∧
    (∀ x, Covers (StringPanel.create 8 [65, 66, 1, 68, 69] 0).strings x →
      Covers (settle (overwrite_bytes [65, 66, 1, 68, 69] 2 [67]) 0
        (OnDataOverwrite 8 (overwrite_bytes [65, 66, 1, 68, 69] 2 [67]) 0
          (StringPanel.create 8 [65, 66, 1, 68, 69] 0) 2
          ([67] : List Nat).length)).strings x) ∧
    (∀ x, Covers (settle (overwrite_bytes [65, 66, 1, 68, 69] 2 [67]) 0
        (OnDataOverwrite 8 (overwrite_bytes [65, 66, 1, 68, 69] 2 [67]) 0
          (StringPanel.create 8 [65, 66, 1, 68, 69] 0) 2
          ([67] : List Nat).length)).strings x →
      Covers (StringPanel.create 8 [65, 66, 1, 68, 69] 0).strings x ∨
        InString (overwrite_bytes [65, 66, 1, 68, 69] 2 [67]) x)) :=
  ⟨by decide,
    C4_overwrite_rescan_covers_every_run 8 [65, 66, 1, 68, 69] 0
      (StringPanel.create 8 [65, 66, 1, 68, 69] 0) 2 [67] (by decide)
      (by
        have h : (StringPanel.create 8 [65, 66, 1, 68, 69] 0).strings =
            (scan_window no_pause [65, 66, 1, 68, 69] 0 0 0).found := by decide
        rw [h]
        exact exactIndex_scan _ _ _)
      (by decide) (by decide)⟩

/-- C4, refuted as stated: on "ABCDE" (index exact: the range (0, 5), nothing dirty) the
third byte is overwritten with 01; after `OnDataOverwrite` and its inline scan the dirty set
is empty and the strings set still holds the range (0, 5), though the new buffer
"AB" 01 "DE" has no printable run of length 4. -/
theorem C4_exactness_after_overwrite_refuted :
    (StringPanel.create 8 [65, 66, 67, 68, 69] 0).dirty = [] ∧
    ExactIndex [65, 66, 67, 68, 69] (StringPanel.create 8 [65, 66, 67, 68, 69] 0).strings ∧
    overwrite_bytes [65, 66, 67, 68, 69] 2 [1] = [65, 66, 1, 68, 69] ∧
    (settle [65, 66, 1, 68, 69] 0 (OnDataOverwrite 8 [65, 66, 1, 68, 69] 0
      (StringPanel.create 8 [65, 66, 67, 68, 69] 0) 2 1)).dirty = [] ∧
    (settle [65, 66, 1, 68, 69] 0 (OnDataOverwrite 8 [65, 66, 1, 68, 69] 0
      (StringPanel.create 8 [65, 66, 67, 68, 69] 0) 2 1)).strings = [⟨0, 5⟩] ∧
    ¬ ExactIndex [65, 66, 1, 68, 69]
      (settle [65, 66, 1, 68, 69] 0 (OnDataOverwrite 8 [65, 66, 1, 68, 69] 0
        (StringPanel.create 8 [65, 66, 67, 68, 69] 0) 2 1)).strings := by
  have e1 : (StringPanel.create 8 [65, 66, 67, 68, 69] 0).strings =
      (scan_window no_pause [65, 66, 67, 68, 69] 0 0 0).found := by decide
  have e2 : (settle [65, 66, 1, 68, 69] 0 (OnDataOverwrite 8 [65, 66, 1, 68, 69] 0
      (StringPanel.create 8 [65, 66, 67, 68, 69] 0) 2 1)).strings = [⟨0, 5⟩] := by decide
  refine ⟨by decide, e1 ▸ exactIndex_scan _ _ _, by decide, by decide, e2, ?_⟩
  rw [e2]
  intro hex
  have hrun := ((hex.2 0 5).mp (List.mem_singleton.mpr rfl)).1
  have hp := hrun.2.1 2 (by omega) (by omega)
  obtain ⟨b, hb, hb1, _⟩ := hp
  simp at hb
  omega

/-! ## C6: pause, insert, resume -/

/-- A window scanned to its end under a pause oracle keeps `NothingLost`. -/
theorem nothingLost_unpaused_window (pause : Nat → Bool)
    (hmono : ∀ t, pause t = true → pause (t + 1) = true) (doc : List Nat) (oob t : Nat)
    (s : StringPanel) (next : Range)
    (hp : (window_scan pause doc oob t next).paused = none)
    (h : NothingLost doc s.dirty s.strings) :
    NothingLost doc
      (insert_matches (take_window s next) (window_scan pause doc oob t next).found).dirty
      (insert_matches (take_window s next) (window_scan pause doc oob t next).found).strings := by
  have hdirty : (insert_matches (take_window s next)
      (window_scan pause doc oob t next).found).dirty =
      clear_range s.dirty next.offset (window_length next) := by
    rw [(insert_matches_frame _ _).1]; rfl
  rw [hdirty]
  intro a hblk
  rcases h a hblk with hcov | ⟨j, hj, hd⟩
  · left
    intro j hj
    rw [covers_insert_matches]
    exact Or.inl (hcov j hj)
  · by_cases hw : next.offset ≤ a + j ∧ a + j < next.offset + window_length next
    · left
      intro j' hj'
      rw [covers_insert_matches]
      right
      unfold MIN_STRING_LENGTH at hj hj'
      exact scan_covers_block pause hmono doc oob _ _ t a hblk
        (by unfold window_base_adj window_pre MIN_STRING_LENGTH; omega)
        (by unfold window_base_adj window_length_adj window_pre MIN_STRING_LENGTH; omega)
        (by
          intro k hk
          have hk2 : (window_scan pause doc oob t next).paused = some k := hk
          rw [hp] at hk2
          simp at hk2) j'
        (by unfold MIN_STRING_LENGTH; omega)
    · right
      refine ⟨j, hj, ?_⟩
      rw [covers_clear_range]
      exact ⟨hd, by omega⟩

theorem pause_window_frame (s : StringPanel) (next : Range) (k : Nat) :
    (pause_window s next k).strings = s.strings ∧
    (pause_window s next k).threads_exit = s.threads_exit ∧
    (pause_window s next k).dirty =
      set_range s.dirty (new_dirty_base next.offset k)
        (as_off_t (new_dirty_length next.offset (window_length next) k)) := by
  unfold pause_window
  exact ⟨rfl, rfl, rfl⟩

/-- When `thread_main` ends up waiting at a pause that is never withdrawn, both sets are
well formed, no printable block is lost, what is covered lies in printable runs of the
document or was covered before, and the exit flag is clear. -/
theorem thread_main_loop_waiting_keeps (pause : Nat → Bool)
    (hmono : ∀ t, pause t = true → pause (t + 1) = true) (doc : List Nat) (oob : Nat) :
    ∀ (fuel t : Nat) (s : StringPanel), WellFormed s.dirty → WellFormed s.strings →
      NothingLost doc s.dirty s.strings →
      ∀ s1 t1, thread_main_loop pause doc oob fuel t s = .waiting s1 t1 →
        WellFormed s1.dirty ∧ WellFormed s1.strings ∧ NothingLost doc s1.dirty s1.strings ∧
          s1.threads_exit = false := by
  intro fuel
  induction fuel with
  | zero =>
    intro t s _ _ _ s1 t1 h
    rw [thread_main_loop] at h
    simp at h
  | succ fuel ih =>
    intro t s hwd hws hnl s1 t1 h
    by_cases he : s.threads_exit = true
    · rw [thread_main_loop_exit_flag _ _ _ _ _ _ he] at h
      simp at h
    · cases hd : s.dirty with
      | nil =>
        rw [thread_main_loop_empty _ _ _ _ _ _ hd] at h
        simp at h
      | cons next rest =>
        have he' : s.threads_exit = false := by simpa using he
        rw [thread_main_loop_succ pause doc oob fuel t s next rest he' hd] at h
        have hws' : WellFormed (insert_matches (take_window s next)
            (window_scan pause doc oob t next).found).strings :=
          wellFormed_insert_matches _ _ hws
        have hdirty : (insert_matches (take_window s next)
            (window_scan pause doc oob t next).found).dirty =
            clear_range s.dirty next.offset (window_length next) := by
          rw [(insert_matches_frame _ _).1]; rfl
        cases hp : (window_scan pause doc oob t next).paused with
        | some k =>
          rw [hp] at h
          simp only [ThreadOutcome.waiting.injEq] at h
          obtain ⟨h1, _⟩ := h
          subst h1
          obtain ⟨f1, f2, f3⟩ := pause_window_frame (insert_matches (take_window s next)
            (window_scan pause doc oob t next).found) next k
          refine ⟨?_, ?_, nothingLost_paused_window pause hmono doc oob t s next k hp hnl, ?_⟩
          · rw [f3, hdirty]
            exact wellFormed_set_range _ _ _ (wellFormed_clear_range _ _ _ hwd)
          · rw [f1]; exact hws'
          · rw [f2, (insert_matches_frame _ _).2.1]; exact he'
        | none =>
          rw [hp] at h
          exact ih _ _ (by rw [hdirty]; exact wellFormed_clear_range _ _ _ hwd) hws'
            (nothingLost_unpaused_window pause hmono doc oob t s next hp hnl) s1 t1 h

theorem printableAt_inserted (doc : List Nat) (offset : Nat) (new_bytes : List Nat) (x : Nat)
    (hoff : offset ≤ doc.length) :
    PrintableAt (insert_bytes doc offset new_bytes) x ↔
      (x < offset ∧ PrintableAt doc x) ∨
      (offset ≤ x ∧ x < offset + new_bytes.length ∧ PrintableAt new_bytes (x - offset)) ∨
      (offset + new_bytes.length ≤ x ∧ PrintableAt doc (x - new_bytes.length)) := by
  unfold insert_bytes
  rw [printableAt_append, printableAt_append, printableAt_take, printableAt_drop]
  simp only [List.length_append, List.length_take, Nat.min_eq_left hoff]
  constructor
  · rintro (⟨h1, (⟨_, _, h2⟩ | ⟨h3, h4⟩)⟩ | ⟨h1, h2⟩)
    · exact Or.inl ⟨by omega, h2⟩
    · exact Or.inr (Or.inl ⟨h3, h1, h4⟩)
    · right; right
      refine ⟨h1, ?_⟩
      have heq : offset + (x - (offset + new_bytes.length)) = x - new_bytes.length := by omega
      rw [heq] at h2; exact h2
  · rintro (⟨h1, h2⟩ | ⟨h1, h2, h3⟩ | ⟨h1, h2⟩)
    · exact Or.inl ⟨by omega, Or.inl ⟨h1, h1, h2⟩⟩
    · exact Or.inl ⟨h2, Or.inr ⟨h1, h3⟩⟩
    · right
      refine ⟨h1, ?_⟩
      have heq : offset + (x - (offset + new_bytes.length)) = x - new_bytes.length := by omega
      rw [heq]; exact h2

/-- The state updates of `OnDataInsert` keep `NothingLost`, for the document after the
insert. -/
theorem nothingLost_insert_update (doc : List Nat) (s : StringPanel) (offset : Nat)
    (new_bytes : List Nat) (hoff : offset ≤ doc.length)
    (hnl : NothingLost doc s.dirty s.strings) :
    NothingLost (insert_bytes doc offset new_bytes)
      (OnDataInsert_update s offset new_bytes.length).dirty
      (OnDataInsert_update s offset new_bytes.length).strings := by
  have hdirty : (OnDataInsert_update s offset new_bytes.length).dirty =
      set_range (data_inserted s.dirty offset new_bytes.length) offset
        (new_bytes.length : Int) := rfl
  have hstrings : (OnDataInsert_update s offset new_bytes.length).strings =
      data_inserted s.strings offset new_bytes.length := rfl
  rw [hdirty, hstrings]
  intro a hblk
  by_cases hin : ∃ j, j < MIN_STRING_LENGTH ∧ offset ≤ a + j ∧
      a + j < offset + new_bytes.length
  · obtain ⟨j, hj, h1, h2⟩ := hin
    right
    refine ⟨j, hj, ?_⟩
    rw [covers_set_range]
    right; omega
  · have hout : ∀ j, j < MIN_STRING_LENGTH →
        a + j < offset ∨ offset + new_bytes.length ≤ a + j := by
      intro j hj
      by_contra hcon
      exact hin ⟨j, hj, by omega, by omega⟩
    by_cases hbefore : a + 3 < offset ∨ new_bytes.length = 0
    · -- the block keeps its place
      have hblk' : PrintableBlock doc a := by
        intro j hj
        have hj' := hj
        unfold MIN_STRING_LENGTH at hj'
        rcases (printableAt_inserted doc offset new_bytes (a + j) hoff).mp (hblk j hj) with
          h | h | h
        · exact h.2
        · omega
        · rcases hbefore with hb | hb
          · omega
          · rw [hb] at h; exact h.2
      rcases hnl a hblk' with hcov | ⟨j, hj, hd⟩
      · left
        intro j hj
        have hj' := hj
        unfold MIN_STRING_LENGTH at hj'
        rw [covers_data_inserted]
        rcases hbefore with hb | hb
        · exact Or.inl ⟨by omega, hcov j hj⟩
        · rw [hb]
          by_cases hx : a + j < offset
          · exact Or.inl ⟨hx, hcov j hj⟩
          · exact Or.inr ⟨by omega, hcov j hj⟩
      · right
        refine ⟨j, hj, ?_⟩
        have hj' := hj
        unfold MIN_STRING_LENGTH at hj'
        rw [covers_set_range, covers_data_inserted]
        left
        rcases hbefore with hb | hb
        · exact Or.inl ⟨by omega, hd⟩
        · rw [hb]
          by_cases hx : a + j < offset
          · exact Or.inl ⟨hx, hd⟩
          · exact Or.inr ⟨by omega, hd⟩
    · -- the block lies after the inserted bytes
      have hpos : 0 < new_bytes.length := by omega
      have hafter : offset + new_bytes.length ≤ a := by
        rcases hout 0 (by unfold MIN_STRING_LENGTH; omega) with h | h
        · rcases hout 3 (by unfold MIN_STRING_LENGTH; omega) with h3 | h3
          · omega
          · -- the block would contain the inserted bytes
            exfalso
            have hj : offset - a < MIN_STRING_LENGTH := by unfold MIN_STRING_LENGTH; omega
            rcases hout (offset - a) hj with h4 | h4 <;> omega
        · omega
      have hblk' : PrintableBlock doc (a - new_bytes.length) := by
        intro j hj
        rcases (printableAt_inserted doc offset new_bytes (a + j) hoff).mp (hblk j hj) with
          h | h | h
        · omega
        · omega
        · have heq : a - new_bytes.length + j = a + j - new_bytes.length := by omega
          rw [heq]; exact h.2
      rcases hnl (a - new_bytes.length) hblk' with hcov | ⟨j, hj, hd⟩
      · left
        intro j hj
        rw [covers_data_inserted]
        right
        refine ⟨by omega, ?_⟩
        have heq : a + j - new_bytes.length = a - new_bytes.length + j := by omega
        rw [heq]; exact hcov j hj
      · right
        refine ⟨j, hj, ?_⟩
        rw [covers_set_range, covers_data_inserted]
        left; right
        refine ⟨by omega, ?_⟩
        have heq : a + j - new_bytes.length = a - new_bytes.length + j := by omega
        rw [heq]; exact hd

theorem inString_printableAt {doc : List Nat} {x : Nat} (h : InString doc x) :
    PrintableAt doc x := by
  obtain ⟨a, h1, h2, hblk⟩ := h
  have := hblk (x - a) (by omega)
  have heq : a + (x - a) = x := by omega
  rw [heq] at this; exact this

/-- A byte of a printable block lies in a maximal run of length at least
`MIN_STRING_LENGTH`. -/
theorem inString_run {doc : List Nat} {x : Nat} (h : InString doc x) :
    ∃ s l, IsMaximalRun doc s l ∧ MIN_STRING_LENGTH ≤ l ∧ s ≤ x ∧ x < s + l := by
  obtain ⟨a, h1, h2, hblk⟩ := h
  obtain ⟨s, l, hrun, hs1, hs2⟩ := exists_maximalRun doc a
    (by have := hblk 0 (by unfold MIN_STRING_LENGTH; omega); simpa using this)
  obtain ⟨hc1, hc2⟩ := maximalRun_contains_block hrun hblk
    ⟨0, by unfold MIN_STRING_LENGTH; omega, by omega, by omega⟩
  exact ⟨s, l, hrun, by omega, by omega, by omega⟩

/-- A well-formed set that covers exactly the bytes of the printable runs of length at least
`MIN_STRING_LENGTH` is an exact index. -/
theorem exactIndex_of_covers_iff {doc : List Nat} {strings : List Range}
    (hwf : WellFormed strings) (hcov : ∀ x, Covers strings x ↔ InString doc x) :
    ExactIndex doc strings := by
  have hrun_mem : ∀ s l, IsMaximalRun doc s l → MIN_STRING_LENGTH ≤ l →
      (⟨s, l⟩ : Range) ∈ strings := by
    intro s l hrun hl
    rw [mem_wellFormed_iff hwf]
    refine ⟨hrun.1, ?_, ?_, ?_⟩
    · intro x hx1 hx2
      exact (hcov x).mpr (inString_of_printable_stretch hl hrun.2.1 hx1 hx2)
    · intro hc
      exact hrun.2.2.2 (inString_printableAt ((hcov _).mp hc))
    · rcases hrun.2.2.1 with h0 | hprev
      · exact Or.inl h0
      · right
        intro hc
        exact hprev (inString_printableAt ((hcov _).mp hc))
  refine ⟨hwf, ?_⟩
  intro o l
  constructor
  · intro hmem
    have hpos := hwf.2 _ hmem
    dsimp only at hpos
    have hc : Covers strings o := ⟨_, hmem, le_refl _, by dsimp only; omega⟩
    obtain ⟨s, l', hrun, hl', hs1, hs2⟩ := inString_run ((hcov o).mp hc)
    have hmem' := hrun_mem s l' hrun hl'
    by_cases heq : (⟨s, l'⟩ : Range) = ⟨o, l⟩
    · simp only [Range.mk.injEq] at heq
      obtain ⟨e1, e2⟩ := heq
      subst e1; subst e2
      exact ⟨hrun, hl'⟩
    · rcases hwf.apart hmem' hmem heq with h | h <;> dsimp only at h <;> omega
  · rintro ⟨hrun, hl⟩
    exact hrun_mem o l hrun hl

theorem nothingLost_fresh_index (doc : List Nat) :
    NothingLost doc (fresh_index doc).dirty (fresh_index doc).strings := by
  intro a hblk
  right
  refine ⟨0, by unfold MIN_STRING_LENGTH; omega, ?_⟩
  have hlt := printableAt_lt (hblk 0 (by unfold MIN_STRING_LENGTH; omega))
  show Covers (set_range [] 0 (doc.length : Int)) (a + 0)
  rw [covers_set_range]
  right; omega

/-- A scan from scratch, run to completion without pause, yields an exact index. -/
theorem scratch_scan_exact (doc : List Nat) (oob : Nat) :
    ∃ s', thread_main no_pause doc oob 0 (fresh_index doc) = .exited (thread_exit s') ∧
      s'.dirty = [] ∧ ExactIndex doc s'.strings := by
  obtain ⟨s', h1, h2, h3, h4, _, h6⟩ := thread_main_no_pause_settles doc oob 0
    (fresh_index doc) (wellFormed_set_range _ _ _ wellFormed_nil) wellFormed_nil
    (nothingLost_fresh_index doc) rfl
  refine ⟨s', h1, h2, exactIndex_of_covers_iff h3 ?_⟩
  intro x
  constructor
  · intro hc
    rcases h6 x hc with h | h
    · exact absurd h (covers_nil x)
    · exact h
  · rintro ⟨a, ha1, ha2, hblk⟩
    rcases h4 a hblk with hcov | ⟨j, _, hd⟩
    · have := hcov (x - a) (by omega)
      have heq : a + (x - a) = x := by omega
      rw [heq] at this; exact this
    · exact absurd hd (covers_nil _)

/-- What `start_threads` leaves for a worker that runs on afterwards. -/
theorem start_threads_keeps (max_threads : Nat) (doc : List Nat) (oob : Nat)
    (s : StringPanel) (hwd : WellFormed s.dirty) (hws : WellFormed s.strings)
    (hnl : NothingLost doc s.dirty s.strings) (he : s.threads_exit = false) :
    WellFormed (start_threads max_threads doc oob s).dirty ∧
    WellFormed (start_threads max_threads doc oob s).strings ∧
    NothingLost doc (start_threads max_threads doc oob s).dirty
      (start_threads max_threads doc oob s).strings ∧
    (start_threads max_threads doc oob s).threads_exit = false := by
  by_cases h0 : dirty_total s.dirty > 0
  · by_cases h1 : UI_THREAD_THRESH < dirty_total s.dirty
    · rw [start_threads_background _ _ _ _ h1]
      obtain ⟨_, k2, k3, _, _, k6⟩ := spawn_loop_spec
        (want_threads (dirty_total s.dirty) max_threads) (want_threads_lt _ _)
        (want_threads (dirty_total s.dirty) max_threads)
        { resume_threads s with threads_exit := false } (by omega)
      rw [k2, k3, k6]
      exact ⟨hwd, hws, hnl, rfl⟩
    · have hval : start_threads max_threads doc oob s =
          (thread_main no_pause doc oob 0
            { resume_threads s with threads_exit := false }).state := by
        unfold start_threads
        have h0' : dirty_total (resume_threads s).dirty > 0 := h0
        simp only [h0', if_true]
        rw [if_neg (by exact h1)]
      obtain ⟨s', e1, e2, e3, e4, _, _⟩ := thread_main_no_pause_settles doc oob 0
        { resume_threads s with threads_exit := false } hwd hws hnl rfl
      have hexit : (thread_main no_pause doc oob 0
          { resume_threads s with threads_exit := false }).state.threads_exit = false := by
        have := thread_main_loop_threads_exit no_pause doc oob
          (total_length s.dirty) 0 { resume_threads s with threads_exit := false }
        exact this
      rw [hval]
      refine ⟨?_, ?_, ?_, hexit⟩
      · rw [e1]
        show WellFormed (thread_exit s').dirty
        rw [(thread_exit_cache s').2.2.2, e2]
        exact wellFormed_nil
      · rw [e1]
        show WellFormed (thread_exit s').strings
        rw [(thread_exit_cache s').1]
        exact e3
      · rw [e1]
        show NothingLost doc (thread_exit s').dirty (thread_exit s').strings
        rw [(thread_exit_cache s').2.2.2, (thread_exit_cache s').1, e2]
        exact e4
  · have hval : start_threads max_threads doc oob s = resume_threads s := by
      unfold start_threads
      have h0' : ¬ dirty_total (resume_threads s).dirty > 0 := h0
      simp only [h0', if_false]
    rw [hval]
    exact ⟨hwd, hws, hnl, he⟩

/-- C6, as the code behaves: a scan from scratch is interrupted by a pause (at any read of
the flag), `new_bytes` are inserted at `offset`, `OnDataInsert` runs, and the waiting worker
resumes and scans until the dirty set is empty. Then the dirty set is empty, the strings set
is well formed, and every range that a scan of the new buffer from scratch yields (these are
exactly the maximal printable runs of length at least 4 of the new buffer) is contained in
one range of the strings set. -/
theorem C6_pause_insert_resume_covers_the_scratch_scan (max_threads : Nat) (doc : List Nat)
    (oob p offset : Nat) (new_bytes : List Nat) (s1 : StringPanel) (t1 : Nat)
    (hpaused : thread_main (pause_from p) doc oob 0 (fresh_index doc) = .waiting s1 t1)
    (hoff : offset ≤ doc.length) :
    (thread_main_resume no_pause (insert_bytes doc offset new_bytes) oob t1
      (OnDataInsert max_threads (insert_bytes doc offset new_bytes) oob s1 offset
        new_bytes.length)).state.dirty = [] ∧
    WellFormed (thread_main_resume no_pause (insert_bytes doc offset new_bytes) oob t1
      (OnDataInsert max_threads (insert_bytes doc offset new_bytes) oob s1 offset
        new_bytes.length)).state.strings ∧
    (thread_main no_pause (insert_bytes doc offset new_bytes) oob 0
      (fresh_index (insert_bytes doc offset new_bytes))).state.dirty = [] ∧
    ExactIndex (insert_bytes doc offset new_bytes)
      (thread_main no_pause (insert_bytes doc offset new_bytes) oob 0
        (fresh_index (insert_bytes doc offset new_bytes))).state.strings ∧
    ∀ r ∈ (thread_main no_pause (insert_bytes doc offset new_bytes) oob 0
        (fresh_index (insert_bytes doc offset new_bytes))).state.strings,
      ∃ r' ∈ (thread_main_resume no_pause (insert_bytes doc offset new_bytes) oob t1
          (OnDataInsert max_threads (insert_bytes doc offset new_bytes) oob s1 offset
            new_bytes.length)).state.strings,
        r'.offset ≤ r.offset ∧ r.offset + r.length ≤ r'.offset + r'.length := by
  -- the state at the pause
  obtain ⟨a1, a2, a3, a4⟩ := thread_main_loop_waiting_keeps (pause_from p) (pause_from_mono p)
    doc oob (total_length (fresh_index doc).dirty) 0 (fresh_index doc)
    (wellFormed_set_range _ _ _ wellFormed_nil) wellFormed_nil (nothingLost_fresh_index doc)
    s1 t1 hpaused
  -- the state updates of the insert handler
  have b1 : WellFormed (OnDataInsert_update s1 offset new_bytes.length).dirty :=
    wellFormed_set_range _ _ _ (wellFormed_data_inserted _ _ _ a1)
  have b2 : WellFormed (OnDataInsert_update s1 offset new_bytes.length).strings :=
    wellFormed_data_inserted _ _ _ a2
  have b3 := nothingLost_insert_update doc s1 offset new_bytes hoff a3
  have b4 : (OnDataInsert_update s1 offset new_bytes.length).threads_exit = false := a4
  -- its call of start_threads
  obtain ⟨c1, c2, c3, c4⟩ := start_threads_keeps max_threads
    (insert_bytes doc offset new_bytes) oob (OnDataInsert_update s1 offset new_bytes.length)
    b1 b2 b3 b4
  -- the waiting worker runs on
  obtain ⟨s', d1, d2, d3, d4, _, _⟩ := thread_main_no_pause_settles
    (insert_bytes doc offset new_bytes) oob t1
    { OnDataInsert max_threads (insert_bytes doc offset new_bytes) oob s1 offset
        new_bytes.length with
      running_threads := inc_uint (OnDataInsert max_threads
        (insert_bytes doc offset new_bytes) oob s1 offset new_bytes.length).running_threads }
    c1 c2 c3 c4
  have hfinal : (thread_main_resume no_pause (insert_bytes doc offset new_bytes) oob t1
      (OnDataInsert max_threads (insert_bytes doc offset new_bytes) oob s1 offset
        new_bytes.length)).state = thread_exit s' := by
    unfold thread_main_resume
    rw [d1]; rfl
  -- the scan from scratch
  obtain ⟨sc, e1, e2, e3⟩ := scratch_scan_exact (insert_bytes doc offset new_bytes) oob
  have hscratch : (thread_main no_pause (insert_bytes doc offset new_bytes) oob 0
      (fresh_index (insert_bytes doc offset new_bytes))).state = thread_exit sc := by
    rw [e1]; rfl
  rw [hfinal, hscratch]
  obtain ⟨x1, _, _, x4⟩ := thread_exit_cache s'
  obtain ⟨y1, _, _, y4⟩ := thread_exit_cache sc
  rw [x1, x4, y1, y4]
  refine ⟨d2, d3, e2, e3, ?_⟩
  intro r hr
  have hr' : (⟨r.offset, r.length⟩ : Range) ∈ sc.strings := hr
  obtain ⟨hrun, hl⟩ := (e3.2 r.offset r.length).mp hr'
  exact run_in_one_range d3 d4 hrun hl

/-- C6, witness: the scan of "ABCDEFGH" 01 01 is paused at its last byte, 'X' is inserted
at offset 2, and the worker resumes. -/
theorem C6_pause_insert_resume_witness :
    thread_main (pause_from 10) [65, 66, 67, 68, 69, 70, 71, 72, 1, 1] 0 0
        (fresh_index [65, 66, 67, 68, 69, 70, 71, 72, 1, 1]) =
      .waiting
        { dirty := [⟨9, 1⟩], strings := [⟨0, 8⟩], update_needed := true, last_item_idx := -1,
          last_item_iter := none, threads_exit := false, threads_pause := false,
          spawned_threads := 1, running_threads := 0 } 12 ∧
    ((thread_main_resume no_pause (insert_bytes [65, 66, 67, 68, 69, 70, 71, 72, 1, 1] 2 [88])
      0 12
      (OnDataInsert 8 (insert_bytes [65, 66, 67, 68, 69, 70, 71, 72, 1, 1] 2 [88]) 0
        { dirty := [⟨9, 1⟩], strings := [⟨0, 8⟩], update_needed := true, last_item_idx := -1,
          last_item_iter := none, threads_exit := false, threads_pause := false,
          spawned_threads := 1, running_threads := 0 } 2
        ([88] : List Nat).length)).state.dirty = [] ∧
    WellFormed (thread_main_resume no_pause
      (insert_bytes [65, 66, 67, 68, 69, 70, 71, 72, 1, 1] 2 [88]) 0 12
      (OnDataInsert 8 (insert_bytes [65, 66, 67, 68, 69, 70, 71, 72, 1, 1] 2 [88]) 0
        { dirty := [⟨9, 1⟩], strings := [⟨0, 8⟩], update_needed := true, last_item_idx := -1,
          last_item_iter := none, threads_exit := false, threads_pause := false,
          spawned_threads := 1, running_threads := 0 } 2
        ([88] : List Nat).length)).state.strings ∧
    (thread_main no_pause (insert_bytes [65, 66, 67, 68, 69, 70, 71, 72, 1, 1] 2 [88]) 0 0
      (fresh_index (insert_bytes [65, 66, 67, 68, 69, 70, 71, 72, 1, 1] 2 [88]))).state.dirty
        = [] ∧
    ExactIndex (insert_bytes [65, 66, 67, 68, 69, 70, 71, 72, 1, 1] 2 [88])
      (thread_main no_pause (insert_bytes [65, 66, 67, 68, 69, 70, 71, 72, 1, 1] 2 [88]) 0 0
        (fresh_index
          (insert_bytes [65, 66, 67, 68, 69, 70, 71, 72, 1, 1] 2 [88]))).state.strings ∧
    ∀ r ∈ (thread_main no_pause (insert_bytes [65, 66, 67, 68, 69, 70, 71, 72, 1, 1] 2 [88])
        0 0
        (fresh_index
          (insert_bytes [65, 66, 67, 68, 69, 70, 71, 72, 1, 1] 2 [88]))).state.strings,
      ∃ r' ∈ (thread_main_resume no_pause
          (insert_bytes [65, 66, 67, 68, 69, 70, 71, 72, 1, 1] 2 [88]) 0 12
          (OnDataInsert 8 (insert_bytes [65, 66, 67, 68, 69, 70, 71, 72, 1, 1] 2 [88]) 0
            { dirty := [⟨9, 1⟩], strings := [⟨0, 8⟩], update_needed := true,
              last_item_idx := -1, last_item_iter := none, threads_exit := false,
              threads_pause := false, spawned_threads := 1, running_threads := 0 } 2
            ([88] : List Nat).length)).state.strings,
        r'.offset ≤ r.offset ∧ r.offset + r.length ≤ r'.offset + r'.length) :=
  ⟨by decide,
    C6_pause_insert_resume_covers_the_scratch_scan 8 [65, 66, 67, 68, 69, 70, 71, 72, 1, 1]
      0 10 2 [88]
      { dirty := [⟨9, 1⟩], strings := [⟨0, 8⟩], update_needed := true, last_item_idx := -1,
        last_item_iter := none, threads_exit := false, threads_pause := false,
        spawned_threads := 1, running_threads := 0 } 12 (by decide) (by decide)⟩

/-- C6, refuted as stated: the scan of "ABCDEFGH" 01 01 from scratch has reported (0, 8)
and is paused at its last byte (the rest of the window, (9, 1), is marked dirty again); the
byte 01 is inserted at offset 2, inside the window; `OnDataInsert` splits the range into
(0, 2) and (3, 6), and after the resumed scan the strings set is [(0, 2), (3, 6)], while a
scan of the new buffer "AB" 01 "CDEFGH" 01 01 from scratch yields [(3, 6)]. -/
theorem C6_same_set_as_scratch_refuted :
    thread_main (pause_from 10) [65, 66, 67, 68, 69, 70, 71, 72, 1, 1] 0 0
        (fresh_index [65, 66, 67, 68, 69, 70, 71, 72, 1, 1]) =
      .waiting
        { dirty := [⟨9, 1⟩], strings := [⟨0, 8⟩], update_needed := true, last_item_idx := -1,
          last_item_iter := none, threads_exit := false, threads_pause := false,
          spawned_threads := 1, running_threads := 0 } 12 ∧
    insert_bytes [65, 66, 67, 68, 69, 70, 71, 72, 1, 1] 2 [1] =
      [65, 66, 1, 67, 68, 69, 70, 71, 72, 1, 1] ∧
    (thread_main_resume no_pause [65, 66, 1, 67, 68, 69, 70, 71, 72, 1, 1] 0 12
      (OnDataInsert 8 [65, 66, 1, 67, 68, 69, 70, 71, 72, 1, 1] 0
        { dirty := [⟨9, 1⟩], strings := [⟨0, 8⟩], update_needed := true, last_item_idx := -1,
          last_item_iter := none, threads_exit := false, threads_pause := false,
          spawned_threads := 1, running_threads := 0 } 2 1)).state.strings =
      [⟨0, 2⟩, ⟨3, 6⟩] ∧
    (thread_main no_pause [65, 66, 1, 67, 68, 69, 70, 71, 72, 1, 1] 0 0
      (fresh_index [65, 66, 1, 67, 68, 69, 70, 71, 72, 1, 1])).state.strings = [⟨3, 6⟩] ∧
    (thread_main_resume no_pause [65, 66, 1, 67, 68, 69, 70, 71, 72, 1, 1] 0 12
      (OnDataInsert 8 [65, 66, 1, 67, 68, 69, 70, 71, 72, 1, 1] 0
        { dirty := [⟨9, 1⟩], strings := [⟨0, 8⟩], update_needed := true, last_item_idx := -1,
          last_item_iter := none, threads_exit := false, threads_pause := false,
          spawned_threads := 1, running_threads := 0 } 2 1)).state.strings ≠
    (thread_main no_pause [65, 66, 1, 67, 68, 69, 70, 71, 72, 1, 1] 0 0
      (fresh_index [65, 66, 1, 67, 68, 69, 70, 71, 72, 1, 1])).state.strings := by
  decide

/-! ## C3: a run across the boundary of two windows -/

/-- Every byte of a stretch of length at least 4 lies in a block of 4 bytes inside it. -/
theorem block_in_stretch {o l x : Nat} (hl : MIN_STRING_LENGTH ≤ l) (h1 : o ≤ x)
    (h2 : x < o + l) :
    ∃ a, o ≤ a ∧ a + MIN_STRING_LENGTH ≤ o + l ∧ a ≤ x ∧ x < a + MIN_STRING_LENGTH := by
  unfold MIN_STRING_LENGTH at *
  exact ⟨min x (o + l - 4), by omega, by omega, by omega, by omega⟩

/-- A printable block of the document inside the bytes read for a window is covered by the
strings set once the window is scanned. -/
theorem scanned_window_covers_block (doc : List Nat) (oob t : Nat) (s : StringPanel)
    (next : Range) (a : Nat) (hblk : PrintableBlock doc a) (h1 : window_base_adj next ≤ a)
    (h2 : a + MIN_STRING_LENGTH ≤ window_base_adj next + window_length_adj next) :
    ∀ j, j < MIN_STRING_LENGTH → Covers (scanned_window doc oob t s next).strings (a + j) := by
  intro j hj
  unfold scanned_window
  rw [covers_insert_matches]
  right
  exact scan_covers_block no_pause no_pause_mono doc oob _ _ t a hblk h1 h2
    (by intro k hk; rw [scan_window_no_pause_paused] at hk; simp at hk) j hj

theorem window_length_big (next : Range) (h : WINDOW_SIZE < next.length) :
    window_length next = WINDOW_SIZE := by
  unfold window_length
  exact Nat.min_eq_right (by omega)

/-- After the first window of a dirty range longer than `WINDOW_SIZE` is taken, the rest of
that range is the next dirty range. -/
theorem scanned_window_dirty_big (doc : List Nat) (oob t : Nat) (s : StringPanel)
    (next : Range) (rest : List Range) (hd : s.dirty = next :: rest)
    (hbig : WINDOW_SIZE < next.length) :
    (scanned_window doc oob t s next).dirty.head? =
      some ⟨next.offset + WINDOW_SIZE, next.length - WINDOW_SIZE⟩ := by
  rw [scanned_window_dirty, hd, window_length_big next hbig]
  unfold clear_range
  rw [if_neg (by unfold WINDOW_SIZE; omega), cut_ranges]
  have hcut : cut_range next next.offset (next.offset + WINDOW_SIZE) =
      [⟨next.offset + WINDOW_SIZE, next.length - WINDOW_SIZE⟩] := by
    unfold cut_range
    rw [if_neg (by omega), if_pos (by omega)]
    simp only [List.nil_append, List.cons.injEq, Range.mk.injEq, and_true]
    omega
  rw [hcut]
  rfl

/-- Scanning a window keeps the strings set well formed, keeps what was covered, and adds
only bytes of printable runs of length at least `MIN_STRING_LENGTH`. -/
theorem scanned_window_sound (doc : List Nat) (oob t : Nat) (s : StringPanel) (next : Range) :
    (WellFormed s.strings → WellFormed (scanned_window doc oob t s next).strings) ∧
    (∀ x, Covers s.strings x → Covers (scanned_window doc oob t s next).strings x) ∧
    (∀ x, Covers (scanned_window doc oob t s next).strings x →
      Covers s.strings x ∨ InString doc x) := by
  refine ⟨?_, ?_, ?_⟩
  · intro h
    unfold scanned_window
    exact wellFormed_insert_matches _ _ h
  · intro x hx
    unfold scanned_window
    rw [covers_insert_matches]
    exact Or.inl hx
  · intro x hx
    unfold scanned_window at hx
    rw [covers_insert_matches] at hx
    rcases hx with hx | ⟨r, hr, hx1, hx2⟩
    · exact Or.inl hx
    · exact Or.inr (scan_found_inString no_pause no_pause_mono doc oob _ _ t r hr x hx1 hx2)

/-- C3, as the code behaves: two windows are taken one after the other from a dirty range
longer than `WINDOW_SIZE` and scanned without pause, from a well-formed strings set that
covers neither the byte before the run nor the byte after it. A maximal printable run of
length at least 4 that straddles the boundary between the two windows and lies within the
bytes read for them (from `MIN_STRING_LENGTH` bytes before the first window to
`MIN_STRING_LENGTH` bytes after the second) is then one range of the strings set,
(run start, run length), and no other range of the set meets it. -/
theorem C3_straddling_run_is_one_range (doc : List Nat) (oob t1 t2 : Nat) (s : StringPanel)
    (next : Range) (rest : List Range) (o l : Nat) (hd : s.dirty = next :: rest)
    (hbig : WINDOW_SIZE < next.length) (hws : WellFormed s.strings)
    (hprior : ¬ Covers s.strings (o + l) ∧ (o = 0 ∨ ¬ Covers s.strings (o - 1)))
    (hrun : IsMaximalRun doc o l) (hl : MIN_STRING_LENGTH ≤ l)
    (hstraddle : o < next.offset + WINDOW_SIZE ∧ next.offset + WINDOW_SIZE < o + l)
    (hleft : next.offset ≤ o + MIN_STRING_LENGTH)
    (hright : o + l ≤ next.offset + WINDOW_SIZE +
      min (next.length - WINDOW_SIZE) WINDOW_SIZE + MIN_STRING_LENGTH) :
    (scanned_window doc oob t1 s next).dirty.head? =
      some ⟨next.offset + WINDOW_SIZE, next.length - WINDOW_SIZE⟩ ∧
    WellFormed (scanned_window doc oob t2 (scanned_window doc oob t1 s next)
      ⟨next.offset + WINDOW_SIZE, next.length - WINDOW_SIZE⟩).strings ∧
    (⟨o, l⟩ : Range) ∈ (scanned_window doc oob t2 (scanned_window doc oob t1 s next)
      ⟨next.offset + WINDOW_SIZE, next.length - WINDOW_SIZE⟩).strings ∧
    ∀ r ∈ (scanned_window doc oob t2 (scanned_window doc oob t1 s next)
        ⟨next.offset + WINDOW_SIZE, next.length - WINDOW_SIZE⟩).strings,
      (∃ x, r.offset ≤ x ∧ x < r.offset + r.length ∧ o ≤ x ∧ x < o + l) → r = ⟨o, l⟩ := by
  obtain ⟨p1, p2, p3⟩ := scanned_window_sound doc oob t1 s next
  obtain ⟨q1, q2, q3⟩ := scanned_window_sound doc oob t2 (scanned_window doc oob t1 s next)
    ⟨next.offset + WINDOW_SIZE, next.length - WINDOW_SIZE⟩
  have hwf := q1 (p1 hws)
  -- what is covered at the end was covered before or is printable
  have hsound : ∀ x, Covers (scanned_window doc oob t2 (scanned_window doc oob t1 s next)
      ⟨next.offset + WINDOW_SIZE, next.length - WINDOW_SIZE⟩).strings x →
      Covers s.strings x ∨ PrintableAt doc x := by
    intro x hx
    rcases q3 x hx with h | h
    · rcases p3 x h with h' | h'
      · exact Or.inl h'
      · exact Or.inr (inString_printableAt h')
    · exact Or.inr (inString_printableAt h)
  -- the two windows cover the run
  have hcover : ∀ x, o ≤ x → x < o + l →
      Covers (scanned_window doc oob t2 (scanned_window doc oob t1 s next)
        ⟨next.offset + WINDOW_SIZE, next.length - WINDOW_SIZE⟩).strings x := by
    intro x hx1 hx2
    by_cases hx : x < next.offset + WINDOW_SIZE + MIN_STRING_LENGTH
    · -- the part of the run read for the first window
      apply q2
      have hlen : MIN_STRING_LENGTH ≤
          min (o + l) (next.offset + WINDOW_SIZE + MIN_STRING_LENGTH) - o := by
        unfold MIN_STRING_LENGTH at *; omega
      obtain ⟨a, a1, a2, a3, a4⟩ := block_in_stretch hlen hx1
        (by unfold MIN_STRING_LENGTH at *; omega :
          x < o + (min (o + l) (next.offset + WINDOW_SIZE + MIN_STRING_LENGTH) - o))
      have hblk : PrintableBlock doc a := by
        intro j hj
        exact hrun.2.1 (a + j) (by omega) (by unfold MIN_STRING_LENGTH at *; omega)
      have := scanned_window_covers_block doc oob t1 s next a hblk
        (by unfold window_base_adj window_pre MIN_STRING_LENGTH at *; omega)
        (by
          unfold window_base_adj window_length_adj window_pre
          rw [window_length_big next hbig]
          unfold MIN_STRING_LENGTH at *; omega)
        (x - a) (by omega)
      have heq : a + (x - a) = x := by omega
      rw [heq] at this; exact this
    · -- the part of the run read for the second window
      have hlen : MIN_STRING_LENGTH ≤
          o + l - max o (next.offset + WINDOW_SIZE - MIN_STRING_LENGTH) := by
        unfold MIN_STRING_LENGTH at *; omega
      obtain ⟨a, a1, a2, a3, a4⟩ := block_in_stretch hlen
        (by unfold MIN_STRING_LENGTH at *; omega :
          max o (next.offset + WINDOW_SIZE - MIN_STRING_LENGTH) ≤ x)
        (by unfold MIN_STRING_LENGTH at *; omega :
          x < max o (next.offset + WINDOW_SIZE - MIN_STRING_LENGTH) +
            (o + l - max o (next.offset + WINDOW_SIZE - MIN_STRING_LENGTH)))
      have hblk : PrintableBlock doc a := by
        intro j hj
        exact hrun.2.1 (a + j) (by omega) (by unfold MIN_STRING_LENGTH at *; omega)
      have := scanned_window_covers_block doc oob t2 (scanned_window doc oob t1 s next)
        ⟨next.offset + WINDOW_SIZE, next.length - WINDOW_SIZE⟩ a hblk
        (by
          unfold window_base_adj window_pre
          dsimp only
          unfold MIN_STRING_LENGTH at *; omega)
        (by
          unfold window_base_adj window_length_adj window_pre window_length
          dsimp only
          unfold MIN_STRING_LENGTH at *; omega)
        (x - a) (by omega)
      have heq : a + (x - a) = x := by omega
      rw [heq] at this; exact this
  have hmem : (⟨o, l⟩ : Range) ∈ (scanned_window doc oob t2 (scanned_window doc oob t1 s next)
      ⟨next.offset + WINDOW_SIZE, next.length - WINDOW_SIZE⟩).strings := by
    rw [mem_wellFormed_iff hwf]
    refine ⟨hrun.1, hcover, fun hc => ?_, ?_⟩
    · rcases hsound _ hc with h | h
      · exact hprior.1 h
      · exact hrun.2.2.2 h
    · rcases hrun.2.2.1 with h0 | hprev
      · exact Or.inl h0
      · rcases hprior.2 with h0 | hnot
        · exact Or.inl h0
        · right
          intro hc
          rcases hsound _ hc with h | h
          · exact hnot h
          · exact hprev h
  refine ⟨scanned_window_dirty_big doc oob t1 s next rest hd hbig, hwf, hmem, ?_⟩
  rintro r hr ⟨x, x1, x2, x3, x4⟩
  by_contra hne
  rcases hwf.apart hr hmem hne with h | h <;> dsimp only at h <;> omega

theorem printableAt_replicate (n c x : Nat) :
    PrintableAt (List.replicate n c) x ↔ x < n ∧ Printable7 c := by
  unfold PrintableAt
  rw [List.getElem?_replicate]
  split_ifs with h
  · simp [h]
  · simp [h]

theorem read_data_replicate (n c offset length : Nat) :
    read_data (List.replicate n c) offset length =
      List.replicate (min length (n - offset)) c := by
  unfold read_data
  rw [List.drop_replicate, List.take_replicate]

/-- The scan of bytes that are all printable reports the whole of them as one string. -/
theorem scan_found_all_printable (data : List Nat) (oob base t : Nat)
    (hall : ∀ i, i < data.length → PrintableAt data i) (hlen : MIN_STRING_LENGTH ≤ data.length) :
    (scan_window no_pause data oob base t).found = [⟨base, data.length⟩] := by
  obtain ⟨_, h2, _, h4⟩ :=
    scan_loop_no_pause data oob base data.length 0 t (by omega) (Or.inl rfl)
  have hrun : IsMaximalRun data 0 data.length := by
    refine ⟨by unfold MIN_STRING_LENGTH at hlen; omega, ?_, Or.inl rfl, ?_⟩
    · intro j _ hj; exact hall j (by omega)
    · rw [Nat.zero_add]; exact not_printableAt_length data
  have hmem : (⟨base, data.length⟩ : Range) ∈ (scan_window no_pause data oob base t).found :=
    (h2 base data.length).mpr ⟨0, rfl, le_refl _, hrun, hlen⟩
  have honly : ∀ r ∈ (scan_window no_pause data oob base t).found,
      r = ⟨base, data.length⟩ := by
    intro r hr
    have hr' : (⟨r.offset, r.length⟩ : Range) ∈
        (scan_loop no_pause data oob base data.length 0 t).found := hr
    obtain ⟨i, hi, _, hrun', _⟩ := (h2 r.offset r.length).mp hr'
    obtain ⟨g1, g2, g3, g4⟩ := hrun'
    have hi0 : i = 0 := by
      rcases g3 with h | h
      · exact h
      · by_contra hne
        have := printableAt_lt (g2 i (le_refl _) (by omega))
        exact h (hall (i - 1) (by omega))
    subst hi0
    have hle : r.length ≤ data.length := by
      have := printableAt_lt (g2 (r.length - 1) (by omega) (by omega))
      omega
    have hge : data.length ≤ r.length := by
      by_contra hcon
      exact g4 (hall (0 + r.length) (by omega))
    cases r with
    | mk ro rl =>
      dsimp only at hi hle hge ⊢
      rw [Range.mk.injEq]
      omega
  have hnd : (scan_window no_pause data oob base t).found.Nodup := by
    refine List.Pairwise.imp ?_ h4
    intro a b hab heq
    subst heq; omega
  cases hf : (scan_window no_pause data oob base t).found with
  | nil => rw [hf] at hmem; simp at hmem
  | cons x rest =>
    rw [hf] at honly hnd
    have hx := honly x (List.mem_cons_self _ _)
    cases rest with
    | nil => rw [hx]
    | cons y rest' =>
      have hy := honly y (List.mem_cons_of_mem _ (List.mem_cons_self _ _))
      have := (List.nodup_cons.mp hnd).1
      rw [hx, hy] at this
      simp at this

theorem fresh_index_dirty (doc : List Nat) :
    (fresh_index doc).dirty = set_range [] 0 (doc.length : Int) := rfl

theorem fresh_index_strings (doc : List Nat) : (fresh_index doc).strings = [] := rfl

theorem set_range_nat (rs : List Range) (offset n : Nat) (h : 0 < n) :
    set_range rs offset (n : Int) = merge_range rs offset (offset + n) := by
  unfold set_range
  rw [if_neg (by omega), Int.toNat_ofNat]

theorem length_read_data_replicate (n c offset length : Nat) :
    (read_data (List.replicate n c) offset length).length = min length (n - offset) := by
  rw [read_data_replicate, List.length_replicate]

theorem printableAt_read_data_replicate (n offset length i : Nat)
    (hi : i < (read_data (List.replicate n 65) offset length).length) :
    PrintableAt (read_data (List.replicate n 65) offset length) i := by
  rw [length_read_data_replicate] at hi
  rw [read_data_replicate, printableAt_replicate]
  exact ⟨hi, by unfold Printable7; omega⟩

/-- When all bytes read for a window are printable (and there are at least 4), the scan of
the window inserts them as one range. -/
theorem scanned_window_strings_all_printable (doc : List Nat) (oob t : Nat) (s : StringPanel)
    (next : Range)
    (hall : ∀ i, i < (read_data doc (window_base_adj next) (window_length_adj next)).length →
      PrintableAt (read_data doc (window_base_adj next) (window_length_adj next)) i)
    (hlen : MIN_STRING_LENGTH ≤
      (read_data doc (window_base_adj next) (window_length_adj next)).length) :
    (scanned_window doc oob t s next).strings =
      set_range s.strings (window_base_adj next)
        ((read_data doc (window_base_adj next) (window_length_adj next)).length : Int) := by
  unfold scanned_window window_scan
  rw [scan_found_all_printable _ _ _ _ hall hlen]
  rfl

/-- C3, refuted as stated: in a buffer of three windows of 'A' the one printable run,
(0, 6291456), straddles the boundary between the first two windows; once these two windows
have been scanned the strings set is the single range (0, 4194308), the part of the run read
for them, and not the full extent of the run. -/
theorem C3_long_run_refuted :
    IsMaximalRun three_windows_of_A 0 6291456 ∧
    (fresh_index three_windows_of_A).dirty = [⟨0, 6291456⟩] ∧
    (scanned_window three_windows_of_A 0 0 (fresh_index three_windows_of_A)
      ⟨0, 6291456⟩).dirty = [⟨2097152, 4194304⟩] ∧
    (scanned_window three_windows_of_A 0
      (window_scan no_pause three_windows_of_A 0 0 ⟨0, 6291456⟩).t
      (scanned_window three_windows_of_A 0 0 (fresh_index three_windows_of_A) ⟨0, 6291456⟩)
      ⟨2097152, 4194304⟩).strings = [⟨0, 4194308⟩] ∧
    (⟨0, 6291456⟩ : Range) ∉
      (scanned_window three_windows_of_A 0
        (window_scan no_pause three_windows_of_A 0 0 ⟨0, 6291456⟩).t
        (scanned_window three_windows_of_A 0 0 (fresh_index three_windows_of_A) ⟨0, 6291456⟩)
        ⟨2097152, 4194304⟩).strings := by
  unfold three_windows_of_A
  have hfresh : (fresh_index (List.replicate 6291456 65)).dirty = [⟨0, 6291456⟩] := by
    rw [fresh_index_dirty, List.length_replicate, set_range_nat _ _ _ (by omega)]
    rfl
  have hfirst : (scanned_window (List.replicate 6291456 65) 0 0
      (fresh_index (List.replicate 6291456 65)) ⟨0, 6291456⟩).strings = [⟨0, 2097156⟩] := by
    have hlen : (read_data (List.replicate 6291456 65) (window_base_adj ⟨0, 6291456⟩)
        (window_length_adj ⟨0, 6291456⟩)).length = 2097156 := by
      rw [length_read_data_replicate]
      decide
    rw [scanned_window_strings_all_printable _ _ _ _ _
      (printableAt_read_data_replicate _ _ _) (by rw [hlen]; decide), hlen]
    rw [fresh_index_strings, set_range_nat _ _ _ (by omega)]
    rfl
  have hsecond : (scanned_window (List.replicate 6291456 65) 0
      (window_scan no_pause (List.replicate 6291456 65) 0 0 ⟨0, 6291456⟩).t
      (scanned_window (List.replicate 6291456 65) 0 0
        (fresh_index (List.replicate 6291456 65)) ⟨0, 6291456⟩)
      ⟨2097152, 4194304⟩).strings = [⟨0, 4194308⟩] := by
    have hlen : (read_data (List.replicate 6291456 65) (window_base_adj ⟨2097152, 4194304⟩)
        (window_length_adj ⟨2097152, 4194304⟩)).length = 2097160 := by
      rw [length_read_data_replicate]
      decide
    rw [scanned_window_strings_all_printable _ _ _ _ _
      (printableAt_read_data_replicate _ _ _) (by rw [hlen]; decide), hlen, hfirst,
      set_range_nat _ _ _ (by omega)]
    decide
  refine ⟨?_, hfresh, ?_, hsecond, ?_⟩
  · refine ⟨by omega, ?_, Or.inl rfl, ?_⟩
    · intro j _ hj
      rw [printableAt_replicate]
      exact ⟨by omega, by unfold Printable7; omega⟩
    · rw [printableAt_replicate]
      omega
  · rw [scanned_window_dirty, hfresh]
    decide
  · rw [hsecond]
    decide

theorem printableAt_boundary_example (x : Nat) :
    PrintableAt boundary_example x ↔ 2097147 ≤ x ∧ x < 2097157 := by
  unfold boundary_example
  rw [printableAt_append, printableAt_append, printableAt_replicate, printableAt_replicate,
    printableAt_replicate, List.length_replicate, List.length_replicate]
  unfold Printable7
  omega

theorem boundary_example_length : boundary_example.length = 2097257 := by
  unfold boundary_example
  rw [List.length_append, List.length_append, List.length_replicate, List.length_replicate,
    List.length_replicate]

theorem boundary_example_run : IsMaximalRun boundary_example 2097147 10 := by
  refine ⟨by omega, ?_, Or.inr ?_, ?_⟩
  · intro j h1 h2
    rw [printableAt_boundary_example]; omega
  · rw [printableAt_boundary_example]; omega
  · rw [printableAt_boundary_example]; omega

/-- C3, witness: the printable run of length 10 of `boundary_example`, five bytes on each
side of the boundary between the first and the second window of a scan from scratch. -/
theorem C3_straddling_run_witness :
    (scanned_window boundary_example 0 0 (fresh_index boundary_example)
      ⟨0, 2097257⟩).dirty.head? =
      some ⟨(⟨0, 2097257⟩ : Range).offset + WINDOW_SIZE,
        (⟨0, 2097257⟩ : Range).length - WINDOW_SIZE⟩ ∧
    WellFormed (scanned_window boundary_example 0 0
      (scanned_window boundary_example 0 0 (fresh_index boundary_example) ⟨0, 2097257⟩)
      ⟨(⟨0, 2097257⟩ : Range).offset + WINDOW_SIZE,
        (⟨0, 2097257⟩ : Range).length - WINDOW_SIZE⟩).strings ∧
    (⟨2097147, 10⟩ : Range) ∈ (scanned_window boundary_example 0 0
      (scanned_window boundary_example 0 0 (fresh_index boundary_example) ⟨0, 2097257⟩)
      ⟨(⟨0, 2097257⟩ : Range).offset + WINDOW_SIZE,
        (⟨0, 2097257⟩ : Range).length - WINDOW_SIZE⟩).strings ∧
    ∀ r ∈ (scanned_window boundary_example 0 0
        (scanned_window boundary_example 0 0 (fresh_index boundary_example) ⟨0, 2097257⟩)
        ⟨(⟨0, 2097257⟩ : Range).offset + WINDOW_SIZE,
          (⟨0, 2097257⟩ : Range).length - WINDOW_SIZE⟩).strings,
      (∃ x, r.offset ≤ x ∧ x < r.offset + r.length ∧ 2097147 ≤ x ∧ x < 2097147 + 10) →
        r = ⟨2097147, 10⟩ :=
  C3_straddling_run_is_one_range boundary_example 0 0 0 (fresh_index boundary_example)
    ⟨0, 2097257⟩ [] 2097147 10
    (by rw [fresh_index_dirty, boundary_example_length, set_range_nat _ _ _ (by omega)]; rfl)
    (by decide) wellFormed_nil ⟨covers_nil _, Or.inr (covers_nil _)⟩ boundary_example_run
    (by decide) (by decide) (by decide) (by decide)

/-! ## C12: `start_threads` with nothing dirty -/

/-- C12, as the code has it: when the total dirty byte count is 0, `start_threads` leaves the
dirty set, the strings set, both counters and the exit flag unchanged, spawns no worker and
runs no scan; the pause flag is cleared, because `resume_threads()` is called first. -/
theorem C12_start_threads_with_nothing_dirty_only_clears_the_pause_flag
    (max_threads : Nat) (doc : List Nat) (oob : Nat) (s : StringPanel)
    (h : dirty_total s.dirty = 0) :
    start_threads max_threads doc oob s = resume_threads s ∧
    (start_threads max_threads doc oob s).dirty = s.dirty ∧
    (start_threads max_threads doc oob s).strings = s.strings ∧
    (start_threads max_threads doc oob s).spawned_threads = s.spawned_threads ∧
    (start_threads max_threads doc oob s).running_threads = s.running_threads ∧
    (start_threads max_threads doc oob s).threads_exit = s.threads_exit ∧
    (start_threads max_threads doc oob s).threads_pause = false := by
  have heq : start_threads max_threads doc oob s = resume_threads s := by
    unfold start_threads
    have h0 : ¬ dirty_total (resume_threads s).dirty > 0 := by
      show ¬ dirty_total s.dirty > 0
      omega
    simp only [h0, if_false]
  rw [heq]
  exact ⟨rfl, rfl, rfl, rfl, rfl, rfl, rfl⟩

theorem C12_start_threads_with_nothing_dirty_witness :
    dirty_total paused_empty_panel.dirty = 0 ∧
    start_threads 8 [] 0 paused_empty_panel = resume_threads paused_empty_panel ∧
    (start_threads 8 [] 0 paused_empty_panel).threads_pause = false :=
  ⟨by decide,
    (C12_start_threads_with_nothing_dirty_only_clears_the_pause_flag 8 [] 0 paused_empty_panel
      (by decide)).1,
    (C12_start_threads_with_nothing_dirty_only_clears_the_pause_flag 8 [] 0 paused_empty_panel
      (by decide)).2.2.2.2.2.2⟩

/-- C12 as stated fails: on the panel of an empty document whose workers have been paused,
nothing is dirty, and `start_threads` changes the pause flag from set to clear. -/
theorem C12_pause_flag_unchanged_refuted :
    dirty_total paused_empty_panel.dirty = 0 ∧
    paused_empty_panel.threads_pause = true ∧
    (start_threads 8 [] 0 paused_empty_panel).threads_pause = false ∧
    (start_threads 8 [] 0 paused_empty_panel).threads_pause ≠
      paused_empty_panel.threads_pause := by
  decide

/-! ## C17: the thread counters on the inline path -/

theorem create_eq (max_threads : Nat) (doc : List Nat) (oob : Nat) :
    StringPanel.create max_threads doc oob =
      start_threads max_threads doc oob (constructed doc.length) := rfl

theorem thread_exit_counters (s : StringPanel) :
    (thread_exit s).running_threads = dec_uint s.running_threads ∧
    (thread_exit s).spawned_threads = dec_uint s.spawned_threads := by
  unfold thread_exit; exact ⟨rfl, rfl⟩

theorem scanned_window_counters (doc : List Nat) (oob t : Nat) (s : StringPanel)
    (next : Range) :
    (scanned_window doc oob t s next).running_threads = s.running_threads ∧
    (scanned_window doc oob t s next).spawned_threads = s.spawned_threads := by
  unfold scanned_window
  rw [(insert_matches_frame _ _).2.2.2.2.1, (insert_matches_frame _ _).2.2.2.1]
  exact ⟨rfl, rfl⟩

/-- An unpaused `thread_main` changes the counters at its exit only. -/
theorem thread_main_loop_no_pause_counters (doc : List Nat) (oob : Nat) :
    ∀ (fuel t : Nat) (s : StringPanel),
      ∃ s', thread_main_loop no_pause doc oob fuel t s = .exited (thread_exit s') ∧
        s'.running_threads = s.running_threads ∧
        s'.spawned_threads = s.spawned_threads := by
  intro fuel
  induction fuel with
  | zero => intro t s; exact ⟨s, rfl, rfl, rfl⟩
  | succ fuel ih =>
    intro t s
    cases he : s.threads_exit with
    | true => exact ⟨s, thread_main_loop_exit_flag _ _ _ _ _ _ he, rfl, rfl⟩
    | false =>
      cases hd : s.dirty with
      | nil => exact ⟨s, thread_main_loop_empty _ _ _ _ _ _ hd, rfl, rfl⟩
      | cons next rest =>
        obtain ⟨t', hstep⟩ := thread_main_loop_no_pause_step doc oob fuel t s next rest he hd
        obtain ⟨s', h1, h2, h3⟩ := ih t' (scanned_window doc oob t s next)
        refine ⟨s', by rw [hstep]; exact h1, ?_, ?_⟩
        · rw [h2]; exact (scanned_window_counters doc oob t s next).1
        · rw [h3]; exact (scanned_window_counters doc oob t s next).2

/-- On the inline path `start_threads` returns with both counters decremented once: the
`--running_threads; --spawned_threads;` at the exit of `thread_main` has no increment before
it. -/
theorem start_threads_inline_counters (max_threads : Nat) (doc : List Nat) (oob : Nat)
    (s : StringPanel) (h1 : 0 < dirty_total s.dirty)
    (h2 : dirty_total s.dirty ≤ UI_THREAD_THRESH) :
    (start_threads max_threads doc oob s).running_threads = dec_uint s.running_threads ∧
    (start_threads max_threads doc oob s).spawned_threads = dec_uint s.spawned_threads := by
  unfold start_threads
  have h0 : dirty_total (resume_threads s).dirty > 0 := h1
  simp only [h0, if_true]
  rw [if_neg (by show ¬ dirty_total s.dirty > UI_THREAD_THRESH; omega)]
  unfold thread_main
  obtain ⟨s', h3, h4, h5⟩ := thread_main_loop_no_pause_counters doc oob
    (total_length ({ resume_threads s with threads_exit := false } : StringPanel).dirty) 0
    { resume_threads s with threads_exit := false }
  rw [h3]
  show (thread_exit s').running_threads = _ ∧ (thread_exit s').spawned_threads = _
  rw [(thread_exit_counters s').1, (thread_exit_counters s').2, h4, h5]
  exact ⟨rfl, rfl⟩

theorem dec_uint_ne (x : Nat) (h : x < 2 ^ 32) : dec_uint x ≠ x := by
  unfold dec_uint
  omega

/-- C17 fails on the inline path: the constructor of a panel over the five bytes "ABCDE"
(0 < dirty_total = 5 <= UI_THREAD_THRESH) starts with both counters 0 and no worker, runs
the scan inline, and returns with `running_threads` and `spawned_threads` both at
4294967295; the `running_threads == 0` that `pause_threads` waits for does not hold. -/
theorem C17_inline_scan_wraps_the_counters :
    (constructed 5).running_threads = 0 ∧ (constructed 5).spawned_threads = 0 ∧
    0 < dirty_total (constructed 5).dirty ∧
    dirty_total (constructed 5).dirty ≤ UI_THREAD_THRESH ∧
    (StringPanel.create 8 [65, 66, 67, 68, 69] 0).running_threads = 4294967295 ∧
    (StringPanel.create 8 [65, 66, 67, 68, 69] 0).spawned_threads = 4294967295 ∧
    (pause_threads (StringPanel.create 8 [65, 66, 67, 68, 69] 0)).running_threads ≠ 0 := by
  decide

/-! ## C18: the number of workers on the background path -/

/-- With at least one hardware thread reported, the background path leaves at least one
worker counted, whatever the dirty total. -/
theorem start_threads_background_spawns (max_threads : Nat) (doc : List Nat) (oob : Nat)
    (s : StringPanel) (h : UI_THREAD_THRESH < dirty_total s.dirty) (hmax : 1 ≤ max_threads) :
    1 ≤ (start_threads max_threads doc oob s).spawned_threads := by
  rw [start_threads_background max_threads doc oob s h]
  have hw : 1 ≤ want_threads (dirty_total s.dirty) max_threads := by
    unfold want_threads
    dsimp only
    split_ifs <;> omega
  have hs := (spawn_loop_spec (want_threads (dirty_total s.dirty) max_threads)
    (want_threads_lt _ _) (want_threads (dirty_total s.dirty) max_threads)
    { resume_threads s with threads_exit := false } (Nat.sub_le _ _)).1
  rw [hs]
  exact le_trans hw (le_max_right _ _)

/-- C18 fails when `std::thread::hardware_concurrency()` returns 0: the constructor state of
a buffer of 2 MiB (dirty_total = 2097152 > UI_THREAD_THRESH, no worker yet) takes the
background path, `want_threads` is clamped from 1 to `max_threads` = 0, the spawn loop does
not run, and `spawned_threads` is 0 on return. -/
theorem C18_no_worker_when_hardware_concurrency_is_zero :
    UI_THREAD_THRESH < dirty_total (constructed 2097152).dirty ∧
    want_threads (dirty_total (constructed 2097152).dirty) 0 = 0 ∧
    ∀ (doc : List Nat) (oob : Nat),
      (start_threads 0 doc oob (constructed 2097152)).spawned_threads = 0 ∧
      (start_threads 0 doc oob (constructed 2097152)).running_threads = 0 ∧
      (start_threads 0 doc oob (constructed 2097152)).dirty = [⟨0, 2097152⟩] := by
  refine ⟨by decide, by decide, fun doc oob => ?_⟩
  rw [start_threads_background 0 doc oob (constructed 2097152) (by decide)]
  decide

/-! ## C11: the assertion of `get_nth_string` -/

/-- The assertion `n < strings.size()`, with `n` converted to `size_t`, holds exactly for the
indices of the set, when `n` is an `ssize_t` and the set has fewer than `2 ^ 63` elements. -/
theorem assertion_iff_in_range (s : StringPanel) (n : Int) (hmin : -(2 ^ 63) ≤ n)
    (hmax : n < 2 ^ 63) (hsize : (s.strings.length : Int) < 2 ^ 63) :
    (n % 2 ^ 64).toNat < s.strings.length ↔ 0 ≤ n ∧ n < (s.strings.length : Int) := by
  omega

/-- C11: for an `ssize_t` argument `n` and a strings set of fewer than `2 ^ 63` elements (a
`std::set` cannot hold more), the assertion of `get_nth_string(n)` fails exactly when `n < 0`
or `n >= strings.size()`; for such an `n` no iterator is returned and the state, the cache
included, is as before. -/
theorem C11_get_nth_string_asserts_exactly_out_of_range (s : StringPanel) (n : Int)
    (hmin : -(2 ^ 63) ≤ n) (hmax : n < 2 ^ 63)
    (hsize : (s.strings.length : Int) < 2 ^ 63) :
    (get_nth_string s n = .error .assertion_failed ↔
      (n < 0 ∨ (s.strings.length : Int) ≤ n)) ∧
    ((n < 0 ∨ (s.strings.length : Int) ≤ n) →
      (∀ r, get_nth_string s n ≠ .ok r) ∧ after_get_nth s n = s) := by
  have hiff := assertion_iff_in_range s n hmin hmax hsize
  by_cases hin : (n % 2 ^ 64).toNat < s.strings.length
  · have h1 : get_nth_string s n ≠ .error .assertion_failed := by
      unfold get_nth_string
      rw [if_pos hin]
      dsimp only
      split <;> simp
    have h2 : ¬ (n < 0 ∨ (s.strings.length : Int) ≤ n) := by
      have := hiff.1 hin
      omega
    exact ⟨⟨fun h => absurd h h1, fun h => absurd h h2⟩, fun h => absurd h h2⟩
  · have h1 : get_nth_string s n = .error .assertion_failed := by
      unfold get_nth_string
      rw [if_neg hin]
    have h2 : n < 0 ∨ (s.strings.length : Int) ≤ n := by
      by_contra hno
      exact hin (hiff.2 (by omega))
    refine ⟨⟨fun _ => h2, fun _ => h1⟩, fun _ => ⟨?_, ?_⟩⟩
    · intro r hr
      rw [h1] at hr
      cases hr
    · unfold after_get_nth
      rw [h1]

theorem C11_get_nth_string_asserts_witness :
    (get_nth_string two_strings_panel (-1) = .error .assertion_failed ↔
      ((-1 : Int) < 0 ∨ (two_strings_panel.strings.length : Int) ≤ -1)) ∧
    (((-1 : Int) < 0 ∨ (two_strings_panel.strings.length : Int) ≤ -1) →
      (∀ r, get_nth_string two_strings_panel (-1) ≠ .ok r) ∧
      after_get_nth two_strings_panel (-1) = two_strings_panel) :=
  C11_get_nth_string_asserts_exactly_out_of_range two_strings_panel (-1) (by decide)
    (by decide) (by decide)

/-! ## C13: the range marked dirty again at a pause -/

/-- A pause that is already requested at the first read of the flag interrupts the scan of a
window before its first byte: `string_base` is the start of the bytes read. -/
theorem scan_window_paused_at_once (data : List Nat) (oob base : Nat) (h : data ≠ []) :
    scan_window (pause_from 0) data oob base 0 = ⟨[], some base, 2⟩ := by
  cases data with
  | nil => exact absurd rfl h
  | cons a as =>
    simp [scan_window, scan_loop, extend_string, pause_from]

theorem read_data_ne_nil (doc : List Nat) (offset length : Nat) (h1 : offset < doc.length)
    (h2 : 0 < length) : read_data doc offset length ≠ [] := by
  intro h
  have hl : (read_data doc offset length).length = 0 := by rw [h]; rfl
  unfold read_data at hl
  rw [List.length_take, List.length_drop] at hl
  omega

/-- When the pause is interrupted inside the window, the range marked dirty again is the
rest of the window: it starts at `string_base`, ends at the end of the window, and has
positive length. -/
theorem new_dirty_range_inside_window (window_base window_length string_base : Nat)
    (h1 : window_base ≤ string_base) (h2 : string_base < window_base + window_length)
    (h3 : window_length ≤ WINDOW_SIZE) :
    new_dirty_base window_base string_base = string_base ∧
    as_off_t (new_dirty_length window_base window_length string_base) =
      ((window_base + window_length - string_base : Nat) : Int) ∧
    0 < window_base + window_length - string_base := by
  refine ⟨?_, ?_, by omega⟩
  · unfold new_dirty_base
    exact max_eq_right h1
  · rw [as_off_t_new_dirty_length _ _ _ h2 h3 (by omega)]
    omega

/-- C13 fails for a `string_base` in the padding of the read window. A worker takes the
second window (2097152, 2097152) of a buffer of 4 MiB and sees the pause at its first read of
the flag, with `string_base` = 2097148 in the four bytes read before the window: the base is
clamped to 2097152 but the length is 2097156, so the range marked dirty again ends four
bytes behind the window (and behind the buffer). For a `string_base` at or behind the end of a
window the length is 0 or, as an `off_t`, negative. -/
theorem C13_pause_outside_the_window_marks_the_wrong_range :
    window_base_adj ⟨2097152, 2097152⟩ = 2097148 ∧
    new_dirty_base 2097152 2097148 = 2097152 ∧
    as_off_t (new_dirty_length 2097152 2097152 2097148) = 2097156 ∧
    (thread_main (pause_from 0) four_mib_of_zeros 0 0 second_window_panel).state.dirty =
      [⟨2097152, 2097156⟩] ∧
    as_off_t (new_dirty_length 0 2097152 2097152) = 0 ∧
    as_off_t (new_dirty_length 0 2097152 2097153) = -1 := by
  have hlen : as_off_t (new_dirty_length 2097152 2097152 2097148) = 2097156 := by
    rw [as_off_t_new_dirty_length _ _ _ (by omega) (by unfold WINDOW_SIZE; omega)
      (by unfold MIN_STRING_LENGTH; omega)]
    norm_num
  refine ⟨by decide, by decide, hlen, ?_, by decide, by decide⟩
  unfold thread_main
  have hfuel : total_length second_window_panel.dirty = 2097151 + 1 := by decide
  rw [hfuel, thread_main_loop_succ (pause_from 0) four_mib_of_zeros 0 2097151 0
    second_window_panel ⟨2097152, 2097152⟩ [] rfl rfl]
  have hscan : window_scan (pause_from 0) four_mib_of_zeros 0 0 ⟨2097152, 2097152⟩ =
      ⟨[], some (window_base_adj ⟨2097152, 2097152⟩), 2⟩ := by
    unfold window_scan
    apply scan_window_paused_at_once
    apply read_data_ne_nil
    · unfold four_mib_of_zeros
      rw [List.length_replicate]
      decide
    · decide
  rw [hscan]
  show (pause_window (insert_matches (take_window second_window_panel ⟨2097152, 2097152⟩) [])
    ⟨2097152, 2097152⟩ (window_base_adj ⟨2097152, 2097152⟩)).dirty = _
  rw [(pause_window_frame _ _ _).2.2]
  have hbase : window_base_adj ⟨2097152, 2097152⟩ = 2097148 := by decide
  have hwl : window_length ⟨2097152, 2097152⟩ = 2097152 := by decide
  rw [hbase, hwl]
  show set_range _ (new_dirty_base 2097152 2097148)
    (as_off_t (new_dirty_length 2097152 2097152 2097148)) = _
  rw [hlen]
  have hnat : ((2097156 : Nat) : Int) = 2097156 := rfl
  rw [← hnat, set_range_nat _ _ _ (by omega)]
  decide

/-! ## C14: `thread_main` drains the dirty set -/

theorem range_eta (r : Range) : (⟨r.offset, r.length⟩ : Range) = r := by
  cases r; rfl

/-- Ranges that lie at or behind `hi` are left alone by a cut of `[lo, hi)`. -/
theorem cut_ranges_above (lo hi : Nat) (hlh : lo ≤ hi) :
    ∀ rs : List Range, (∀ r ∈ rs, hi ≤ r.offset ∧ 0 < r.length) → cut_ranges rs lo hi = rs := by
  intro rs
  induction rs with
  | nil => intro _; rfl
  | cons r rs ih =>
    intro h
    obtain ⟨h1, h2⟩ := h r (List.mem_cons_self _ _)
    rw [cut_ranges, ih (fun q hq => h q (List.mem_cons_of_mem _ hq))]
    unfold cut_range
    rw [if_neg (by rw [min_def]; split_ifs <;> omega), max_eq_left h1,
      if_pos (by omega)]
    have : r.offset + r.length - r.offset = r.length := by omega
    rw [this, range_eta]
    rfl

/-- Taking a window off the lowest dirty range removes the first bytes of that range and
nothing else. -/
theorem clear_window_eq (next : Range) (rest : List Range) (w : Nat)
    (hwf : WellFormed (next :: rest)) (h1 : 0 < w) (h2 : w ≤ next.length) :
    clear_range (next :: rest) next.offset w =
      (if w < next.length then [⟨next.offset + w, next.length - w⟩] else []) ++ rest := by
  unfold clear_range
  rw [if_neg (by omega), cut_ranges]
  rw [cut_ranges_above next.offset (next.offset + w) (by omega) rest]
  · congr 1
    unfold cut_range
    rw [if_neg (by rw [min_def]; split_ifs <;> omega),
      max_eq_right (by omega : next.offset ≤ next.offset + w)]
    by_cases hlt : w < next.length
    · rw [if_pos (by omega), if_pos hlt]
      have : next.offset + next.length - (next.offset + w) = next.length - w := by omega
      rw [this]
      rfl
    · rw [if_neg (by omega), if_neg hlt]
      rfl
  · intro r hr
    have hgap := hwf.head_lt r hr
    have hpos := hwf.2 r (List.mem_cons_of_mem _ hr)
    exact ⟨by omega, hpos⟩

theorem thread_exit_dirty (s : StringPanel) : (thread_exit s).dirty = s.dirty := by
  unfold thread_exit; rfl

/-- One unpaused iteration of the `while` loop, with the number of flag reads it makes. -/
theorem thread_main_loop_no_pause_succ (doc : List Nat) (oob fuel t : Nat) (s : StringPanel)
    (next : Range) (rest : List Range) (he : s.threads_exit = false)
    (hd : s.dirty = next :: rest) :
    thread_main_loop no_pause doc oob (fuel + 1) t s =
      thread_main_loop no_pause doc oob fuel (window_scan no_pause doc oob t next).t
        (scanned_window doc oob t s next) := by
  rw [thread_main_loop_succ no_pause doc oob fuel t s next rest he hd]
  have hp : (window_scan no_pause doc oob t next).paused = none :=
    scan_window_no_pause_paused _ _ _ _
  rw [hp]
  rfl

/-- The bound on the iterations does not matter once it is at least the number of dirty
bytes. -/
theorem thread_main_loop_no_pause_fuel (doc : List Nat) (oob : Nat) :
    ∀ (fuel fuel2 t : Nat) (s : StringPanel), WellFormed s.dirty → s.threads_exit = false →
      total_length s.dirty ≤ fuel → total_length s.dirty ≤ fuel2 →
      thread_main_loop no_pause doc oob fuel t s =
        thread_main_loop no_pause doc oob fuel2 t s := by
  intro fuel
  induction fuel with
  | zero =>
    intro fuel2 t s hwf _ hf _
    have hd : s.dirty = [] := by
      cases hd : s.dirty with
      | nil => rfl
      | cons next rest =>
        rw [hd] at hf hwf
        have := hwf.2 next (List.mem_cons_self _ _)
        rw [total_length_cons] at hf
        omega
    rw [thread_main_loop_empty _ _ _ _ _ _ hd, thread_main_loop_empty _ _ _ _ _ _ hd]
  | succ fuel ih =>
    intro fuel2 t s hwf he hf hf2
    cases hd : s.dirty with
    | nil =>
      rw [thread_main_loop_empty _ _ _ _ _ _ hd, thread_main_loop_empty _ _ _ _ _ _ hd]
    | cons next rest =>
      have hpos := (hd ▸ hwf).2 next (List.mem_cons_self _ _)
      have hdec := total_length_clear_window next rest (window_length next)
        (by unfold window_length WINDOW_SIZE; omega) (Nat.min_le_left _ _)
      rw [hd] at hf hf2
      cases fuel2 with
      | zero => rw [total_length_cons] at hf2; omega
      | succ fuel2 =>
        rw [thread_main_loop_no_pause_succ doc oob fuel t s next rest he hd,
          thread_main_loop_no_pause_succ doc oob fuel2 t s next rest he hd]
        apply ih
        · rw [scanned_window_dirty]
          exact wellFormed_clear_range _ _ _ hwf
        · rw [scanned_window_threads_exit]; exact he
        · rw [scanned_window_dirty, hd]; omega
        · rw [scanned_window_dirty, hd]; omega

/-- C14: with the exit flag clear and no pause requested, `thread_main` terminates for every
dirty set (a `ByteRangeSet`: ascending ranges of positive length): once the bound on the
iterations is at least the number of dirty bytes the loop returns, with the same result for
every such bound and an empty dirty set. Each iteration takes the window of the lowest range
`next`, with `1 <= window_length = min(length, WINDOW_SIZE) <= WINDOW_SIZE`, and removes
exactly the first `window_length` bytes of that range from the dirty set, so that the number
of dirty bytes goes down by `window_length`; the dirty set stays well formed and the exit
flag clear for the next iteration. -/
theorem C14_thread_main_drains_the_dirty_set (doc : List Nat) (oob t : Nat) (s : StringPanel)
    (hwf : WellFormed s.dirty) (he : s.threads_exit = false) :
    (∃ s', s'.dirty = [] ∧ (thread_exit s').dirty = [] ∧
      thread_main no_pause doc oob t s = .exited (thread_exit s') ∧
      ∀ fuel, total_length s.dirty ≤ fuel →
        thread_main_loop no_pause doc oob fuel t s = .exited (thread_exit s')) ∧
    (∀ next rest, s.dirty = next :: rest →
      1 ≤ window_length next ∧ window_length next ≤ WINDOW_SIZE ∧
      window_length next = min next.length WINDOW_SIZE ∧
      (∀ r ∈ rest, next.offset < r.offset) ∧
      (scanned_window doc oob t s next).dirty =
        (if window_length next < next.length then
          [⟨next.offset + window_length next, next.length - window_length next⟩]
        else []) ++ rest ∧
      (∀ x, Covers (scanned_window doc oob t s next).dirty x ↔
        Covers s.dirty x ∧
          ¬ (next.offset ≤ x ∧ x < next.offset + window_length next)) ∧
      total_length (scanned_window doc oob t s next).dirty + window_length next =
        total_length s.dirty ∧
      total_length (scanned_window doc oob t s next).dirty < total_length s.dirty ∧
      WellFormed (scanned_window doc oob t s next).dirty ∧
      (scanned_window doc oob t s next).threads_exit = false ∧
      ∀ fuel, thread_main_loop no_pause doc oob (fuel + 1) t s =
        thread_main_loop no_pause doc oob fuel (window_scan no_pause doc oob t next).t
          (scanned_window doc oob t s next)) := by
  constructor
  · obtain ⟨s', h1, h2, _⟩ := thread_main_loop_no_pause_inv doc oob (fun _ => True)
      (fun _ _ _ _ _ _ _ => trivial) (total_length s.dirty) t s trivial hwf he (le_refl _)
    refine ⟨s', h2, by rw [thread_exit_dirty]; exact h2, h1, fun fuel hf => ?_⟩
    rw [thread_main_loop_no_pause_fuel doc oob fuel (total_length s.dirty) t s hwf he hf
      (le_refl _)]
    exact h1
  · intro next rest hd
    have hwf2 : WellFormed (next :: rest) := hd ▸ hwf
    have hpos := hwf2.2 next (List.mem_cons_self _ _)
    have hw1 : 1 ≤ window_length next := by unfold window_length WINDOW_SIZE; omega
    have hw2 : window_length next ≤ next.length := Nat.min_le_left _ _
    have hdirty : (scanned_window doc oob t s next).dirty =
        (if window_length next < next.length then
          [⟨next.offset + window_length next, next.length - window_length next⟩]
        else []) ++ rest := by
      rw [scanned_window_dirty, hd]
      exact clear_window_eq next rest (window_length next) hwf2 hw1 hw2
    have htotal : total_length (scanned_window doc oob t s next).dirty + window_length next =
        total_length s.dirty := by
      rw [hdirty, hd, total_length_append, total_length_cons]
      split_ifs with hlt
      · rw [total_length_cons]
        simp only [total_length, List.map_nil, List.sum_nil]
        omega
      · simp only [total_length, List.map_nil, List.sum_nil]
        omega
    refine ⟨hw1, window_length_le next, rfl, ?_, hdirty, ?_, htotal, by omega, ?_, ?_, ?_⟩
    · intro r hr
      have := hwf2.head_lt r hr
      omega
    · intro x
      rw [scanned_window_dirty, covers_clear_range]
      constructor
      · rintro ⟨h1, h2⟩
        exact ⟨h1, by omega⟩
      · rintro ⟨h1, h2⟩
        exact ⟨h1, by omega⟩
    · rw [scanned_window_dirty]
      exact wellFormed_clear_range _ _ _ hwf
    · rw [scanned_window_threads_exit]; exact he
    · intro fuel
      exact thread_main_loop_no_pause_succ doc oob fuel t s next rest he hd

theorem C14_thread_main_drains_witness :
    WellFormed (fresh_index [65, 66, 67, 68, 69]).dirty ∧
    (fresh_index [65, 66, 67, 68, 69]).threads_exit = false ∧
    (∃ s', s'.dirty = [] ∧ (thread_exit s').dirty = [] ∧
      thread_main no_pause [65, 66, 67, 68, 69] 0 0 (fresh_index [65, 66, 67, 68, 69]) =
        .exited (thread_exit s') ∧
      ∀ fuel, total_length (fresh_index [65, 66, 67, 68, 69]).dirty ≤ fuel →
        thread_main_loop no_pause [65, 66, 67, 68, 69] 0 fuel 0
          (fresh_index [65, 66, 67, 68, 69]) = .exited (thread_exit s')) :=
  ⟨⟨by decide, by decide⟩, by decide,
    (C14_thread_main_drains_the_dirty_set [65, 66, 67, 68, 69] 0 0
      (fresh_index [65, 66, 67, 68, 69]) ⟨by decide, by decide⟩ (by decide)).1⟩

/-! ## C16: the indices read by the scan loop -/

/-- The traced inner loop is the inner loop. -/
theorem extend_string_traced_fst (pause : Nat → Bool) (data : List Nat) (oob : Nat) :
    ∀ (fuel i string_length t : Nat),
      (extend_string_traced pause data oob fuel i string_length t).1 =
        extend_string pause data oob fuel i string_length t := by
  intro fuel
  induction fuel with
  | zero => intro i l t; rfl
  | succ fuel ih =>
    intro i l t
    rw [extend_string_traced, extend_string]
    cases hp : pause t with
    | true => simp
    | false =>
      by_cases hc : (isascii (data_p data oob i) && isprint (data_p data oob i)
          && decide (i < data.length)) = true
      · have hc2 : (!false && isascii (data_p data oob i) && isprint (data_p data oob i)
            && decide (i < data.length)) = true := by simpa using hc
        rw [if_neg (by simp), if_pos hc, if_pos hc2]
        exact ih _ _ _
      · have hc2 : ¬ (!false && isascii (data_p data oob i) && isprint (data_p data oob i)
            && decide (i < data.length)) = true := by simpa using hc
        rw [if_neg (by simp), if_neg hc, if_neg hc2]

/-- The traced `for` loop is the `for` loop. -/
theorem scan_loop_traced_fst (pause : Nat → Bool) (data : List Nat) (oob base : Nat) :
    ∀ (fuel i t : Nat),
      (scan_loop_traced pause data oob base fuel i t).1 =
        scan_loop pause data oob base fuel i t := by
  intro fuel
  induction fuel with
  | zero => intro i t; rfl
  | succ fuel ih =>
    intro i t
    rw [scan_loop_traced, scan_loop]
    by_cases hi : i < data.length
    · rw [if_pos hi, if_pos hi]
      simp only [extend_string_traced_fst]
      split_ifs
      · rfl
      · simp only [ih]
      · simp only [ih]
    · rw [if_neg hi, if_neg hi]

/-- Every read of the inner loop is at an index from `i` on and at most `data.size()`. -/
theorem extend_string_traced_reads_le (pause : Nat → Bool) (data : List Nat) (oob : Nat) :
    ∀ (fuel i string_length t : Nat), i ≤ data.length →
      ∀ r ∈ (extend_string_traced pause data oob fuel i string_length t).2,
        i ≤ r ∧ r ≤ data.length := by
  intro fuel
  induction fuel with
  | zero => intro i l t _ r hr; simp [extend_string_traced] at hr
  | succ fuel ih =>
    intro i l t hi r hr
    rw [extend_string_traced] at hr
    split_ifs at hr with hp hc
    · simp at hr
    · simp only [Bool.and_eq_true, decide_eq_true_eq] at hc
      rcases List.mem_cons.mp hr with h | h
      · omega
      · have := ih (i + 1) (l + 1) (t + 1) (by omega) r h
        omega
    · simp only [List.mem_singleton] at hr
      omega

/-- Without a pause the inner loop reads `data_p` at the index at which it stops. -/
theorem extend_string_traced_reads_exit (data : List Nat) (oob : Nat) :
    ∀ (fuel i string_length t : Nat), 0 < fuel →
      (extend_string_traced no_pause data oob fuel i string_length t).1.1 ∈
          (extend_string_traced no_pause data oob fuel i string_length t).2 ∨
        fuel + i =
          (extend_string_traced no_pause data oob fuel i string_length t).1.1 := by
  intro fuel
  induction fuel with
  | zero => intro i l t h; omega
  | succ fuel ih =>
    intro i l t _
    rw [extend_string_traced]
    rw [if_neg (by simp [no_pause])]
    split_ifs with hc
    · cases fuel with
      | zero => right; simp [extend_string_traced]; omega
      | succ fuel =>
        rcases ih (i + 1) (l + 1) (t + 1) (by omega) with h | h
        · left; exact List.mem_cons_of_mem _ h
        · right; rw [← h]; omega
    · left; simp

/-- No read of the scan loop is further than one element past the end of the data. -/
theorem scan_loop_traced_reads_le (pause : Nat → Bool) (data : List Nat) (oob base : Nat) :
    ∀ (fuel i t : Nat), ∀ r ∈ (scan_loop_traced pause data oob base fuel i t).2,
      r ≤ data.length := by
  intro fuel
  induction fuel with
  | zero => intro i t r hr; simp [scan_loop_traced] at hr
  | succ fuel ih =>
    intro i t r hr
    rw [scan_loop_traced] at hr
    dsimp only at hr
    have hext := extend_string_traced_reads_le pause data oob (data.length + 1 - i) i 0 t
    split_ifs at hr with hi hp hl
    · exact (hext (by omega) r hr).2
    · rcases List.mem_append.mp hr with h | h
      · exact (hext (by omega) r h).2
      · exact ih _ _ r h
    · rcases List.mem_append.mp hr with h | h
      · exact (hext (by omega) r h).2
      · exact ih _ _ r h
    · simp at hr

/-- The reads of one unpaused iteration of the `for` loop and of those after it. -/
theorem scan_loop_traced_reads_succ (data : List Nat) (oob base fuel i t : Nat)
    (hi : i < data.length) :
    (scan_loop_traced no_pause data oob base (fuel + 1) i t).2 =
      (extend_string_traced no_pause data oob (data.length + 1 - i) i 0 t).2 ++
        (scan_loop_traced no_pause data oob base fuel
          ((extend_string_traced no_pause data oob (data.length + 1 - i) i 0 t).1.1 + 1)
          ((extend_string_traced no_pause data oob (data.length + 1 - i) i 0 t).1.2.2
            + 1)).2 := by
  rw [scan_loop_traced, if_pos hi]
  simp only [no_pause, Bool.false_eq_true, if_false]
  split_ifs <;> rfl

/-- When the last byte of the data is printable and no pause is requested, the scan loop
reads `data_p[data.size()]`. -/
theorem scan_loop_traced_reads_past_end (data : List Nat) (oob base : Nat)
    (hlast : PrintableAt data (data.length - 1)) :
    ∀ (fuel i t : Nat), i < data.length → data.length - i ≤ fuel →
      data.length ∈ (scan_loop_traced no_pause data oob base fuel i t).2 := by
  intro fuel
  induction fuel with
  | zero => intro i t hi hf; omega
  | succ fuel ih =>
    intro i t hi hf
    rw [scan_loop_traced_reads_succ data oob base fuel i t hi]
    obtain ⟨j, hj, h1, h2, _, h4⟩ :=
      extend_string_no_pause data oob (data.length + 1 - i) i 0 t (by omega) (le_refl _)
    have hfst := extend_string_traced_fst no_pause data oob (data.length + 1 - i) i 0 t
    rw [hj] at hfst
    have hexit := extend_string_traced_reads_exit data oob (data.length + 1 - i) i 0 t
      (by omega)
    rw [hfst] at hexit ⊢
    have hmem : j ∈ (extend_string_traced no_pause data oob (data.length + 1 - i) i 0 t).2 := by
      rcases hexit with h | h
      · exact h
      · exfalso
        have : data.length + 1 - i + i = j := h
        omega
    by_cases hjl : j = data.length
    · rw [← hjl]
      exact List.mem_append_left _ (by rw [hjl] at hmem ⊢; exact hmem)
    · have hne : j ≠ data.length - 1 := by
        intro h; rw [h] at h4; exact h4 hlast
      exact List.mem_append_right _ (ih (j + 1) _ (by omega) (by omega))

theorem scan_window_reads_le (pause : Nat → Bool) (data : List Nat) (oob t : Nat) :
    ∀ r ∈ scan_window_reads pause data oob t, r ≤ data.length :=
  scan_loop_traced_reads_le pause data oob 0 data.length 0 t

theorem scan_window_reads_past_end (data : List Nat) (oob t : Nat) (hne : data ≠ [])
    (hlast : PrintableAt data (data.length - 1)) :
    data.length ∈ scan_window_reads no_pause data oob t := by
  apply scan_loop_traced_reads_past_end data oob 0 hlast
  · exact List.length_pos.mpr hne
  · omega

/-- C16 fails when the last byte read is printable. The scan of the four bytes "ABCD" (the
whole of a four-byte buffer, whose read window of 8 bytes is cut to the 4 there are) reads
`data_p` at the indices 0, 1, 2, 3 and 4: the run reaches the end of the data, and the loop
condition reads `data_p[4]` before it tests `4 < data.size()`, with `data.size()` = 4. The
scan of an empty read makes no read at all. -/
theorem C16_scan_reads_one_past_the_end :
    read_data [65, 66, 67, 68] (window_base_adj ⟨0, 4⟩) (window_length_adj ⟨0, 4⟩) =
      [65, 66, 67, 68] ∧
    scan_window_reads no_pause [65, 66, 67, 68] 0 0 = [0, 1, 2, 3, 4] ∧
    ([65, 66, 67, 68] : List Nat).length = 4 ∧
    4 ∈ scan_window_reads no_pause [65, 66, 67, 68] 0 0 ∧
    (scan_loop_traced no_pause [65, 66, 67, 68] 0 0 4 0 0).1 =
      scan_window no_pause [65, 66, 67, 68] 0 0 0 ∧
    scan_window_reads no_pause [] 0 0 = [] := by
  decide

/-! ## C15: the read window and a run across the boundary of two windows -/

/-- The read window of a window: from `min(window_base, 4)` bytes before it to 4 bytes
behind it. -/
theorem read_window_eq (next : Range) :
    window_base_adj next = next.offset - min next.offset MIN_STRING_LENGTH ∧
    window_base_adj next + window_length_adj next =
      next.offset + window_length next + MIN_STRING_LENGTH := by
  unfold window_base_adj window_length_adj window_pre
  refine ⟨rfl, ?_⟩
  have := Nat.min_le_left next.offset MIN_STRING_LENGTH
  omega

/-- The part of a maximal run of the document that lies in the bytes `[B, B + L)` is a
maximal run of the bytes read from there. -/
theorem maximalRun_read_data (doc : List Nat) (B L o l : Nat) (hrun : IsMaximalRun doc o l)
    (hne : max o B < min (o + l) (B + L)) :
    IsMaximalRun (read_data doc B L) (max o B - B) (min (o + l) (B + L) - max o B) := by
  obtain ⟨_, hall, hleft, hright⟩ := hrun
  have hs1 : o ≤ max o B := le_max_left _ _
  have hs2 : B ≤ max o B := le_max_right _ _
  have hs3 : max o B = o ∨ max o B = B := by
    rcases le_total o B with h | h
    · right; exact max_eq_right h
    · left; exact max_eq_left h
  have he1 : min (o + l) (B + L) ≤ o + l := min_le_left _ _
  have he2 : min (o + l) (B + L) ≤ B + L := min_le_right _ _
  have he3 : min (o + l) (B + L) = o + l ∨ min (o + l) (B + L) = B + L := by
    rcases le_total (o + l) (B + L) with h | h
    · left; exact min_eq_left h
    · right; exact min_eq_right h
  generalize max o B = s at *
  generalize min (o + l) (B + L) = e at *
  refine ⟨by omega, ?_, ?_, ?_⟩
  · intro j hj1 hj2
    rw [printableAt_read_data]
    exact ⟨by omega, hall (B + j) (by omega) (by omega)⟩
  · by_cases h0 : s - B = 0
    · left; exact h0
    · right
      rw [printableAt_read_data]
      rintro ⟨_, hp⟩
      rcases hleft with h | h
      · omega
      · apply h
        have : B + (s - B - 1) = o - 1 := by omega
        rw [this] at hp
        exact hp
  · rw [printableAt_read_data]
    rintro ⟨hlt, hp⟩
    have h2 : B + (s - B + (e - s)) = o + l := by omega
    rw [h2] at hp
    exact hright hp

/-- What an unpaused scan of a window reports: the maximal runs, of length at least
`MIN_STRING_LENGTH`, of the bytes read for it. -/
theorem mem_window_scan_found (doc : List Nat) (oob t : Nat) (next : Range) (o l : Nat) :
    (⟨o, l⟩ : Range) ∈ (window_scan no_pause doc oob t next).found ↔
      ∃ i, o = window_base_adj next + i ∧
        IsMaximalRun
          (read_data doc (window_base_adj next) (window_length_adj next)) i l ∧
        MIN_STRING_LENGTH ≤ l := by
  unfold window_scan scan_window
  rw [(scan_loop_no_pause _ oob (window_base_adj next) _ 0 t (by omega) (Or.inl rfl)).2.1 o l]
  constructor
  · rintro ⟨i, h1, _, h2, h3⟩
    exact ⟨i, h1, h2, h3⟩
  · rintro ⟨i, h1, h2, h3⟩
    exact ⟨i, h1, Nat.zero_le _, h2, h3⟩

/-- The scan of a window reports the part of a maximal run that lies in its read window, when
that part has at least `MIN_STRING_LENGTH` bytes. -/
theorem window_scan_reports_part (doc : List Nat) (oob t : Nat) (next : Range) (o l : Nat)
    (hrun : IsMaximalRun doc o l)
    (hpart : max o (window_base_adj next) + MIN_STRING_LENGTH ≤
      min (o + l) (window_base_adj next + window_length_adj next)) :
    (⟨max o (window_base_adj next),
        min (o + l) (window_base_adj next + window_length_adj next) -
          max o (window_base_adj next)⟩ : Range) ∈
      (window_scan no_pause doc oob t next).found := by
  rw [mem_window_scan_found]
  have hs2 : window_base_adj next ≤ max o (window_base_adj next) := le_max_right _ _
  refine ⟨max o (window_base_adj next) - window_base_adj next, by omega,
    maximalRun_read_data doc _ _ o l hrun (by unfold MIN_STRING_LENGTH at hpart; omega), ?_⟩
  omega

/-- The scan of a window reports a maximal run of the document in full, with its start and
its length, exactly when the run lies in the read window. -/
theorem window_scan_reports_in_full_iff (doc : List Nat) (oob t : Nat) (next : Range)
    (o l : Nat) (hrun : IsMaximalRun doc o l) (hl : MIN_STRING_LENGTH ≤ l) :
    (⟨o, l⟩ : Range) ∈ (window_scan no_pause doc oob t next).found ↔
      window_base_adj next ≤ o ∧
        o + l ≤ window_base_adj next + window_length_adj next := by
  constructor
  · intro h
    obtain ⟨i, h1, h2, _⟩ := (mem_window_scan_found doc oob t next o l).mp h
    have hp := h2.2.1 (i + l - 1) (by have := h2.1; omega) (by have := h2.1; omega)
    rw [printableAt_read_data] at hp
    have := h2.1
    exact ⟨by omega, by omega⟩
  · rintro ⟨h1, h2⟩
    have h := window_scan_reports_part doc oob t next o l hrun
      (by rw [max_eq_left h1, min_eq_left h2]; omega)
    rw [max_eq_left h1, min_eq_left h2] at h
    have he : o + l - o = l := by omega
    rw [he] at h
    exact h

/-- C15, as the code behaves: the read window of a window is `[window_base -
min(window_base, 4), window_base + window_length + 4)`. For two adjacent windows taken from a
dirty range longer than `WINDOW_SIZE` and a maximal printable run of length at least 4 that
crosses their boundary, each of the two scans reports the part of the run that lies in its
read window; both parts are at least 4 bytes long and both hold the last byte of the first
window and the first byte of the second, so the two reported ranges overlap. A scan reports
the run in full exactly when the run lies in its read window. -/
theorem C15_each_window_reports_its_part_of_a_run_across_the_boundary
    (doc : List Nat) (oob t1 t2 : Nat) (next : Range) (o l : Nat)
    (hbig : WINDOW_SIZE < next.length) (hrun : IsMaximalRun doc o l)
    (hl : MIN_STRING_LENGTH ≤ l)
    (hstraddle : o < next.offset + WINDOW_SIZE ∧ next.offset + WINDOW_SIZE < o + l) :
    (∀ r : Range, window_base_adj r = r.offset - min r.offset MIN_STRING_LENGTH ∧
      window_base_adj r + window_length_adj r =
        r.offset + window_length r + MIN_STRING_LENGTH) ∧
    (⟨max o (window_base_adj next),
        min (o + l) (next.offset + WINDOW_SIZE + MIN_STRING_LENGTH) -
          max o (window_base_adj next)⟩ : Range) ∈
      (window_scan no_pause doc oob t1 next).found ∧
    (⟨max o (next.offset + WINDOW_SIZE - MIN_STRING_LENGTH),
        min (o + l) (next.offset + WINDOW_SIZE +
            window_length ⟨next.offset + WINDOW_SIZE, next.length - WINDOW_SIZE⟩ +
            MIN_STRING_LENGTH) -
          max o (next.offset + WINDOW_SIZE - MIN_STRING_LENGTH)⟩ : Range) ∈
      (window_scan no_pause doc oob t2
        ⟨next.offset + WINDOW_SIZE, next.length - WINDOW_SIZE⟩).found ∧
    (max o (window_base_adj next) + MIN_STRING_LENGTH ≤
        min (o + l) (next.offset + WINDOW_SIZE + MIN_STRING_LENGTH) ∧
      max o (window_base_adj next) < next.offset + WINDOW_SIZE ∧
      next.offset + WINDOW_SIZE <
        min (o + l) (next.offset + WINDOW_SIZE + MIN_STRING_LENGTH)) ∧
    (max o (next.offset + WINDOW_SIZE - MIN_STRING_LENGTH) + MIN_STRING_LENGTH ≤
        min (o + l) (next.offset + WINDOW_SIZE +
          window_length ⟨next.offset + WINDOW_SIZE, next.length - WINDOW_SIZE⟩ +
          MIN_STRING_LENGTH) ∧
      max o (next.offset + WINDOW_SIZE - MIN_STRING_LENGTH) < next.offset + WINDOW_SIZE ∧
      next.offset + WINDOW_SIZE <
        min (o + l) (next.offset + WINDOW_SIZE +
          window_length ⟨next.offset + WINDOW_SIZE, next.length - WINDOW_SIZE⟩ +
          MIN_STRING_LENGTH)) ∧
    ((⟨o, l⟩ : Range) ∈ (window_scan no_pause doc oob t1 next).found ↔
      window_base_adj next ≤ o ∧ o + l ≤ next.offset + WINDOW_SIZE + MIN_STRING_LENGTH) ∧
    ((⟨o, l⟩ : Range) ∈ (window_scan no_pause doc oob t2
        ⟨next.offset + WINDOW_SIZE, next.length - WINDOW_SIZE⟩).found ↔
      next.offset + WINDOW_SIZE - MIN_STRING_LENGTH ≤ o ∧
        o + l ≤ next.offset + WINDOW_SIZE +
          window_length ⟨next.offset + WINDOW_SIZE, next.length - WINDOW_SIZE⟩ +
          MIN_STRING_LENGTH) := by
  obtain ⟨hs1, hs2⟩ := hstraddle
  have hw1 : window_length next = WINDOW_SIZE := window_length_big next hbig
  have hE1 : window_base_adj next + window_length_adj next =
      next.offset + WINDOW_SIZE + MIN_STRING_LENGTH := by
    rw [(read_window_eq next).2, hw1]
  have hB1 : window_base_adj next ≤ next.offset := by
    rw [(read_window_eq next).1]; omega
  have hB2 : window_base_adj ⟨next.offset + WINDOW_SIZE, next.length - WINDOW_SIZE⟩ =
      next.offset + WINDOW_SIZE - MIN_STRING_LENGTH := by
    rw [(read_window_eq _).1]
    show next.offset + WINDOW_SIZE - min (next.offset + WINDOW_SIZE) MIN_STRING_LENGTH = _
    rw [min_eq_right (by unfold WINDOW_SIZE MIN_STRING_LENGTH; omega)]
  have hE2 : window_base_adj ⟨next.offset + WINDOW_SIZE, next.length - WINDOW_SIZE⟩ +
      window_length_adj ⟨next.offset + WINDOW_SIZE, next.length - WINDOW_SIZE⟩ =
      next.offset + WINDOW_SIZE +
        window_length ⟨next.offset + WINDOW_SIZE, next.length - WINDOW_SIZE⟩ +
        MIN_STRING_LENGTH := (read_window_eq _).2
  have hw2 : 1 ≤ window_length ⟨next.offset + WINDOW_SIZE, next.length - WINDOW_SIZE⟩ := by
    unfold window_length
    show 1 ≤ min (next.length - WINDOW_SIZE) WINDOW_SIZE
    rw [min_def]
    unfold WINDOW_SIZE at hbig ⊢
    split_ifs <;> omega
  have hpart1 : max o (window_base_adj next) + MIN_STRING_LENGTH ≤
        min (o + l) (next.offset + WINDOW_SIZE + MIN_STRING_LENGTH) ∧
      max o (window_base_adj next) < next.offset + WINDOW_SIZE ∧
      next.offset + WINDOW_SIZE <
        min (o + l) (next.offset + WINDOW_SIZE + MIN_STRING_LENGTH) := by
    rw [max_def, min_def]
    unfold WINDOW_SIZE MIN_STRING_LENGTH at *
    split_ifs <;> omega
  have hpart2 : max o (next.offset + WINDOW_SIZE - MIN_STRING_LENGTH) + MIN_STRING_LENGTH ≤
        min (o + l) (next.offset + WINDOW_SIZE +
          window_length ⟨next.offset + WINDOW_SIZE, next.length - WINDOW_SIZE⟩ +
          MIN_STRING_LENGTH) ∧
      max o (next.offset + WINDOW_SIZE - MIN_STRING_LENGTH) < next.offset + WINDOW_SIZE ∧
      next.offset + WINDOW_SIZE <
        min (o + l) (next.offset + WINDOW_SIZE +
          window_length ⟨next.offset + WINDOW_SIZE, next.length - WINDOW_SIZE⟩ +
          MIN_STRING_LENGTH) := by
    generalize window_length ⟨next.offset + WINDOW_SIZE, next.length - WINDOW_SIZE⟩ = w2
      at hw2 ⊢
    rw [max_def, min_def]
    unfold WINDOW_SIZE MIN_STRING_LENGTH at *
    split_ifs <;> omega
  refine ⟨read_window_eq, ?_, ?_, hpart1, hpart2, ?_, ?_⟩
  · have h := window_scan_reports_part doc oob t1 next o l hrun (by rw [hE1]; exact hpart1.1)
    rw [hE1] at h
    exact h
  · have h := window_scan_reports_part doc oob t2
      ⟨next.offset + WINDOW_SIZE, next.length - WINDOW_SIZE⟩ o l hrun
      (by rw [hE2, hB2]; exact hpart2.1)
    rw [hE2, hB2] at h
    exact h
  · rw [window_scan_reports_in_full_iff doc oob t1 next o l hrun hl, hE1]
  · rw [window_scan_reports_in_full_iff doc oob t2 _ o l hrun hl, hE2, hB2]

theorem C15_each_window_reports_its_part_witness :
    WINDOW_SIZE < (⟨0, 2097257⟩ : Range).length ∧
    IsMaximalRun boundary_example 2097147 10 ∧
    (⟨max 2097147 (window_base_adj ⟨0, 2097257⟩),
        min (2097147 + 10) (0 + WINDOW_SIZE + MIN_STRING_LENGTH) -
          max 2097147 (window_base_adj ⟨0, 2097257⟩)⟩ : Range) ∈
      (window_scan no_pause boundary_example 0 0 ⟨0, 2097257⟩).found :=
  ⟨by decide, boundary_example_run,
    (C15_each_window_reports_its_part_of_a_run_across_the_boundary boundary_example 0 0 0
      ⟨0, 2097257⟩ 2097147 10 (by decide) boundary_example_run (by decide)
      ⟨by decide, by decide⟩).2.1⟩

/-- C15 as stated fails: the printable run (2097147, 10) of `boundary_example` crosses the
boundary 2097152 between the first window and the second, and neither the scan of the
first window, which reads up to 2097156, nor the scan of the second, which reads from
2097148 on, reports the range (2097147, 10). -/
theorem C15_run_across_the_boundary_reported_in_full_by_neither_window :
    IsMaximalRun boundary_example 2097147 10 ∧
    (2097147 < 0 + WINDOW_SIZE ∧ 0 + WINDOW_SIZE < 2097147 + 10) ∧
    clear_range [⟨0, 2097257⟩] 0 (window_length ⟨0, 2097257⟩) = [⟨2097152, 105⟩] ∧
    ∀ t1 t2 : Nat,
      (⟨2097147, 10⟩ : Range) ∉
        (window_scan no_pause boundary_example 0 t1 ⟨0, 2097257⟩).found ∧
      (⟨2097147, 10⟩ : Range) ∉
        (window_scan no_pause boundary_example 0 t2 ⟨2097152, 105⟩).found := by
  refine ⟨boundary_example_run, by decide, by decide, fun t1 t2 => ⟨?_, ?_⟩⟩
  · rw [window_scan_reports_in_full_iff _ _ _ _ _ _ boundary_example_run (by decide)]
    decide
  · rw [window_scan_reports_in_full_iff _ _ _ _ _ _ boundary_example_run (by decide)]
    decide

end REHex
